import Mathlib

/-! The query engine and interner of `chpl::Context`.

A shallow embedding of `compiler/next/lib/Queries/Context.cpp` (with the
declarations of `compiler/next/include/chpl/Queries/Context.h`) and proofs of
properties of the can-reuse decision, the active-query stack, the string
interner and its garbage collection.

Conventions of the embedding:

* Result cells (`QueryMapResultBase` objects) live at addresses; a pointer to
  a cell is a `Ptr`, a possibly-null pointer is an `Option Ptr`, and the
  cells owned by the query maps are the function `Context.results` from
  addresses to cell contents.
* `std::vector` is a `List` whose last element is `back()`.
* A function whose C++ body can recurse without bound takes a `fuel`
  argument bounding the depth of nested calls and returns `none` when the
  fuel is used up; a failed `assert` or a use of `back()` on an empty vector
  also gives `none`.
-/

set_option autoImplicit false

namespace chpl

/-! ## Data model -/

/-- Modelled from the spec: `querydetail::RevisionNumber` is declared in `ContextDetail.h`,
which is not among the sources; the specification describes a monotonically increasing
64-bit counter. It is only incremented and compared, and is taken as a natural number
(the counter stays below the point where 64 bits would overflow). -/
abbrev RevisionNumber := Nat

/-- Address of a result cell (`QueryMapResultBase*`, non-null). -/
abbrev Ptr := Nat

/-- Modelled from the spec: an error record carried by a result cell or a frame
(`ErrorMessage` is declared in `AST/ErrorMessage.h`, which is not among the sources). The
engine only moves and copies these records. -/
abbrev ErrorMessage := String

/-- Modelled from the spec: a result cell. `querydetail::QueryMapResultBase` is declared in
`ContextDetail.h`, which is not among the sources; these are the fields that `Context.cpp`
reads and writes, which are those of the specification's data model (the memoized value
is not touched by `Context.cpp`). -/
structure QueryMapResultBase where
  lastComputed : RevisionNumber
  lastCheckedAndReused : RevisionNumber
  lastChanged : RevisionNumber
  dependencies : List Ptr
  errors : List ErrorMessage
deriving DecidableEq, Repr

/-- A frame of the active-query stack: `Context::QueryDepsEntry`, built by
`QueryDepsEntry(queryName)` with empty `dependencies` and `errors`. -/
structure QueryDepsEntry where
  queryFunction : Nat
  dependencies : List Ptr
  errors : List ErrorMessage
deriving DecidableEq, Repr

/-- One item of `uniqueStringsTable`: the pair `{key, buf}` together with the
bytes of the heap buffer that `buf` points to (`buf[0]` is the GC mark,
`buf[1]` the unused metadata byte, then the string data and its terminator). -/
structure UniqueStrEntry where
  key : Nat
  buf : Nat
  bytes : List Nat
deriving DecidableEq, Repr

/-- The members of `chpl::Context`. `QM` is the type of the query maps held in
`queryDB` (`querydetail::QueryMapBase`, declared in `ContextDetail.h`);
`results` gives the contents of the result cells those maps own, by address. -/
structure Context (QM : Type) where
  uniqueStringsTable : List UniqueStrEntry
  queryDB : List (Nat × QM)
  results : Ptr → QueryMapResultBase
  queryDeps : List QueryDepsEntry
  currentRevisionNumber : RevisionNumber
  lastPrepareToGCRevisionNumber : RevisionNumber
  gcCounter : RevisionNumber

variable {QM : Type}

/-! ## The can-reuse decision -/

/-- The assignment `resultEntry->lastCheckedAndReused = this->currentRevisionNumber`. -/
def setLastCheckedAndReused (ctx : Context QM) (resultEntry : Ptr) : Context QM :=
  { ctx with
    results := Function.update ctx.results resultEntry
      { ctx.results resultEntry with lastCheckedAndReused := ctx.currentRevisionNumber } }

/-- The loop `for (QueryMapResultBase* dependency : resultEntry->dependencies)` of
`Context::queryCanUseSavedResult`, over the dependencies not yet visited;
`recurse` is the nested call of `queryCanUseSavedResult`. The result `false`
is the early `return false`, `true` means the loop ran to its end. -/
def checkDependencies (recurse : Context QM → Option Ptr → Option (Bool × Context QM))
    (resultEntry : Ptr) : Context QM → List Ptr → Option (Bool × Context QM)
  | ctx, [] => some (true, ctx)
  | ctx, dependency :: rest =>
    if (ctx.results dependency).lastChanged > (ctx.results resultEntry).lastComputed then
      some (false, ctx)
    else
      match recurse ctx (some dependency) with
      | none => none
      | some (false, ctx1) => some (false, ctx1)
      | some (true, ctx1) => checkDependencies recurse resultEntry ctx1 rest

/-- The method `Context::queryCanUseSavedResult`. The first component of the result is the
returned `bool`, the second the context afterwards. -/
def queryCanUseSavedResult : Nat → Context QM → Option Ptr → Option (Bool × Context QM)
  | _, ctx, none => some (false, ctx)
  | 0, _, some _ => none
  | fuel + 1, ctx, some resultEntry =>
    if (ctx.results resultEntry).lastComputed = ctx.currentRevisionNumber ∨
        (ctx.results resultEntry).lastCheckedAndReused = ctx.currentRevisionNumber then
      some (true, ctx)
    else if (ctx.results resultEntry).dependencies.length > 0 then
      match checkDependencies (queryCanUseSavedResult fuel) resultEntry ctx
          (ctx.results resultEntry).dependencies with
      | none => none
      | some (false, ctx1) => some (false, ctx1)
      | some (true, ctx1) => some (true, setLastCheckedAndReused ctx1 resultEntry)
    else if ctx.currentRevisionNumber > (ctx.results resultEntry).lastComputed then
      some (false, ctx)
    else
      some (true, setLastCheckedAndReused ctx resultEntry)

/-- The method `Context::queryCanUseSavedResultAndPushIfNot` (the trace output left out). -/
def queryCanUseSavedResultAndPushIfNot (fuel : Nat) (ctx : Context QM) (queryName : Nat)
    (resultEntry : Option Ptr) : Option (Bool × Context QM) :=
  match queryCanUseSavedResult fuel ctx resultEntry with
  | none => none
  | some (false, ctx1) =>
    some (false, { ctx1 with queryDeps := ctx1.queryDeps ++ [⟨queryName, [], []⟩] })
  | some (true, ctx1) => some (true, ctx1)

/-! ## The active-query stack -/

/-- The method `Context::saveDependenciesAndErrorsInParent`: the parent frame is
`queryDeps.back()`. -/
def saveDependenciesAndErrorsInParent (ctx : Context QM) (resultEntry : Ptr) : Context QM :=
  match ctx.queryDeps.getLast? with
  | none => ctx
  | some back =>
    let back1 := { back with dependencies := back.dependencies ++ [resultEntry] }
    let back2 :=
      if (ctx.results resultEntry).errors.length > 0 then
        { back1 with errors := back1.errors ++ (ctx.results resultEntry).errors }
      else back1
    { ctx with queryDeps := ctx.queryDeps.dropLast ++ [back2] }

/-- The method `Context::endQueryHandleDependency`: the two `swap`s move the lists of
`queryDeps.back()` into the result cell, `pop_back` drops the frame (and with it the
cell's previous lists), then the parent frame is updated. On an empty stack
`queryDeps.back()` is undefined: `none`. -/
def endQueryHandleDependency (ctx : Context QM) (result : Ptr) : Option (Context QM) :=
  match ctx.queryDeps.getLast? with
  | none => none
  | some back =>
    let ctx1 : Context QM :=
      { ctx with
        results := Function.update ctx.results result
          { ctx.results result with dependencies := back.dependencies, errors := back.errors }
        queryDeps := ctx.queryDeps.dropLast }
    some (saveDependenciesAndErrorsInParent ctx1 result)

/-- The method `Context::queryNoteError`; `none` when `assert(queryDeps.size() > 0)` fails. -/
def queryNoteError (ctx : Context QM) (error : ErrorMessage) : Option (Context QM) :=
  match ctx.queryDeps.getLast? with
  | none => none
  | some back =>
    some { ctx with queryDeps := ctx.queryDeps.dropLast ++ [{ back with errors := back.errors ++ [error] }] }

/-! ## Revisions -/

/-- The constructor `Context::Context()`: empty tables, revision 1, last prepare-to-GC
revision 0, GC counter 1. No result cell exists yet; every address reads as a blank cell. -/
def Context.build : Context QM :=
  { uniqueStringsTable := []
    queryDB := []
    results := fun _ => ⟨0, 0, 0, [], []⟩
    queryDeps := []
    currentRevisionNumber := 1
    lastPrepareToGCRevisionNumber := 0
    gcCounter := 1 }

/-- The method `Context::advanceToNextRevision` (the trace output left out). -/
def advanceToNextRevision (ctx : Context QM) (prepareToGC : Bool) : Context QM :=
  let ctx1 := { ctx with currentRevisionNumber := ctx.currentRevisionNumber + 1 }
  if prepareToGC then
    { ctx1 with
      lastPrepareToGCRevisionNumber := ctx1.currentRevisionNumber
      gcCounter := ctx1.gcCounter + 1 }
  else ctx1

/-! ## The interner -/

/-- The C string at a pointer whose following bytes are `bytes`: the bytes before the
first NUL. -/
def cstr (bytes : List Nat) : List Nat :=
  bytes.takeWhile (fun b => b != 0)

/-- The function `strlen`. -/
def strlen (str : List Nat) : Nat :=
  (cstr str).length

/-- The platform's allocation functions as seen by one call of `allocateEvenAligned`:
the addresses `malloc(amt)` and `aligned_alloc(alignment, size)` return (0 is the null
pointer), and `sizeof(void*)`. -/
structure Allocator where
  pointerSize : Nat
  malloc : Nat → Nat
  aligned_alloc : Nat → Nat → Nat

/-- The macro `ALIGN_DN(i, size)`, `(i) & ~((size) - 1)` on `size_t` values of `8 * w` bits. -/
def ALIGN_DN (w i size : Nat) : Nat :=
  i &&& (2 ^ (8 * w) - 1 - (size - 1) % 2 ^ (8 * w))

/-- The macro `ALIGN_UP(i, size)`, `ALIGN_DN((i) + (size) - 1, size)`. -/
def ALIGN_UP (w i size : Nat) : Nat :=
  ALIGN_DN w ((i + size - 1) % 2 ^ (8 * w)) size

/-- The pointer `buf` of `allocateEvenAligned` when it reaches the two assertions: the
result of `malloc`, or of `aligned_alloc` when `malloc` returned an odd address. -/
def allocatedPointer (al : Allocator) (amt : Nat) : Nat :=
  let buf := al.malloc amt
  if buf &&& 1 ≠ 0 then
    al.aligned_alloc al.pointerSize (ALIGN_UP al.pointerSize amt al.pointerSize)
  else buf

/-- The function `allocateEvenAligned`; `none` when `assert(buf)` or the final
`assert((((uintptr_t)buf) & 1) == 0)` fails. -/
def allocateEvenAligned (al : Allocator) (amt : Nat) : Option Nat :=
  let buf := allocatedPointer al amt
  if buf = 0 then none
  else if buf &&& 1 ≠ 0 then none
  else some buf

/-- The C string that the key pointer of a table item points to: `key` points
`key - buf` bytes into the buffer. -/
def keyText (e : UniqueStrEntry) : List Nat :=
  cstr (e.bytes.drop (e.key - e.buf))

/-- Modelled from the spec: key equality of `uniqueStringsTable`
(`chpl::detail::UniqueStrEqual`, declared in `AST/UniqueString.h`, which is not among the
sources): two keys are equal when the C strings they point to are equal. -/
def keyMatches (str : List Nat) (e : UniqueStrEntry) : Bool :=
  keyText e == cstr str

/-- The call `uniqueStringsTable.find(str)`. -/
def tableFind (table : List UniqueStrEntry) (str : List Nat) : Option UniqueStrEntry :=
  table.find? (keyMatches str)

/-- The call `insert` of `std::unordered_map`: nothing is inserted when an item with an
equal key is present. -/
def tableInsert (table : List UniqueStrEntry) (e : UniqueStrEntry) : List UniqueStrEntry :=
  if table.any (fun x => keyText x == keyText e) then table else table ++ [e]

/-- The store `buf[0] = gcMark` through the `buf` pointer of the item that `find` returned. -/
def storeMark (gcMark : Nat) (str : List Nat) : List UniqueStrEntry → List UniqueStrEntry
  | [] => []
  | e :: rest =>
    if keyMatches str e then { e with bytes := e.bytes.set 0 gcMark } :: rest
    else e :: storeMark gcMark str rest

/-- The method `Context::getOrCreateUniqueString`; `str` holds the bytes at the argument
pointer (a list without a NUL byte is terminated at its end), and `memcpy` copies the
`strLen` bytes of the string and the terminator. The result is the returned pointer and
the context afterwards, `none` when an assertion of `allocateEvenAligned` fails. -/
def getOrCreateUniqueString (al : Allocator) (ctx : Context QM) (str : List Nat) :
    Option (Nat × Context QM) :=
  let gcMark := ctx.gcCounter &&& 0xff
  match tableFind ctx.uniqueStringsTable str with
  | some search =>
    let ctx1 :=
      if ctx.currentRevisionNumber = ctx.lastPrepareToGCRevisionNumber then
        { ctx with uniqueStringsTable := storeMark gcMark str ctx.uniqueStringsTable }
      else ctx
    some (search.buf + 2, ctx1)
  | none =>
    let strLen := strlen str
    let allocLen := strLen + 3
    match allocateEvenAligned al allocLen with
    | none => none
    | some buf =>
      let bytes := [gcMark, 0x02] ++ (str.take strLen ++ [0])
      let key := buf + 2
      some (key, { ctx with
        uniqueStringsTable := tableInsert ctx.uniqueStringsTable ⟨key, buf, bytes⟩ })

/-- The method `Context::uniqueCString`; `none` as argument is the null pointer. -/
def uniqueCString (al : Allocator) (ctx : Context QM) (s : Option (List Nat)) :
    Option (Nat × Context QM) :=
  getOrCreateUniqueString al ctx (s.getD [])

/-- The first loop over `uniqueStringsTable` in `Context::collectGarbage`, filling
`newTable` and `toFree`. -/
def sweep (gcMark : Nat) :
    List UniqueStrEntry → List UniqueStrEntry → List Nat → List UniqueStrEntry × List Nat
  | [], newTable, toFree => (newTable, toFree)
  | e :: rest, newTable, toFree =>
    if e.bytes.head? = some gcMark then sweep gcMark rest (tableInsert newTable e) toFree
    else sweep gcMark rest newTable (toFree ++ [e.buf])

/-- The method `Context::collectGarbage`. `clearOldResults` is the virtual method
`QueryMapBase::clearOldResults` of the query maps (declared in `ContextDetail.h`). The
second component of the result lists the buffers passed to `free`, in order. -/
def collectGarbage (clearOldResults : RevisionNumber → QM → QM) (ctx : Context QM) :
    Context QM × List Nat :=
  if ctx.queryDeps.length = 0 ∧
      ctx.lastPrepareToGCRevisionNumber = ctx.currentRevisionNumber then
    let queryDB := ctx.queryDB.map
      (fun dbEntry => (dbEntry.1, clearOldResults ctx.currentRevisionNumber dbEntry.2))
    let gcMark := ctx.gcCounter &&& 0xff
    let swept := sweep gcMark ctx.uniqueStringsTable [] []
    ({ ctx with queryDB := queryDB, uniqueStringsTable := swept.1 }, swept.2)
  else (ctx, [])

/-! ## The can-reuse decision of the specification, and invariants -/

/-- The can-reuse decision of the specification, in its words: a saved cell `c` (a
non-null pointer) is reusable at the current revision `R` when `c.lastComputed == R` or
`c.lastCheckedAndReused == R`, or when `c` has at least one dependency, no dependency's
`lastChanged` exceeds `c.lastComputed` and every dependency is itself reusable, or when
`c` has no dependencies and `c.lastComputed == R`. -/
inductive Reusable (ctx : Context QM) : Option Ptr → Prop
  | validated (c : Ptr) :
      (ctx.results c).lastComputed = ctx.currentRevisionNumber ∨
        (ctx.results c).lastCheckedAndReused = ctx.currentRevisionNumber →
      Reusable ctx (some c)
  | dependencies (c : Ptr) :
      (ctx.results c).dependencies ≠ [] →
      (∀ d ∈ (ctx.results c).dependencies,
        (ctx.results d).lastChanged ≤ (ctx.results c).lastComputed) →
      (∀ d ∈ (ctx.results c).dependencies, Reusable ctx (some d)) →
      Reusable ctx (some c)
  | input (c : Ptr) :
      (ctx.results c).dependencies = [] →
      (ctx.results c).lastComputed = ctx.currentRevisionNumber →
      Reusable ctx (some c)

/-- The decision as `Context::queryCanUseSavedResult` takes it: as `Reusable`, but a cell
without dependencies is rejected only when `currentRevisionNumber > lastComputed`. -/
inductive CanReuse (ctx : Context QM) : Option Ptr → Prop
  | validated (c : Ptr) :
      (ctx.results c).lastComputed = ctx.currentRevisionNumber ∨
        (ctx.results c).lastCheckedAndReused = ctx.currentRevisionNumber →
      CanReuse ctx (some c)
  | dependencies (c : Ptr) :
      (ctx.results c).dependencies ≠ [] →
      (∀ d ∈ (ctx.results c).dependencies,
        (ctx.results d).lastChanged ≤ (ctx.results c).lastComputed) →
      (∀ d ∈ (ctx.results c).dependencies, CanReuse ctx (some d)) →
      CanReuse ctx (some c)
  | input (c : Ptr) :
      (ctx.results c).dependencies = [] →
      ctx.currentRevisionNumber ≤ (ctx.results c).lastComputed →
      CanReuse ctx (some c)

/-- The dependency graph of the result cells is acyclic: `rank` decreases along every
dependency edge. -/
def Acyclic (ctx : Context QM) (rank : Ptr → Nat) : Prop :=
  ∀ p d, d ∈ (ctx.results p).dependencies → rank d < rank p

/-- The cell `x` is `c` itself or one of the transitive dependencies of `c`. -/
def DependsOn (ctx : Context QM) (c x : Ptr) : Prop :=
  Relation.ReflTransGen (fun a d => d ∈ (ctx.results a).dependencies) c x

/-- The cell `x` is one of the transitive dependencies of `c`. -/
def TransitiveDependency (ctx : Context QM) (c x : Ptr) : Prop :=
  Relation.TransGen (fun a d => d ∈ (ctx.results a).dependencies) c x

/-- No revision stamp of a result cell lies ahead of the revision counter they are copied
from. -/
def StampsNotAhead (ctx : Context QM) : Prop :=
  ∀ p, (ctx.results p).lastComputed ≤ ctx.currentRevisionNumber

/-- The timestamp invariant of the data model:
`lastChanged ≤ lastComputed ≤ lastCheckedAndReused ≤` current revision, for every cell. -/
def TimestampInvariant (ctx : Context QM) : Prop :=
  ∀ p, (ctx.results p).lastChanged ≤ (ctx.results p).lastComputed ∧
    (ctx.results p).lastComputed ≤ (ctx.results p).lastCheckedAndReused ∧
    (ctx.results p).lastCheckedAndReused ≤ ctx.currentRevisionNumber

/-- Two contexts agree on every member other than the contents of the result cells. -/
def SameOutsideResults (ctx ctx1 : Context QM) : Prop :=
  ctx1.uniqueStringsTable = ctx.uniqueStringsTable ∧ ctx1.queryDB = ctx.queryDB ∧
  ctx1.queryDeps = ctx.queryDeps ∧ ctx1.currentRevisionNumber = ctx.currentRevisionNumber ∧
  ctx1.lastPrepareToGCRevisionNumber = ctx.lastPrepareToGCRevisionNumber ∧
  ctx1.gcCounter = ctx.gcCounter

/-- The context `ctx1` is `ctx` with `lastCheckedAndReused` set to the current revision on
some cells that the code accepts for reuse, and nothing else changed. -/
def Marked (ctx ctx1 : Context QM) : Prop :=
  SameOutsideResults ctx ctx1 ∧
  ∀ p, ctx1.results p = ctx.results p ∨
    (ctx1.results p = { ctx.results p with lastCheckedAndReused := ctx.currentRevisionNumber } ∧
      CanReuse ctx (some p))

/-- What a terminating call of `queryCanUseSavedResult` on the cell `p` establishes. -/
def CallSpec (ctx : Context QM) (p : Ptr) (r : Option (Bool × Context QM)) : Prop :=
  ∃ b ctx1, r = some (b, ctx1) ∧ Marked ctx ctx1 ∧ (b = true ↔ CanReuse ctx (some p)) ∧
    (b = true →
      (ctx1.results p).lastCheckedAndReused = ctx.currentRevisionNumber ∨
        (ctx1 = ctx ∧ (ctx.results p).lastComputed = ctx.currentRevisionNumber))

/-! ## Example states of the query engine -/

/-- A blank result cell. -/
def blankResult : QueryMapResultBase := ⟨0, 0, 0, [], []⟩

/-- The result cells listed in `cells`, at the addresses 0, 1, 2, ...; every other address
reads as a blank cell. -/
def resultsAt (cells : List QueryMapResultBase) : Ptr → QueryMapResultBase :=
  fun p => cells.getD p blankResult

/-- A context at revision `rev` with the given result cells and active-query stack, and
otherwise as built. The query maps carry no data of their own here. -/
def exampleContext (rev : RevisionNumber) (cells : List QueryMapResultBase)
    (frames : List QueryDepsEntry) : Context Unit :=
  { (Context.build : Context Unit) with
    results := resultsAt cells
    queryDeps := frames
    currentRevisionNumber := rev }

/-- A rank for example graphs whose edges all lead from a lower to a higher address below
`n`. -/
def exampleRank (n : Nat) : Ptr → Nat :=
  fun p => n - p

/-- At revision 2: cell 0 computed at revision 1 from the cells 1 and 2, cell 1 computed at
revision 1 from cell 2, and the input cell 2 set again at revision 2 without a change. -/
def graphReusable : Context Unit :=
  exampleContext 2 [⟨1, 1, 1, [1, 2], []⟩, ⟨1, 1, 1, [2], []⟩, ⟨2, 2, 1, [], []⟩] []

/-- At revision 2: cell 0 computed at revision 1 from the input cell 1, which was set at
revision 1 and not since (the revision was advanced without a setter call). -/
def graphStaleInput : Context Unit :=
  exampleContext 2 [⟨1, 1, 1, [1], []⟩, ⟨1, 1, 1, [], []⟩] []

/-- At revision 6: cell 0 computed at revision 5 from cell 1, cell 1 computed at revision 3
from the input cell 2, and cell 2 last changed at revision 4 and set again at revision 6. -/
def graphChangedBelow : Context Unit :=
  exampleContext 6 [⟨5, 5, 5, [1], []⟩, ⟨3, 5, 3, [2], []⟩, ⟨6, 6, 4, [], []⟩] []

/-- At revision 3, with one active frame: cell 0 computed at revision 2 from cell 1, cell 1
computed at revision 1 from the input cell 2, which was set again at revision 3 unchanged. -/
def graphValidated : Context Unit :=
  exampleContext 3 [⟨2, 2, 2, [1], []⟩, ⟨1, 2, 1, [2], []⟩, ⟨3, 3, 1, [], []⟩] [⟨9, [], []⟩]

/-- At revision 3, with one active frame: cell 0 computed at revision 1 from the input
cells 1 and 2; cell 2 was changed at revision 3. -/
def graphChangedInput : Context Unit :=
  exampleContext 3 [⟨1, 1, 1, [1, 2], []⟩, ⟨3, 3, 1, [], []⟩, ⟨3, 3, 3, [], []⟩]
    [⟨5, [4], ["e"]⟩]

/-- At revision 2: the single cell 0 was computed at revision 2 and last checked-and-reused
at revision 1. -/
def cellComputedNow : Context Unit :=
  exampleContext 2 [⟨2, 1, 2, [], []⟩] []

/-! ## The interner: texts, handles and the heap of buffers -/

/-- The text that an argument of `uniqueCString` denotes: the empty text for the null
pointer, otherwise the C string at the pointer. -/
def argText (s : Option (List Nat)) : List Nat :=
  cstr (s.getD [])

/-- The handle under which the table holds `text`, when it holds it. -/
def handleOf (table : List UniqueStrEntry) (text : List Nat) : Option Nat :=
  (table.find? (fun e => keyText e == text)).map (fun e => e.buf + 2)

/-- Every key pointer of the table points two bytes into its buffer. -/
def KeysAtOffsetTwo (table : List UniqueStrEntry) : Prop :=
  ∀ e ∈ table, e.key = e.buf + 2

/-- One operation on a context other than an effective garbage collection, as far as the
interner is concerned: a call of `uniqueCString`, or any operation that leaves
`uniqueStringsTable` as it is (a revision advance, an operation of the query engine). -/
inductive InternerStep (ctx ctx1 : Context QM) : Prop
  | intern (al : Allocator) (s : Option (List Nat)) (h : Nat) :
      uniqueCString al ctx s = some (h, ctx1) → InternerStep ctx ctx1
  | other : ctx1.uniqueStringsTable = ctx.uniqueStringsTable → InternerStep ctx ctx1

/-- A sequence of operations without garbage collection leads from `ctx` to `ctx1`. -/
def WithoutGC (ctx ctx1 : Context QM) : Prop :=
  Relation.ReflTransGen InternerStep ctx ctx1

/-- The C string read at the address `p` of the heap made of the table's buffers: the
bytes from `p` to the first NUL or the end of the buffer holding `p`. -/
def readCString (table : List UniqueStrEntry) (p : Nat) : Option (List Nat) :=
  (table.find? (fun e => decide (e.buf ≤ p ∧ p < e.buf + e.bytes.length))).map
    (fun e => cstr (e.bytes.drop (p - e.buf)))

/-- Two buffers do not overlap. -/
def Apart (a b : UniqueStrEntry) : Prop :=
  a.buf + a.bytes.length ≤ b.buf ∨ b.buf + b.bytes.length ≤ a.buf

/-- The buffers of the table are live heap blocks: each holds the two metadata bytes and
a terminator at least, and no two of them overlap. -/
def BuffersDisjoint (table : List UniqueStrEntry) : Prop :=
  (∀ e ∈ table, 3 ≤ e.bytes.length) ∧ table.Pairwise Apart

/-- The contract of the allocator towards the table: a block it hands out does not overlap
a buffer that is still live. -/
def AllocatesFresh (al : Allocator) (table : List UniqueStrEntry) : Prop :=
  ∀ n buf, allocateEvenAligned al n = some buf →
    ∀ e ∈ table, buf + n ≤ e.buf ∨ e.buf + e.bytes.length ≤ buf

/-- Every buffer of the table starts at an even address. -/
def BuffersEven (table : List UniqueStrEntry) : Prop :=
  ∀ e ∈ table, e.buf &&& 1 = 0

/-- No two items of the table have equal keys (the invariant of `std::unordered_map`). -/
def KeysUnique (table : List UniqueStrEntry) : Prop :=
  table.Pairwise (fun a b => keyText a ≠ keyText b)

/-- The mark byte of the item's buffer is `mark`. -/
def hasMark (mark : Nat) (e : UniqueStrEntry) : Bool :=
  decide (e.bytes.head? = some mark)

instance (table : List UniqueStrEntry) : Decidable (KeysAtOffsetTwo table) :=
  inferInstanceAs (Decidable (∀ e ∈ table, e.key = e.buf + 2))

instance (table : List UniqueStrEntry) : Decidable (BuffersEven table) :=
  inferInstanceAs (Decidable (∀ e ∈ table, e.buf &&& 1 = 0))

instance (a b : UniqueStrEntry) : Decidable (Apart a b) :=
  inferInstanceAs (Decidable (a.buf + a.bytes.length ≤ b.buf ∨ b.buf + b.bytes.length ≤ a.buf))

instance (table : List UniqueStrEntry) : Decidable (BuffersDisjoint table) :=
  inferInstanceAs (Decidable ((∀ e ∈ table, 3 ≤ e.bytes.length) ∧ table.Pairwise Apart))

instance (table : List UniqueStrEntry) : Decidable (KeysUnique table) :=
  inferInstanceAs (Decidable (table.Pairwise (fun a b => keyText a ≠ keyText b)))

/-! ## Example interner states -/

/-- An allocator on a platform with 8-byte pointers whose `malloc` returns the address `a`
and whose `aligned_alloc` returns the address `b`. -/
def allocatorAt (a b : Nat) : Allocator :=
  ⟨8, fun _ => a, fun _ _ => b⟩

/-- A context as built and then advanced `rev - 1` times, whose table holds the given items
and whose GC counter and last prepare-to-GC revision are as given. -/
def exampleInterner (rev prep counter : RevisionNumber) (table : List UniqueStrEntry) :
    Context Unit :=
  { (Context.build : Context Unit) with
    uniqueStringsTable := table
    currentRevisionNumber := rev
    lastPrepareToGCRevisionNumber := prep
    gcCounter := counter }

/-- The text "ab" interned in the first revision at the buffer address 64. -/
def internedAb : Context Unit :=
  exampleInterner 1 0 1 [⟨66, 64, [1, 2, 97, 98, 0]⟩]

/-- In the prepare-to-GC revision 2: "ab" interned in revision 1 and not since, "c" interned
in revision 2. -/
def internedTwo : Context Unit :=
  exampleInterner 2 2 2 [⟨66, 64, [1, 2, 97, 98, 0]⟩, ⟨130, 128, [2, 2, 99, 0]⟩]

/-- The buffer address and the mark byte of the item under which the table holds `text`. -/
def entryOf (table : List UniqueStrEntry) (text : List Nat) : Option (Nat × Option Nat) :=
  (table.find? (fun e => keyText e == text)).map (fun e => (e.buf, e.bytes.head?))

/-- The representation invariant of `uniqueStringsTable`: key pointers two bytes into their
buffers, pairwise different keys, and buffers that hold the two metadata bytes and a
terminator at least. -/
def TableInvariant (table : List UniqueStrEntry) : Prop :=
  KeysAtOffsetTwo table ∧ KeysUnique table ∧ ∀ e ∈ table, 3 ≤ e.bytes.length

/-- Successive calls of `uniqueCString`, one for each allocator and argument of the list;
the result lists the returned handles. -/
def internAll : List (Allocator × Option (List Nat)) → Context QM →
    Option (List Nat × Context QM)
  | [], ctx => some ([], ctx)
  | (al, s) :: rest, ctx =>
    match uniqueCString al ctx s with
    | none => none
    | some (h, ctx1) =>
      match internAll rest ctx1 with
      | none => none
      | some (hs, ctx2) => some (h :: hs, ctx2)

/-- The texts of a list of arguments of `uniqueCString`. -/
def textsOf (args : List (Allocator × Option (List Nat))) : List (List Nat) :=
  args.map (fun p => argText p.2)

/-- The calls of the first revision of the example scenario: "a" and "g". -/
def scenarioFirst : List (Allocator × Option (List Nat)) :=
  [(allocatorAt 64 0, some [97]), (allocatorAt 96 0, some [103])]

/-- The calls of the prepare-to-GC revision of the example scenario: "b", new, and "a"
again. -/
def scenarioSecond : List (Allocator × Option (List Nat)) :=
  [(allocatorAt 128 0, some [98]), (allocatorAt 160 0, some [97])]

/-- The context that the example scenario reaches before the garbage collection. -/
def scenarioBeforeGC : Context Unit :=
  exampleInterner 2 2 2
    [⟨66, 64, [2, 2, 97, 0]⟩, ⟨98, 96, [1, 2, 103, 0]⟩, ⟨130, 128, [2, 2, 98, 0]⟩]

/-- An operation on a context, as far as the interner is concerned: a call of
`uniqueCString`, a call of `advanceToNextRevision`, a call of `collectGarbage`, or an
operation of the query engine, which may replace the active-query stack, the result cells
and the query maps and leaves the rest alone. -/
inductive Op (QM : Type) where
  | intern (al : Allocator) (s : Option (List Nat))
  | advance (prepareToGC : Bool)
  | gc
  | engine (queryDeps : List QueryDepsEntry) (results : Ptr → QueryMapResultBase)
      (queryDB : List (Nat × QM))

/-- One operation; `none` when `uniqueCString` fails an assertion. -/
def applyOp (clearOldResults : RevisionNumber → QM → QM) : Op QM → Context QM →
    Option (Context QM)
  | .intern al s, ctx => (uniqueCString al ctx s).map (fun r => r.2)
  | .advance prepareToGC, ctx => some (advanceToNextRevision ctx prepareToGC)
  | .gc, ctx => some (collectGarbage clearOldResults ctx).1
  | .engine queryDeps results queryDB, ctx =>
    some { ctx with queryDeps := queryDeps, results := results, queryDB := queryDB }

/-- The context reached from a freshly built one by a history of operations, the newest
operation first. -/
def runHistory (clearOldResults : RevisionNumber → QM → QM) : List (Op QM) →
    Option (Context QM)
  | [] => some Context.build
  | op :: older => (runHistory clearOldResults older).bind (applyOp clearOldResults op)

/-- The number of calls `advanceToNextRevision(true)` in a history. -/
def prepareCount : List (Op QM) → Nat
  | [] => 0
  | .advance true :: rest => prepareCount rest + 1
  | _ :: rest => prepareCount rest

/-- The texts on which `uniqueCString` was called in the current revision, that is since
the newest revision advance of the history (newest operation first). -/
def internedInCurrentRevision : List (Op QM) → List (List Nat)
  | [] => []
  | .intern _ s :: rest => argText s :: internedInCurrentRevision rest
  | .advance _ :: _ => []
  | _ :: rest => internedInCurrentRevision rest

/-- The newest revision advance of a history. -/
def newestAdvance : List (Op QM) → Option Bool
  | [] => none
  | .advance prepareToGC :: _ => some prepareToGC
  | _ :: rest => newestAdvance rest

/-- In the history, `uniqueCString` was called on `text`, with `age` calls of
`advanceToNextRevision(true)` since. -/
def InternedAtAge (history : List (Op QM)) (text : List Nat) (age : Nat) : Prop :=
  ∃ newer al s older, history = newer ++ Op.intern al s :: older ∧ argText s = text ∧
    prepareCount newer = age

/-- The history of the wrap-around example: "a" is interned in a fresh context, then the
revision is advanced 256 times, each time preparing for a garbage collection. -/
def wrapHistory : List (Op Unit) :=
  List.replicate 256 (Op.advance true) ++ [Op.intern (allocatorAt 64 0) (some [97])]

/-- What holds of the context reached by a history: the table is well formed, the GC
counter counts the prepare-to-GC advances, the last prepare-to-GC revision is a revision
reached, and every item of the table carries the mark of the GC counter as it was at a
call of `uniqueCString` on its text. -/
def HistoryInvariant (history : List (Op QM)) (ctx : Context QM) : Prop :=
  TableInvariant ctx.uniqueStringsTable ∧
    ctx.gcCounter = prepareCount history + 1 ∧
    ctx.lastPrepareToGCRevisionNumber ≤ ctx.currentRevisionNumber ∧
    (ctx.currentRevisionNumber = ctx.lastPrepareToGCRevisionNumber →
      newestAdvance history = some true) ∧
    ∀ text b mk, entryOf ctx.uniqueStringsTable text = some (b, mk) →
      ∃ age, InternedAtAge history text age ∧ mk = some ((ctx.gcCounter - age) % 256)

/-- The history of the example scenario, newest operation first: "a" and "g" are interned
in the first revision, the revision is advanced preparing for a garbage collection, then
"b" and "a" are interned. -/
def scenarioHistory : List (Op Unit) :=
  [Op.intern (allocatorAt 160 0) (some [97]), Op.intern (allocatorAt 128 0) (some [98]),
    Op.advance true,
    Op.intern (allocatorAt 96 0) (some [103]), Op.intern (allocatorAt 64 0) (some [97])]

/-! ## The builder: AST nodes and their identifiers -/

/-- Modelled from the spec: a `UniqueString` (declared in `AST/UniqueString.h`, which is
not among the sources) is the handle of an interned text; handles of equal texts are equal,
so the builder's strings are represented by their texts. -/
abbrev UniqueString := List Char

/-- Modelled from the spec: the identifier `ID(symbolPath, postOrderId, numContainedIds)` of
an AST node (`AST/ID.h` is not among the sources): the path of the enclosing symbol, the
index of the node in the postorder numbering of that symbol, and the number of nodes
numbered below it. The two `int`s are natural numbers here (fewer than 2^31 nodes). -/
structure ID where
  symbolPath : UniqueString
  postOrderId : Nat
  numContainedIds : Nat
deriving DecidableEq, Repr

/-- Modelled from the spec: `Sym::Visibility`; the builder uses `VISIBILITY_DEFAULT`. -/
inductive Visibility where
  | VISIBILITY_DEFAULT
  | VISIBILITY_PUBLIC
  | VISIBILITY_PRIVATE
deriving DecidableEq, Repr

/-- Modelled from the spec: `Module::Kind`; the builder uses `IMPLICIT`. -/
inductive ModuleKind where
  | DEFAULT_MODULE_KIND
  | PROTOTYPE
  | IMPLICIT
deriving DecidableEq, Repr

/-- Modelled from the spec: a source location; the builder makes one from a file path. -/
structure Location where
  path : UniqueString
deriving DecidableEq, Repr

/-- The tag of a declaration node: a `ModuleDecl` or another kind of `Decl`. -/
inductive DeclTag where
  | ModuleDecl
  | otherDecl (tag : Nat)
deriving DecidableEq, Repr

mutual
/-- Modelled from the spec: an AST node (`ASTBase`; the node classes are not among the
sources). A node is a comment, a declaration (`toDecl()` is not null) whose single child
is the symbol it declares (the two assertions of `doAssignIDs`), or any other node with
its list `children_`. Every node has an ID, absent until `setID`. -/
inductive ASTBase where
  | comment (id : Option ID)
  | exp (tag : Nat) (id : Option ID) (children : List ASTBase)
  | decl (tag : DeclTag) (id : Option ID) (sym : Sym)
/-- Modelled from the spec: a symbol node (`Sym`), the child of a declaration: its name,
its visibility, the module kind when it is a `Module`, its ID and its children. -/
inductive Sym where
  | mk (name : UniqueString) (visibility : Visibility) (moduleKind : Option ModuleKind)
      (id : Option ID) (children : List ASTBase)
end

/-- The method `Sym::name`. -/
def Sym.name : Sym → UniqueString
  | .mk name _ _ _ _ => name

/-- The ID of a symbol node. -/
def Sym.id : Sym → Option ID
  | .mk _ _ _ id _ => id

/-- The children of a symbol node. -/
def Sym.children : Sym → List ASTBase
  | .mk _ _ _ _ children => children

/-- The method `ASTBase::isModuleDecl` (and `toModuleDecl() != nullptr`). -/
def ASTBase.isModuleDecl : ASTBase → Bool
  | .decl .ModuleDecl _ _ => true
  | _ => false

/-- The method `ASTBase::isComment`. -/
def ASTBase.isComment : ASTBase → Bool
  | .comment _ => true
  | _ => false

/-- The method `ASTBase::id`. -/
def ASTBase.id : ASTBase → Option ID
  | .comment id => id
  | .exp _ id _ => id
  | .decl _ id _ => id

/-- The members of `uast::Builder` (the context pointer left out). -/
structure Builder where
  filepath_ : UniqueString
  inferredModuleName_ : UniqueString
  topLevelExps_ : List ASTBase
  errors_ : List ErrorMessage
  locations_ : List (Option ID × Location)

/-- The method `Builder::noteLocation`. -/
def Builder.noteLocation (b : Builder) (ast : ASTBase) (loc : Location) : Builder :=
  { b with locations_ := b.locations_ ++ [(ast.id, loc)] }

/-- Modelled from the spec: `ModuleDecl::build` (`ModuleDecl.cpp` is not among the
sources) makes a module declaration whose symbol has the given name, visibility, kind and
statements, and notes its location with the builder as `Foreach::build` does. -/
def ModuleDecl.build (b : Builder) (loc : Location) (name : UniqueString)
    (visibility : Visibility) (kind : ModuleKind) (stmts : List ASTBase) :
    ASTBase × Builder :=
  let ret := ASTBase.decl .ModuleDecl none (.mk name visibility (some kind) none stmts)
  (ret, b.noteLocation ret loc)

/-- The first loop of `Builder::createImplicitModuleIfNeeded`: the pair
`(containsOnlyModules, containsAnyModules)` after the expressions of the list. -/
def scanTopLevelExps : List ASTBase → Bool × Bool → Bool × Bool
  | [], flags => flags
  | ownedExp :: rest, (containsOnlyModules, containsAnyModules) =>
    if ownedExp.isModuleDecl then scanTopLevelExps rest (containsOnlyModules, true)
    else scanTopLevelExps rest (false, containsAnyModules)

/-- The method `Builder::createImplicitModuleIfNeeded`: the returned name and the builder
afterwards. -/
def Builder.createImplicitModuleIfNeeded (b : Builder) : UniqueString × Builder :=
  let flags := scanTopLevelExps b.topLevelExps_ (true, false)
  if flags.2 && flags.1 then
    ([], b)
  else
    let stmts := b.topLevelExps_
    let b1 := { b with topLevelExps_ := [] }
    let built := ModuleDecl.build b1 ⟨b1.filepath_⟩ b1.inferredModuleName_
      Visibility.VISIBILITY_DEFAULT ModuleKind.IMPLICIT stmts
    (b.inferredModuleName_,
      { built.2 with topLevelExps_ := built.2.topLevelExps_ ++ [built.1] })

/-- The loop of `doAssignIDs` that builds `pathStr` from `pathVec`. -/
def appendPathComponents : List (UniqueString × Nat) → Bool → List Char → List Char
  | [], _, pathStr => pathStr
  | (name, repeatNo) :: rest, first, pathStr =>
    let pathStr1 := if first = false then pathStr ++ ['.'] else pathStr
    let pathStr2 := pathStr1 ++ name
    let pathStr3 :=
      if repeatNo ≠ 0 then pathStr2 ++ ['#'] ++ Nat.toDigits 10 repeatNo else pathStr2
    appendPathComponents rest false pathStr3

/-- The string `pathStr` that `doAssignIDs` builds from `pathVec`. -/
def pathStrOf (pathVec : List (UniqueString × Nat)) : UniqueString :=
  appendPathComponents pathVec true []

/-- The repeat number that `doAssignIDs` gives a declaration of `name`, from the map
`duplicates`: one more than the stored number, or 0 at the first encounter. -/
def nextRepeat (duplicates : UniqueString → Option Nat) (name : UniqueString) : Nat :=
  match duplicates name with
  | some stored => stored + 1
  | none => 0

/-- The map `duplicates` after `doAssignIDs` has handled a declaration of `name`. -/
def noteDeclared (duplicates : UniqueString → Option Nat) (name : UniqueString) :
    UniqueString → Option Nat :=
  Function.update duplicates name (some (nextRepeat duplicates name))

mutual
/-- The method `Builder::doAssignIDs`: the node with its IDs set, the counter `i` and the
map `duplicates` afterwards. `pathVec` is passed by value: each `push_back` is undone by
the `pop_back` before the return. -/
def doAssignIDs : ASTBase → UniqueString → Nat → List (UniqueString × Nat) →
    (UniqueString → Option Nat) → ASTBase × Nat × (UniqueString → Option Nat)
  | .comment id, _, i, _, duplicates => (.comment id, i, duplicates)
  | .exp tag _ children, symbolPath, i, pathVec, duplicates =>
    let firstChildID := i
    let visited := doAssignIDsChildren children symbolPath i pathVec duplicates
    let afterChildID := visited.2.1
    let myID := afterChildID
    let numContainedIDs := afterChildID - firstChildID
    (.exp tag (some ⟨symbolPath, myID, numContainedIDs⟩) visited.1,
      afterChildID + 1, visited.2.2)
  | .decl tag _ sym, symbolPath, i, pathVec, duplicates =>
    let firstChildID := i
    let afterChildID := i
    let myID := afterChildID
    let numContainedIDs := afterChildID - firstChildID
    let name := sym.name
    let repeatNo := nextRepeat duplicates name
    let pathVec1 := pathVec ++ [(name, repeatNo)]
    let symbolPath1 := pathStrOf pathVec1
    let visited := doAssignIDsSym sym symbolPath1 0 pathVec1 (fun _ => none)
    (.decl tag (some ⟨symbolPath, myID, numContainedIDs⟩) visited.1,
      afterChildID + 1, noteDeclared duplicates name)
/-- The call of `doAssignIDs` on a symbol node, which is neither a comment nor a
declaration: its children are visited, then it gets its ID. -/
def doAssignIDsSym : Sym → UniqueString → Nat → List (UniqueString × Nat) →
    (UniqueString → Option Nat) → Sym × Nat × (UniqueString → Option Nat)
  | .mk name visibility moduleKind _ children, symbolPath, i, pathVec, duplicates =>
    let firstChildID := i
    let visited := doAssignIDsChildren children symbolPath i pathVec duplicates
    let afterChildID := visited.2.1
    let myID := afterChildID
    let numContainedIDs := afterChildID - firstChildID
    (.mk name visibility moduleKind (some ⟨symbolPath, myID, numContainedIDs⟩) visited.1,
      afterChildID + 1, visited.2.2)
/-- The loop `for (auto & child : ast->children_)` of `doAssignIDs`. -/
def doAssignIDsChildren : List ASTBase → UniqueString → Nat → List (UniqueString × Nat) →
    (UniqueString → Option Nat) → List ASTBase × Nat × (UniqueString → Option Nat)
  | [], _, i, _, duplicates => ([], i, duplicates)
  | child :: rest, symbolPath, i, pathVec, duplicates =>
    let first := doAssignIDs child symbolPath i pathVec duplicates
    let others := doAssignIDsChildren rest symbolPath first.2.1 pathVec first.2.2
    (first.1 :: others.1, others.2.1, others.2.2)
end

/-- The loop of `Builder::assignIDs` over the top-level expressions, with the counter `i`
and the map `duplicates` that it shares between them; `none` when the assertion that
top-level expressions are module declarations fails. -/
def assignIDsLoop : List ASTBase → Nat → (UniqueString → Option Nat) → Option (List ASTBase)
  | [], _, _ => some []
  | ownedExp :: rest, i, duplicates =>
    if ownedExp.isModuleDecl then
      let visited := doAssignIDs ownedExp [] i [] duplicates
      (assignIDsLoop rest visited.2.1 visited.2.2).map (fun l => visited.1 :: l)
    else none

/-- The method `Builder::assignIDs`. -/
def Builder.assignIDs (b : Builder) (_inferredModule : UniqueString) : Option Builder :=
  (assignIDsLoop b.topLevelExps_ 0 (fun _ => none)).map
    (fun exps => { b with topLevelExps_ := exps })

/-! ## The builder: views of a tree used in the statements -/

/-- The implicit module that wraps the statements `stmts` for the builder `b`. -/
def implicitModuleOf (b : Builder) (stmts : List ASTBase) : ASTBase :=
  .decl .ModuleDecl none
    (.mk b.inferredModuleName_ Visibility.VISIBILITY_DEFAULT (some ModuleKind.IMPLICIT) none stmts)

/-- The list of top-level expressions needs the implicit module under the code: it is
empty or one of its expressions is not a module declaration. -/
def NeedsImplicitModule (exps : List ASTBase) : Prop :=
  exps = [] ∨ ∃ e ∈ exps, e.isModuleDecl = false

/-- A variable declaration without children, for the examples. -/
def exampleVariable (name : UniqueString) : ASTBase :=
  .decl (.otherDecl 1) none (.mk name Visibility.VISIBILITY_DEFAULT none none [])

/-- A function declaration with a body of statements, for the examples. -/
def exampleFunction (name : UniqueString) (body : List ASTBase) : ASTBase :=
  .decl (.otherDecl 2) none (.mk name Visibility.VISIBILITY_DEFAULT none none body)

/-- An explicit module declaration, for the examples. -/
def exampleModule (name : UniqueString) (stmts : List ASTBase) : ASTBase :=
  .decl .ModuleDecl none
    (.mk name Visibility.VISIBILITY_DEFAULT (some ModuleKind.DEFAULT_MODULE_KIND) none stmts)

/-- A builder for the file `path` with inferred module name `name` that was given the
top-level expressions `exps`. -/
def exampleBuilder (path name : UniqueString) (exps : List ASTBase) : Builder :=
  { filepath_ := path, inferredModuleName_ := name, topLevelExps_ := exps,
    errors_ := [], locations_ := [] }

/-- The mixed list of the specification's scenario: `[VarDecl("x"), ModuleDecl("M")]`. -/
def mixedTopLevel : List ASTBase :=
  [exampleVariable ['x'], exampleModule ['M'] []]

mutual
/-- The IDs of the non-comment nodes in the subtree of a node that belong to the numbering
of the enclosing symbol, in the order of the walk: the children before their parent; a
declaration counts itself only, the symbol that it declares starts a numbering of its
own. -/
def numberedIDs : ASTBase → List (Option ID)
  | .comment _ => []
  | .exp _ id children => numberedIDsList children ++ [id]
  | .decl _ id _ => [id]
/-- The IDs of `numberedIDs` for a list of children. -/
def numberedIDsList : List ASTBase → List (Option ID)
  | [] => []
  | child :: rest => numberedIDs child ++ numberedIDsList rest
end

/-- The IDs of the numbering of a symbol: those of its descendants outside nested
symbols, then the ID of the symbol node itself. -/
def Sym.numberedIDs (s : Sym) : List (Option ID) :=
  numberedIDsList s.children ++ [s.id]

mutual
/-- The number of non-comment nodes in the subtree of a node that belong to the numbering
of the enclosing symbol. -/
def numberedCount : ASTBase → Nat
  | .comment _ => 0
  | .exp _ _ children => numberedCountList children + 1
  | .decl _ _ _ => 1
/-- The number of `numberedCount` for a list of children. -/
def numberedCountList : List ASTBase → Nat
  | [] => 0
  | child :: rest => numberedCount child + numberedCountList rest
end

mutual
/-- The symbols declared in the subtree of a node, those declared inside other symbols
included. -/
def symsOf : ASTBase → List Sym
  | .comment _ => []
  | .exp _ _ children => symsOfList children
  | .decl _ _ sym => sym :: symsInside sym
/-- The symbols declared below a symbol node. -/
def symsInside : Sym → List Sym
  | .mk _ _ _ _ children => symsOfList children
/-- The symbols of `symsOf` for a list of nodes. -/
def symsOfList : List ASTBase → List Sym
  | [] => []
  | child :: rest => symsOf child ++ symsOfList rest
end

mutual
/-- The nodes in the subtree of a node other than symbol nodes, the node itself included. -/
def nodesOf : ASTBase → List ASTBase
  | .comment id => [.comment id]
  | .exp tag id children => .exp tag id children :: nodesOfList children
  | .decl tag id sym => .decl tag id sym :: nodesInside sym
/-- The nodes below a symbol node. -/
def nodesInside : Sym → List ASTBase
  | .mk _ _ _ _ children => nodesOfList children
/-- The nodes of `nodesOf` for a list of nodes. -/
def nodesOfList : List ASTBase → List ASTBase
  | [] => []
  | child :: rest => nodesOf child ++ nodesOfList rest
end

mutual
/-- The symbols declared in the subtree of a node directly within the enclosing symbol
(not inside another declared symbol), in the order of the walk. -/
def declsOf : ASTBase → List Sym
  | .comment _ => []
  | .exp _ _ children => declsOfList children
  | .decl _ _ sym => [sym]
/-- The symbols of `declsOf` for a list of children. -/
def declsOfList : List ASTBase → List Sym
  | [] => []
  | child :: rest => declsOf child ++ declsOfList rest
end

/-- The symbol path in the ID of a symbol node. -/
def Sym.path (s : Sym) : Option UniqueString :=
  s.id.map ID.symbolPath

/-- The text `#k` that distinguishes the `k`-th repeat of a name, empty for `k = 0`. -/
def repeatSuffix (k : Nat) : List Char :=
  if k = 0 then [] else '#' :: Nat.toDigits 10 k

mutual
/-- The tree of a node without the comments below it. -/
def stripComments : ASTBase → ASTBase
  | .comment id => .comment id
  | .exp tag id children => .exp tag id (stripCommentsList children)
  | .decl tag id sym => .decl tag id (stripCommentsSym sym)
/-- The tree of a symbol node without the comments below it. -/
def stripCommentsSym : Sym → Sym
  | .mk name visibility moduleKind id children =>
    .mk name visibility moduleKind id (stripCommentsList children)
/-- The list of children without its comments, the other children stripped of theirs. -/
def stripCommentsList : List ASTBase → List ASTBase
  | [] => []
  | .comment _ :: rest => stripCommentsList rest
  | .exp tag id children :: rest =>
    .exp tag id (stripCommentsList children) :: stripCommentsList rest
  | .decl tag id sym :: rest => .decl tag id (stripCommentsSym sym) :: stripCommentsList rest
end

/-- The pair of symbol path and postorder index of an ID. -/
def idKey (id : Option ID) : Option (UniqueString × Nat) :=
  id.map (fun x => (x.symbolPath, x.postOrderId))

/-- The pairs of the path `symbolPath` with the `n` indices from `i` on. -/
def numberedKeys (symbolPath : UniqueString) (i n : Nat) : List (Option (UniqueString × Nat)) :=
  (List.range' i n).map (fun j => some (symbolPath, j))

/-- The map `duplicates` of `doAssignIDs` after declarations of the names `seen`. -/
def duplicatesAfter (seen : List UniqueString) : UniqueString → Option Nat :=
  fun name => if seen.count name = 0 then none else some (seen.count name - 1)

/-- Each name of a list with the number of its occurrences in `seen` and before it in the
list. -/
def numberFrom : List UniqueString → List UniqueString → List (UniqueString × Nat)
  | _, [] => []
  | seen, name :: rest => (name, seen.count name) :: numberFrom (seen ++ [name]) rest

/-! ## The builder: construction and result -/

/-- Modelled from the spec: the C library function `strrchr` on a text without NUL: the
index of the last occurrence of the character `c`, `none` (a null pointer) when there is
none. -/
def strrchr : List Char → Char → Option Nat
  | [], _ => none
  | x :: rest, c =>
    match strrchr rest c with
    | some k => some (k + 1)
    | none => if x = c then some 0 else none

/-- The function `filenameToModulename`. -/
def filenameToModulename (filename : List Char) : List Char :=
  let moduleName :=
    match strrchr filename '/' with
    | some firstSlash => filename.drop (firstSlash + 1)
    | none => filename
  match strrchr moduleName '.' with
  | some firstPeriod => moduleName.take firstPeriod
  | none => moduleName

/-- The function `Builder::build`. -/
def Builder.build (filepath : List Char) : Builder :=
  { filepath_ := filepath, inferredModuleName_ := filenameToModulename filepath,
    topLevelExps_ := [], errors_ := [], locations_ := [] }

/-- The method `Builder::addToplevelExp`. -/
def Builder.addToplevelExp (b : Builder) (e : ASTBase) : Builder :=
  { b with topLevelExps_ := b.topLevelExps_ ++ [e] }

/-- The method `Builder::addError`. -/
def Builder.addError (b : Builder) (e : ErrorMessage) : Builder :=
  { b with errors_ := b.errors_ ++ [e] }

/-- The members of `Builder::Result`. -/
structure BuilderResult where
  topLevelExps : List ASTBase
  errors : List ErrorMessage
  locations : List (Option ID × Location)

/-- The method `Builder::result`: the result and the builder afterwards, `none` when the
assertion of `assignIDs` fails. -/
def Builder.result (b : Builder) : Option (BuilderResult × Builder) :=
  let named := b.createImplicitModuleIfNeeded
  match named.2.assignIDs named.1 with
  | none => none
  | some b1 =>
    some (⟨b1.topLevelExps_, b1.errors_, b1.locations_⟩,
      { b1 with topLevelExps_ := [], errors_ := [], locations_ := [] })

/-- Two declarations of `f` inside module `M`, the second with a comment and a statement
in its body. -/
def twoFunctions : ASTBase :=
  exampleModule ['M']
    [exampleFunction ['f'] [],
     exampleFunction ['f'] [.comment none, .exp 7 none [.exp 8 none [], .comment none]]]

/-! ## Module names of IDs -/

/-- The loop of `Context::moduleNameForID`: the value of `len` at the `break`, the number
of characters of the C string `s` before its first `.` or its terminator. -/
def moduleNameLength : List Char → Nat
  | [] => 0
  | c :: rest => if c = '.' then 0 else moduleNameLength rest + 1

/-- The method `Context::moduleNameForID`; `UniqueString::build(this, s, len)` is the
unique string of the first `len` characters of `s`. -/
def moduleNameForID (id : ID) : UniqueString :=
  if id.symbolPath.isEmpty then []
  else id.symbolPath.take (moduleNameLength id.symbolPath)

/-! ## Merging builder results -/

/-- Modelled from the spec: `defaultUpdate`, declared in a header that is not among the
sources, follows the default rule of the update contract: "`changed = (keep !=
candidate)`; if changed, swap". The result is the returned `bool`, then `keep` and
`addin` afterwards. -/
def defaultUpdate {α : Type} [DecidableEq α] (keep addin : α) : Bool × α × α :=
  if keep = addin then (false, keep, addin) else (true, addin, keep)

/-- The function `Builder::Result::update`: the returned `bool`, then `keep` and `addin`
afterwards. `updateASTList`, declared in a header that is not among the sources, is a
parameter. -/
def BuilderResult.update
    (updateASTList : List ASTBase → List ASTBase → Bool × List ASTBase × List ASTBase)
    (keep addin : BuilderResult) : Bool × BuilderResult × BuilderResult :=
  let match0 := true
  let errors := defaultUpdate keep.errors addin.errors
  let match1 := match0 && errors.1
  let locations := defaultUpdate keep.locations addin.locations
  let match2 := match1 && locations.1
  let exps := updateASTList keep.topLevelExps addin.topLevelExps
  let match3 := match2 && exps.1
  (match3, ⟨exps.2.1, errors.2.1, locations.2.1⟩, ⟨exps.2.2, errors.2.2, locations.2.2⟩)

/-- Two empty modules of the same name `M` at top level. -/
def twoModulesOfOneName : List ASTBase :=
  [exampleModule ['M'] [], exampleModule ['M'] []]

/-! ## Edits below one symbol -/

/-- Two trees that are identical except for the children of one declared symbol: the
declaration is at the same position in both, and the symbol node has the same name,
visibility and kind. -/
inductive EditedBelowSymbol : ASTBase → ASTBase → Prop where
  | here (tag : DeclTag) (id : Option ID) (name : UniqueString) (visibility : Visibility)
      (moduleKind : Option ModuleKind) (symId : Option ID)
      (children1 children2 : List ASTBase) :
      EditedBelowSymbol (.decl tag id (.mk name visibility moduleKind symId children1))
        (.decl tag id (.mk name visibility moduleKind symId children2))
  | inExp (tag : Nat) (id : Option ID) (before after : List ASTBase) {t1 t2 : ASTBase} :
      EditedBelowSymbol t1 t2 →
      EditedBelowSymbol (.exp tag id (before ++ t1 :: after))
        (.exp tag id (before ++ t2 :: after))
  | inSym (tag : DeclTag) (id : Option ID) (name : UniqueString) (visibility : Visibility)
      (moduleKind : Option ModuleKind) (symId : Option ID) (before after : List ASTBase)
      {t1 t2 : ASTBase} :
      EditedBelowSymbol t1 t2 →
      EditedBelowSymbol
        (.decl tag id (.mk name visibility moduleKind symId (before ++ t1 :: after)))
        (.decl tag id (.mk name visibility moduleKind symId (before ++ t2 :: after)))

/-- Two trees with IDs that are equal, IDs included, everywhere outside the subtree of
one declared symbol: the declaration node of that symbol is equal in both, and the two
symbol nodes have the same name and path. -/
inductive SameOutsideSymbol : ASTBase → ASTBase → Prop where
  | here (tag : DeclTag) (id : Option ID) (sym1 sym2 : Sym) :
      sym1.name = sym2.name → sym1.path = sym2.path →
      SameOutsideSymbol (.decl tag id sym1) (.decl tag id sym2)
  | inExp (tag : Nat) (id : Option ID) (before after : List ASTBase) {t1 t2 : ASTBase} :
      SameOutsideSymbol t1 t2 →
      SameOutsideSymbol (.exp tag id (before ++ t1 :: after))
        (.exp tag id (before ++ t2 :: after))
  | inSym (tag : DeclTag) (id : Option ID) (name : UniqueString) (visibility : Visibility)
      (moduleKind : Option ModuleKind) (symId : Option ID) (before after : List ASTBase)
      {t1 t2 : ASTBase} :
      SameOutsideSymbol t1 t2 →
      SameOutsideSymbol
        (.decl tag id (.mk name visibility moduleKind symId (before ++ t1 :: after)))
        (.decl tag id (.mk name visibility moduleKind symId (before ++ t2 :: after)))

/-- The module `M` with the functions `f` and `g`, where `f` has the body `body`. -/
def moduleWithBody (body : List ASTBase) : ASTBase :=
  exampleModule ['M'] [exampleFunction ['f'] body, .exp 5 none [], exampleFunction ['g'] []]

/-! ## Named queries and their setters -/

/-- Modelled from the spec: one entry of a query map (`querydetail::QueryMapResult` is
declared in `ContextDetail.h`, which is not among the sources): the argument tuple that
keys it, the address of its result cell and the memoized value. -/
structure QueryMapEntry where
  args : UniqueString
  cell : Ptr
  value : List Char
deriving DecidableEq, Repr

/-- Modelled from the spec: the query map of one query (`querydetail::QueryMap`, declared
in `ContextDetail.h`): "per query identity, a hashtable keyed on the argument tuple". -/
abbrev QueryMap := List QueryMapEntry

/-- Modelled from the spec: the key of `queryDB` for a named query is the unique string of
its name; it is given here as a number that is determined by the name. -/
def queryNameKey (name : List Char) : Nat :=
  name.foldl (fun acc c => acc * 1114112 + c.toNat + 1) 0

/-- The list with the first item that satisfies `p` replaced by `item`, or with `item`
added at the end when there is none. -/
def replaceOrAdd {α : Type} (p : α → Bool) (item : α) : List α → List α
  | [] => [item]
  | x :: rest => if p x then item :: rest else x :: replaceOrAdd p item rest

/-- Modelled from the spec: the entry of a query for an argument tuple, when there is one
("Begin. Engine locates ... the argument-keyed entry in the query's map. If an entry
exists, it is the candidate saved result"). -/
def getResult (ctx : Context QueryMap) (queryName : Nat) (args : UniqueString) :
    Option QueryMapEntry :=
  (ctx.queryDB.find? (fun m => m.1 == queryName)).bind
    (fun m => m.2.find? (fun e => e.args == args))

/-- Modelled from the spec: the update of the entry of a query by the setter path, which
"calls merge directly and updates `lastChanged`/`lastComputed` without executing a body":
the entry is located or created (`fresh` is the address of a created cell), the merge
follows the default rule "`changed = (keep != candidate)`; if changed, swap",
`lastComputed` becomes the current revision, `lastChanged` only if changed, and
`lastCheckedAndReused`, which the data model keeps at or above `lastComputed`, becomes
the current revision. -/
def storeResultForQuery (ctx : Context QueryMap) (fresh : Ptr) (args : UniqueString)
    (result : List Char) (queryName : Nat) : Bool × Context QueryMap :=
  let entries :=
    ((ctx.queryDB.find? (fun m => m.1 == queryName)).map (fun m => m.2)).getD []
  let saved := entries.find? (fun e => e.args == args)
  let changed :=
    match saved with
    | some keep => decide (keep.value ≠ result)
    | none => true
  let cell := (saved.map (fun keep => keep.cell)).getD fresh
  let stamped : QueryMapResultBase :=
    match saved with
    | some _ =>
      { ctx.results cell with
        lastComputed := ctx.currentRevisionNumber
        lastCheckedAndReused := ctx.currentRevisionNumber
        lastChanged :=
          if changed then ctx.currentRevisionNumber else (ctx.results cell).lastChanged }
    | none =>
      ⟨ctx.currentRevisionNumber, ctx.currentRevisionNumber, ctx.currentRevisionNumber,
        [], []⟩
  let entries1 := replaceOrAdd (fun e => e.args == args) ⟨args, cell, result⟩ entries
  (changed,
    { ctx with
      queryDB := replaceOrAdd (fun m => m.1 == queryName) (queryName, entries1) ctx.queryDB
      results := Function.update ctx.results cell stamped })

/-- Modelled from the spec: `Context::updateResultForQuery`, defined in a header that is
not among the sources, is the setter path: "Setters may only be called when the
active-query stack is empty", a setter called inside a query being an internal failure
that aborts (`none`); otherwise the entry is updated. -/
def updateResultForQuery (ctx : Context QueryMap) (fresh : Ptr) (args : UniqueString)
    (result : List Char) (queryName : Nat) : Option (Bool × Context QueryMap) :=
  if ctx.queryDeps.length > 0 then none
  else some (storeResultForQuery ctx fresh args result queryName)

/-- The method `Context::setFilePathForModuleName`. -/
def setFilePathForModuleName (ctx : Context QueryMap) (fresh : Ptr)
    (modName path : UniqueString) : Option (Bool × Context QueryMap) :=
  let queryName := queryNameKey "filePathForModuleName".toList
  updateResultForQuery ctx fresh modName path queryName

/-- The method `Context::setFileText`. -/
def setFileText (ctx : Context QueryMap) (fresh : Ptr) (path : UniqueString)
    (data : List Char) : Option (Bool × Context QueryMap) :=
  let queryName := queryNameKey "fileText".toList
  updateResultForQuery ctx fresh path data queryName

/-- The method `Context::filePathForModuleName`: the returned path and the context
afterwards, `none` when `assert(false)` is reached. The macros of `QueryImpl.h`, which is
not among the sources, are modelled from the spec: `QUERY_BEGIN_NAMED` locates the entry,
`QUERY_USE_SAVED` is the can-reuse check of `queryCanUseSavedResultAndPushIfNot`, after
which "the engine records this call as a dependency of the enclosing query (if any)", and
`QUERY_GET_SAVED` is the saved value. -/
def filePathForModuleName (fuel : Nat) (ctx : Context QueryMap) (modName : UniqueString) :
    Option (UniqueString × Context QueryMap) :=
  let queryName := queryNameKey "filePathForModuleName".toList
  let saved := getResult ctx queryName modName
  match queryCanUseSavedResultAndPushIfNot fuel ctx queryName
      (saved.map (fun e => e.cell)) with
  | none => none
  | some (true, ctx1) =>
    match saved with
    | some e => some (e.value, saveDependenciesAndErrorsInParent ctx1 e.cell)
    | none => none
  | some (false, _) => none

/-- A context at revision 3 with an empty query database and the given stack. -/
def exampleNamedQueries (frames : List QueryDepsEntry) : Context QueryMap :=
  { (Context.build : Context QueryMap) with
    queryDeps := frames
    currentRevisionNumber := 3 }

/-! ## The body of a query -/

/-- What the body of a query does with the active-query stack between the push of its
frame and its end: it notes an error (`queryNoteError`), it consults a child query whose
saved result is reused (`saveDependenciesAndErrorsInParent`), or it consults a child
query that is computed: the frame of the child is pushed, the body of the child runs, and
the child is ended by `endQueryHandleDependency`. -/
inductive BodyOp where
  | noteError (error : ErrorMessage)
  | reuseChild (child : Ptr)
  | computeChild (queryName : Nat) (child : Ptr) (body : List BodyOp)

mutual
/-- The effect of one step of a query body on the context; `none` when an assertion of
the engine fails. -/
def runBodyOp : BodyOp → Context QM → Option (Context QM)
  | .noteError error, ctx => queryNoteError ctx error
  | .reuseChild child, ctx => some (saveDependenciesAndErrorsInParent ctx child)
  | .computeChild queryName child body, ctx =>
    match runBody body { ctx with queryDeps := ctx.queryDeps ++ [⟨queryName, [], []⟩] } with
    | none => none
    | some ctx1 => endQueryHandleDependency ctx1 child
/-- The effect of the steps of a query body, in their order. -/
def runBody : List BodyOp → Context QM → Option (Context QM)
  | [], ctx => some ctx
  | op :: rest, ctx =>
    match runBodyOp op ctx with
    | none => none
    | some ctx1 => runBody rest ctx1
end

/-- The errors that a step notes directly. -/
def BodyOp.directErrors : BodyOp → List ErrorMessage
  | .noteError error => [error]
  | .reuseChild _ => []
  | .computeChild _ _ _ => []

/-- The child that a step consults. -/
def BodyOp.consulted : BodyOp → List Ptr
  | .noteError _ => []
  | .reuseChild child => [child]
  | .computeChild _ child _ => [child]

/-- The errors noted directly in a body, in their order. -/
def directErrorsOf : List BodyOp → List ErrorMessage
  | [] => []
  | op :: rest => op.directErrors ++ directErrorsOf rest

/-- The children consulted by a body, in their order. -/
def consultedBy : List BodyOp → List Ptr
  | [] => []
  | op :: rest => op.consulted ++ consultedBy rest

/-- For every dependency recorded on one of the frames, the errors of that cell are a
contiguous part of the errors of one of the frames. -/
def ErrorsCovered (results : Ptr → QueryMapResultBase) (frames : List QueryDepsEntry) :
    Prop :=
  ∀ F ∈ frames, ∀ c ∈ F.dependencies, ∃ G ∈ frames, (results c).errors <:+: G.errors

/-- A body that notes an error, reuses cell 1 (which carries the error `r`), computes
cell 2 (whose body notes `c` and reuses cell 1), and notes another error. -/
def exampleBody : List BodyOp :=
  [.noteError "a", .reuseChild 1,
   .computeChild 9 2 [.noteError "c", .reuseChild 1], .noteError "b"]

/-! ## Distinct IDs -/

mutual
/-- The IDs of all non-comment nodes in the subtree of a node, the symbol nodes and the
nodes inside declared symbols included. -/
def allIDs : ASTBase → List (Option ID)
  | .comment _ => []
  | .exp _ id children => id :: allIDsList children
  | .decl _ id sym => id :: allIDsSym sym
/-- The IDs of a symbol node and of all non-comment nodes below it. -/
def allIDsSym : Sym → List (Option ID)
  | .mk _ _ _ id children => id :: allIDsList children
/-- The IDs of `allIDs` for a list of nodes. -/
def allIDsList : List ASTBase → List (Option ID)
  | [] => []
  | child :: rest => allIDs child ++ allIDsList rest
end

/-- A symbol name that is not empty and contains neither `.` nor `#`. -/
def PlainName (name : UniqueString) : Prop :=
  name ≠ [] ∧ '.' ∉ name ∧ '#' ∉ name

/-- A list of path components all of whose names are plain. -/
def PlainPath (pathVec : List (UniqueString × Nat)) : Prop :=
  ∀ x ∈ pathVec, PlainName x.1

/-- The text of one path component: the name, followed by `#k` for the repeat `k > 0`. -/
def renderComponent (nk : UniqueString × Nat) : List Char :=
  nk.1 ++ repeatSuffix nk.2

/-- The number that a list of decimal digits writes. -/
def digitsValue (digits : List Char) : Nat :=
  digits.foldl (fun acc c => acc * 10 + (c.toNat - 48)) 0

/-- Every key of the list belongs to the numbering of the symbol with path `symbolPath`,
with an index from `i` up to `i + count - 1`, or to a symbol at or below one of the
components `comps` under the components `pathVec`. -/
def KeysWithin (symbolPath : UniqueString) (i count : Nat)
    (pathVec comps : List (UniqueString × Nat))
    (keys : List (Option (UniqueString × Nat))) : Prop :=
  ∀ k ∈ keys, ∃ Q j, k = some (Q, j) ∧
    ((Q = symbolPath ∧ i ≤ j ∧ j < i + count)
      ∨ ∃ c ∈ comps, ∃ ext, PlainPath (c :: ext) ∧ Q = pathStrOf (pathVec ++ c :: ext))

/-! ## Lemmas on the can-reuse decision -/

theorem SameOutsideResults.same (ctx : Context QM) : SameOutsideResults ctx ctx :=
  ⟨rfl, rfl, rfl, rfl, rfl, rfl⟩

theorem SameOutsideResults.andThen {a b c : Context QM} (h1 : SameOutsideResults a b)
    (h2 : SameOutsideResults b c) : SameOutsideResults a c :=
  ⟨h2.1.trans h1.1, h2.2.1.trans h1.2.1, h2.2.2.1.trans h1.2.2.1,
    h2.2.2.2.1.trans h1.2.2.2.1, h2.2.2.2.2.1.trans h1.2.2.2.2.1,
    h2.2.2.2.2.2.trans h1.2.2.2.2.2⟩

theorem Marked.unchanged (ctx : Context QM) : Marked ctx ctx :=
  ⟨SameOutsideResults.same ctx, fun _ => Or.inl rfl⟩

theorem Marked.rev {ctx ctx1 : Context QM} (h : Marked ctx ctx1) :
    ctx1.currentRevisionNumber = ctx.currentRevisionNumber := h.1.2.2.2.1

theorem Marked.dependencies {ctx ctx1 : Context QM} (h : Marked ctx ctx1) (p : Ptr) :
    (ctx1.results p).dependencies = (ctx.results p).dependencies := by
  rcases h.2 p with e | ⟨e, _⟩ <;> rw [e]

theorem Marked.lastComputed {ctx ctx1 : Context QM} (h : Marked ctx ctx1) (p : Ptr) :
    (ctx1.results p).lastComputed = (ctx.results p).lastComputed := by
  rcases h.2 p with e | ⟨e, _⟩ <;> rw [e]

theorem Marked.lastChanged {ctx ctx1 : Context QM} (h : Marked ctx ctx1) (p : Ptr) :
    (ctx1.results p).lastChanged = (ctx.results p).lastChanged := by
  rcases h.2 p with e | ⟨e, _⟩ <;> rw [e]

theorem Marked.errors {ctx ctx1 : Context QM} (h : Marked ctx ctx1) (p : Ptr) :
    (ctx1.results p).errors = (ctx.results p).errors := by
  rcases h.2 p with e | ⟨e, _⟩ <;> rw [e]

theorem Marked.reusable_of {ctx ctx1 : Context QM} (h : Marked ctx ctx1) {c : Option Ptr}
    (hr : CanReuse ctx1 c) : CanReuse ctx c := by
  induction hr with
  | validated c hv =>
    rw [h.lastComputed, h.rev] at hv
    rcases hv with hv | hv
    · exact CanReuse.validated c (Or.inl hv)
    · rcases h.2 c with e | ⟨_, hre⟩
      · rw [e] at hv
        exact CanReuse.validated c (Or.inr hv)
      · exact hre
  | dependencies c hne hle _ ih =>
    rw [h.dependencies] at hne hle ih
    refine CanReuse.dependencies c hne (fun d hd => ?_) ih
    have := hle d hd
    rwa [h.lastChanged, h.lastComputed] at this
  | input c hnil hc =>
    rw [h.dependencies] at hnil
    rw [h.lastComputed, h.rev] at hc
    exact CanReuse.input c hnil hc

theorem Marked.reusable_to {ctx ctx1 : Context QM} (h : Marked ctx ctx1) {c : Option Ptr}
    (hr : CanReuse ctx c) : CanReuse ctx1 c := by
  induction hr with
  | validated c hv =>
    rcases hv with hv | hv
    · exact CanReuse.validated c (Or.inl (by rw [h.lastComputed, h.rev]; exact hv))
    · refine CanReuse.validated c (Or.inr ?_)
      rcases h.2 c with e | ⟨e, _⟩
      · rw [e, h.rev]; exact hv
      · rw [e, h.rev]
  | dependencies c hne hle _ ih =>
    rw [← h.dependencies] at hne hle ih
    refine CanReuse.dependencies c hne (fun d hd => ?_) ih
    have := hle d hd
    rwa [← h.lastChanged, ← h.lastComputed] at this
  | input c hnil hc =>
    rw [← h.dependencies] at hnil
    rw [← h.lastComputed, ← h.rev] at hc
    exact CanReuse.input c hnil hc

theorem Marked.reusable_iff {ctx ctx1 : Context QM} (h : Marked ctx ctx1) (c : Option Ptr) :
    CanReuse ctx1 c ↔ CanReuse ctx c :=
  ⟨h.reusable_of, h.reusable_to⟩

theorem Marked.compose {a b c : Context QM} (h1 : Marked a b) (h2 : Marked b c) : Marked a c := by
  refine ⟨h1.1.andThen h2.1, fun p => ?_⟩
  rcases h2.2 p with e2 | ⟨e2, hr2⟩
  · rw [e2]; exact h1.2 p
  · right
    refine ⟨?_, h1.reusable_of hr2⟩
    rw [e2, h1.rev]
    rcases h1.2 p with e1 | ⟨e1, _⟩ <;> rw [e1]

theorem Marked.set {ctx ctx1 : Context QM} (h : Marked ctx ctx1) {p : Ptr}
    (hr : CanReuse ctx (some p)) : Marked ctx (setLastCheckedAndReused ctx1 p) := by
  refine ⟨h.1, fun q => ?_⟩
  by_cases hq : q = p
  · subst hq
    right
    refine ⟨?_, hr⟩
    simp only [setLastCheckedAndReused, Function.update_same]
    rw [h.rev]
    rcases h.2 q with e | ⟨e, _⟩ <;> rw [e]
  · simp only [setLastCheckedAndReused, Function.update_noteq hq]
    exact h.2 q

theorem Marked.acyclic {ctx ctx1 : Context QM} (h : Marked ctx ctx1) {rank : Ptr → Nat}
    (ha : Acyclic ctx rank) : Acyclic ctx1 rank := by
  intro p d hd
  rw [h.dependencies] at hd
  exact ha p d hd


theorem checkDependencies_spec (rank : Ptr → Nat)
    (recurse : Context QM → Option Ptr → Option (Bool × Context QM)) (p : Ptr) :
    ∀ (deps : List Ptr),
      (∀ d ∈ deps, ∀ ctx, Acyclic ctx rank → CallSpec ctx d (recurse ctx (some d))) →
      ∀ ctx, Acyclic ctx rank →
        ∃ b ctx1, checkDependencies recurse p ctx deps = some (b, ctx1) ∧ Marked ctx ctx1 ∧
          (b = true ↔ ∀ d ∈ deps,
            (ctx.results d).lastChanged ≤ (ctx.results p).lastComputed ∧
              CanReuse ctx (some d)) := by
  intro deps
  induction deps with
  | nil =>
    intro _ ctx _
    exact ⟨true, ctx, rfl, Marked.unchanged ctx, by simp⟩
  | cons d rest ih =>
    intro hrec ctx hac
    by_cases hgt : (ctx.results d).lastChanged > (ctx.results p).lastComputed
    · refine ⟨false, ctx, by simp [checkDependencies, hgt], Marked.unchanged ctx, ?_⟩
      simp only [Bool.false_eq_true, false_iff]
      intro hall
      have := (hall d (List.mem_cons_self d rest)).1
      exact absurd hgt (Nat.not_lt.2 this)
    · obtain ⟨b, ctx1, hcall, hm, hb, _⟩ := hrec d (List.mem_cons_self d rest) ctx hac
      cases b with
      | false =>
        refine ⟨false, ctx1, by simp [checkDependencies, hgt, hcall], hm, ?_⟩
        simp only [Bool.false_eq_true, false_iff]
        intro hall
        have := hb.2 (hall d (List.mem_cons_self d rest)).2
        simp at this
      | true =>
        have hrd : CanReuse ctx (some d) := hb.1 rfl
        obtain ⟨b2, ctx2, hloop, hm2, hb2⟩ :=
          ih (fun e he => hrec e (List.mem_cons_of_mem d he)) ctx1 (hm.acyclic hac)
        refine ⟨b2, ctx2, by simp [checkDependencies, hgt, hcall, hloop], hm.compose hm2, ?_⟩
        rw [hb2]
        constructor
        · intro hall e he
          rcases List.mem_cons.1 he with rfl | he
          · exact ⟨Nat.not_lt.1 hgt, hrd⟩
          · have := hall e he
            rw [hm.lastChanged, hm.lastComputed, hm.reusable_iff] at this
            exact this
        · intro hall e he
          have := hall e (List.mem_cons_of_mem d he)
          rw [hm.lastChanged, hm.lastComputed, hm.reusable_iff]
          exact this

theorem queryCanUseSavedResult_spec (rank : Ptr → Nat) :
    ∀ (fuel : Nat) (ctx : Context QM) (p : Ptr), Acyclic ctx rank → rank p < fuel →
      CallSpec ctx p (queryCanUseSavedResult fuel ctx (some p)) := by
  intro fuel
  induction fuel with
  | zero => intro _ _ _ h; exact absurd h (Nat.not_lt_zero _)
  | succ fuel ih =>
    intro ctx p hac hfuel
    unfold CallSpec
    by_cases hv : (ctx.results p).lastComputed = ctx.currentRevisionNumber ∨
        (ctx.results p).lastCheckedAndReused = ctx.currentRevisionNumber
    · refine ⟨true, ctx, by simp [queryCanUseSavedResult, hv], Marked.unchanged ctx,
        by simp [CanReuse.validated p hv], fun _ => ?_⟩
      rcases hv with hv | hv
      · exact Or.inr ⟨rfl, hv⟩
      · exact Or.inl hv
    · by_cases hdeps : (ctx.results p).dependencies.length > 0
      · have hne : (ctx.results p).dependencies ≠ [] := by
          intro h; rw [h] at hdeps; simp at hdeps
        obtain ⟨b, ctx1, hloop, hm, hb⟩ :=
          checkDependencies_spec rank (queryCanUseSavedResult fuel) p (ctx.results p).dependencies
            (fun d hd ctx2 hac2 => ih ctx2 d hac2 (by have := hac p d hd; omega))
            ctx hac
        have hiff : (∀ d ∈ (ctx.results p).dependencies,
            (ctx.results d).lastChanged ≤ (ctx.results p).lastComputed ∧
              CanReuse ctx (some d)) ↔ CanReuse ctx (some p) := by
          constructor
          · intro hall
            exact CanReuse.dependencies p hne (fun d hd => (hall d hd).1) (fun d hd => (hall d hd).2)
          · intro hr
            cases hr with
            | validated _ h => exact absurd h hv
            | dependencies _ _ hle hre => exact fun d hd => ⟨hle d hd, hre d hd⟩
            | input _ hnil _ => exact absurd hnil hne
        cases b with
        | false =>
          refine ⟨false, ctx1, by simp [queryCanUseSavedResult, hv, hdeps, hloop], hm, ?_,
            fun h => absurd h (by simp)⟩
          rw [← hiff, ← hb]
        | true =>
          have hr : CanReuse ctx (some p) := hiff.1 (hb.1 rfl)
          exact ⟨true, setLastCheckedAndReused ctx1 p,
            by simp [queryCanUseSavedResult, hv, hdeps, hloop], hm.set hr, by simp [hr],
            fun _ => Or.inl (by simp [setLastCheckedAndReused, hm.rev])⟩
      · have hnil : (ctx.results p).dependencies = [] := by
          cases h : (ctx.results p).dependencies with
          | nil => rfl
          | cons a l => rw [h] at hdeps; simp at hdeps
        by_cases hlt : ctx.currentRevisionNumber > (ctx.results p).lastComputed
        · refine ⟨false, ctx, by simp [queryCanUseSavedResult, hv, hdeps, hlt], Marked.unchanged ctx, ?_,
            fun h => absurd h (by simp)⟩
          simp only [Bool.false_eq_true, false_iff]
          intro hr
          cases hr with
          | validated _ h => exact hv h
          | dependencies _ hne _ _ => exact hne hnil
          | input _ _ hc => exact absurd hlt (Nat.not_lt.2 hc)
        · have hr : CanReuse ctx (some p) := CanReuse.input p hnil (Nat.not_lt.1 hlt)
          exact ⟨true, setLastCheckedAndReused ctx p,
            by simp [queryCanUseSavedResult, hv, hdeps, hlt], (Marked.unchanged ctx).set hr, by simp [hr],
            fun _ => Or.inl (by simp [setLastCheckedAndReused])⟩

theorem canReuse_iff_reusable {ctx : Context QM} (hstamps : StampsNotAhead ctx) (c : Option Ptr) :
    CanReuse ctx c ↔ Reusable ctx c := by
  constructor
  · intro h
    induction h with
    | validated c hv => exact Reusable.validated c hv
    | dependencies c hne hle _ ih => exact Reusable.dependencies c hne hle ih
    | input c hnil hc => exact Reusable.input c hnil (Nat.le_antisymm (hstamps c) hc)
  · intro h
    induction h with
    | validated c hv => exact CanReuse.validated c hv
    | dependencies c hne hle _ ih => exact CanReuse.dependencies c hne hle ih
    | input c hnil hc => exact CanReuse.input c hnil (Nat.le_of_eq hc.symm)

theorem not_canReuse_none (ctx : Context QM) : ¬ CanReuse ctx none := by
  intro h; cases h

theorem not_reusable_none (ctx : Context QM) : ¬ Reusable ctx none := by
  intro h; cases h

theorem acyclic_exampleContext (rev : RevisionNumber) (cells : List QueryMapResultBase)
    (frames : List QueryDepsEntry)
    (h : ∀ p < cells.length, ∀ d ∈ (cells.getD p blankResult).dependencies, p < d) :
    Acyclic (exampleContext rev cells frames) (exampleRank cells.length) := by
  intro p d hd
  simp only [exampleContext, resultsAt] at hd
  by_cases hp : p < cells.length
  · have h1 : Nat.lt p d := h p hp d hd
    have h2 : Nat.lt p cells.length := hp
    show Nat.lt (cells.length - d) (cells.length - p)
    simp only [Nat.lt_eq] at *
    omega
  · rw [List.getD_eq_default _ _ (Nat.not_lt.1 hp)] at hd
    simp [blankResult] at hd

theorem stampsNotAhead_exampleContext (rev : RevisionNumber) (cells : List QueryMapResultBase)
    (frames : List QueryDepsEntry) (h : ∀ e ∈ cells, e.lastComputed ≤ rev) :
    StampsNotAhead (exampleContext rev cells frames) := by
  intro p
  simp only [exampleContext, resultsAt]
  by_cases hp : p < cells.length
  · rw [List.getD_eq_getElem _ _ hp]
    exact h _ (List.getElem_mem _)
  · rw [List.getD_eq_default _ _ (Nat.not_lt.1 hp)]
    simp [blankResult]

/-- C1. For every acyclic dependency graph of result cells (`rank` decreases along every
dependency edge) and every current revision, `queryCanUseSavedResult(c)` returns, and it
returns `true` exactly when `c` is reusable by the recursive definition of the
specification (`Reusable`): `c` is non-null and was computed or checked at the current
revision, or has dependencies none of which changed after `c.lastComputed` and all of
which are reusable, or has no dependencies and was computed at the current revision. The
cells are those of the data model, whose stamps are copies of the revision counter and so
never ahead of it (`StampsNotAhead`). -/
theorem queryCanUseSavedResult_iff_reusable (ctx : Context QM) (rank : Ptr → Nat) (fuel : Nat)
    (c : Option Ptr) (hacyclic : Acyclic ctx rank) (hfuel : ∀ p, c = some p → rank p < fuel)
    (hstamps : StampsNotAhead ctx) :
    ∃ b ctx1, queryCanUseSavedResult fuel ctx c = some (b, ctx1) ∧
      (b = true ↔ Reusable ctx c) := by
  cases c with
  | none =>
    refine ⟨false, ctx, by cases fuel <;> rfl, ?_⟩
    simp [not_reusable_none]
  | some p =>
    obtain ⟨b, ctx1, hrun, _, hb, _⟩ :=
      queryCanUseSavedResult_spec rank fuel ctx p hacyclic (hfuel p rfl)
    exact ⟨b, ctx1, hrun, hb.trans (canReuse_iff_reusable hstamps _)⟩

/-- The statement of C1 at the example graph `graphReusable`. -/
theorem queryCanUseSavedResult_iff_reusable_witness :
    ∃ b ctx1, queryCanUseSavedResult 4 graphReusable (some 0) = some (b, ctx1) ∧
      (b = true ↔ Reusable graphReusable (some 0)) :=
  queryCanUseSavedResult_iff_reusable graphReusable (exampleRank 3) 4 (some 0)
    (acyclic_exampleContext _ _ _ (by decide))
    (by intro p hp; cases hp; decide)
    (stampsNotAhead_exampleContext _ _ _ (by decide))


theorem lastChanged_exampleContext_le (rev : RevisionNumber) (cells : List QueryMapResultBase)
    (frames : List QueryDepsEntry) (n : Nat) (h : ∀ e ∈ cells, e.lastChanged ≤ n) (p : Ptr) :
    ((exampleContext rev cells frames).results p).lastChanged ≤ n := by
  simp only [exampleContext, resultsAt]
  by_cases hp : p < cells.length
  · rw [List.getD_eq_getElem _ _ hp]
    exact h _ (List.getElem_mem _)
  · rw [List.getD_eq_default _ _ (Nat.not_lt.1 hp)]
    simp [blankResult]

/-- C2, as stated, fails. In `graphStaleInput` no transitive dependency of cell 0 has
`lastChanged` later than the `lastComputed` of cell 0 and the revision was advanced without
a setter call, yet `queryCanUseSavedResultAndPushIfNot` returns `false` and pushes a frame:
the input cell 1 has no dependencies and was not set in the current revision. In
`graphChangedBelow` the inputs are set in the current revision and again no transitive
dependency changed after the `lastComputed` of cell 0, yet the answer is `false`: cell 2
changed after its dependent, cell 1, was computed. -/
theorem pushIfNot_unchanged_counterexample :
    ((∀ x, TransitiveDependency graphStaleInput 0 x →
        (graphStaleInput.results x).lastChanged ≤ (graphStaleInput.results 0).lastComputed) ∧
      (queryCanUseSavedResultAndPushIfNot 2 graphStaleInput 7 (some 0)).map
        (fun r => (r.1, r.2.queryDeps)) = some (false, [⟨7, [], []⟩])) ∧
    ((∀ x, TransitiveDependency graphChangedBelow 0 x →
        (graphChangedBelow.results x).lastChanged ≤ (graphChangedBelow.results 0).lastComputed) ∧
      (queryCanUseSavedResultAndPushIfNot 3 graphChangedBelow 7 (some 0)).map
        (fun r => (r.1, r.2.queryDeps)) = some (false, [⟨7, [], []⟩])) :=
  ⟨⟨fun x _ => lastChanged_exampleContext_le _ _ _ 1 (by decide) x, by decide⟩,
   ⟨fun x _ => lastChanged_exampleContext_le _ _ _ 5 (by decide) x, by decide⟩⟩

theorem canReuse_of_unchanged (ctx : Context QM) (rank : Ptr → Nat) (c : Ptr)
    (hacyclic : Acyclic ctx rank)
    (hinputs : ∀ x, DependsOn ctx c x → (ctx.results x).dependencies = [] →
      (ctx.results x).lastComputed = ctx.currentRevisionNumber ∨
        (ctx.results x).lastCheckedAndReused = ctx.currentRevisionNumber)
    (hedges : ∀ x, DependsOn ctx c x → ∀ d ∈ (ctx.results x).dependencies,
      (ctx.results d).lastChanged ≤ (ctx.results x).lastComputed) :
    ∀ (n : Nat) (x : Ptr), rank x < n → DependsOn ctx c x → CanReuse ctx (some x) := by
  intro n
  induction n with
  | zero => intro x h; exact absurd h (Nat.not_lt_zero _)
  | succ n ih =>
    intro x hx hreach
    by_cases hnil : (ctx.results x).dependencies = []
    · exact CanReuse.validated x (hinputs x hreach hnil)
    · refine CanReuse.dependencies x hnil (hedges x hreach) (fun d hd => ?_)
      have h1 : Nat.lt (rank d) (rank x) := hacyclic x d hd
      have h2 : Nat.lt (rank x) (n + 1) := hx
      refine ih d ?_ (Relation.ReflTransGen.tail hreach hd)
      show Nat.lt (rank d) n
      simp only [Nat.lt_eq] at *
      omega

/-- C2, amended. For every acyclic dependency graph, saved cell `c` and current revision:
if every cell without dependencies among `c` and its transitive dependencies was computed
or checked at the current revision, and for every cell `x` among `c` and its transitive
dependencies no dependency of `x` has `lastChanged` later than `x.lastComputed`, then
`queryCanUseSavedResultAndPushIfNot` returns `true` and leaves the active-query stack as it
was (no frame is pushed, so the body is not entered). -/
theorem pushIfNot_reuses_unchanged (ctx : Context QM) (rank : Ptr → Nat) (fuel : Nat)
    (queryName : Nat) (c : Ptr) (hacyclic : Acyclic ctx rank) (hfuel : rank c < fuel)
    (hinputs : ∀ x, DependsOn ctx c x → (ctx.results x).dependencies = [] →
      (ctx.results x).lastComputed = ctx.currentRevisionNumber ∨
        (ctx.results x).lastCheckedAndReused = ctx.currentRevisionNumber)
    (hedges : ∀ x, DependsOn ctx c x → ∀ d ∈ (ctx.results x).dependencies,
      (ctx.results d).lastChanged ≤ (ctx.results x).lastComputed) :
    ∃ ctx1, queryCanUseSavedResultAndPushIfNot fuel ctx queryName (some c) = some (true, ctx1) ∧
      ctx1.queryDeps = ctx.queryDeps := by
  obtain ⟨b, ctx1, hrun, hm, hb, _⟩ := queryCanUseSavedResult_spec rank fuel ctx c hacyclic hfuel
  have hr : CanReuse ctx (some c) :=
    canReuse_of_unchanged ctx rank c hacyclic hinputs hedges (rank c + 1) c (Nat.lt_succ_self _)
      Relation.ReflTransGen.refl
  have hbt : b = true := hb.2 hr
  subst hbt
  exact ⟨ctx1, by simp [queryCanUseSavedResultAndPushIfNot, hrun], hm.1.2.2.1⟩

theorem exampleContext_results_cases (rev : RevisionNumber) (cells : List QueryMapResultBase)
    (frames : List QueryDepsEntry) (P : QueryMapResultBase → Prop) (hblank : P blankResult)
    (h : ∀ e ∈ cells, P e) (p : Ptr) : P ((exampleContext rev cells frames).results p) := by
  simp only [exampleContext, resultsAt]
  by_cases hp : p < cells.length
  · rw [List.getD_eq_getElem _ _ hp]
    exact h _ (List.getElem_mem _)
  · rw [List.getD_eq_default _ _ (Nat.not_lt.1 hp)]
    exact hblank

theorem dependsOn_exampleContext_lt (rev : RevisionNumber) (cells : List QueryMapResultBase)
    (frames : List QueryDepsEntry) (c : Ptr) (hc : c < cells.length)
    (h : ∀ e ∈ cells, ∀ d ∈ e.dependencies, d < cells.length) (x : Ptr)
    (hx : DependsOn (exampleContext rev cells frames) c x) : x < cells.length := by
  induction hx with
  | refl => exact hc
  | tail _ hd ih =>
    rename_i b d
    simp only [exampleContext, resultsAt] at hd
    rw [List.getD_eq_getElem _ _ ih] at hd
    exact h _ (List.getElem_mem _) _ hd

/-- The statement of C2, amended, at the example graph `graphValidated`. -/
theorem pushIfNot_reuses_unchanged_witness :
    ∃ ctx1, queryCanUseSavedResultAndPushIfNot 4 graphValidated 7 (some 0) = some (true, ctx1) ∧
      ctx1.queryDeps = graphValidated.queryDeps :=
  pushIfNot_reuses_unchanged graphValidated (exampleRank 3) 4 7 0
    (acyclic_exampleContext _ _ _ (by decide)) (by decide)
    (fun x hx => by
      have hlt : x < 3 := dependsOn_exampleContext_lt _ _ _ 0 (by decide) (by decide) x hx
      clear hx
      revert x
      decide)
    (fun x _ => exampleContext_results_cases 3 _ _
      (fun e => ∀ d ∈ e.dependencies, (graphValidated.results d).lastChanged ≤ e.lastComputed)
      (by decide) (by decide) x)


/-- C3. For every saved cell `c` that was neither computed nor checked at the current
revision: if some dependency `d` of `c` has `d.lastChanged > c.lastComputed`, or some
dependency of `c` is not reusable (`Reusable`, the definition of the specification), then
`queryCanUseSavedResultAndPushIfNot` returns `false` and the active-query stack afterwards
is the stack before followed by one new frame with empty dependency and error lists. The
graph is acyclic and no stamp is ahead of the revision counter, as in C1. -/
theorem pushIfNot_pushes_on_changed_dependency (ctx : Context QM) (rank : Ptr → Nat)
    (fuel : Nat) (queryName : Nat) (c : Ptr) (hacyclic : Acyclic ctx rank)
    (hfuel : rank c < fuel) (hstamps : StampsNotAhead ctx)
    (hcomputed : (ctx.results c).lastComputed ≠ ctx.currentRevisionNumber)
    (hchecked : (ctx.results c).lastCheckedAndReused ≠ ctx.currentRevisionNumber)
    (hdep : (∃ d ∈ (ctx.results c).dependencies,
        (ctx.results d).lastChanged > (ctx.results c).lastComputed) ∨
      (∃ d ∈ (ctx.results c).dependencies, ¬ Reusable ctx (some d))) :
    ∃ ctx1, queryCanUseSavedResultAndPushIfNot fuel ctx queryName (some c) = some (false, ctx1) ∧
      ctx1.queryDeps = ctx.queryDeps ++ [⟨queryName, [], []⟩] := by
  obtain ⟨b, ctx1, hrun, hm, hb, _⟩ := queryCanUseSavedResult_spec rank fuel ctx c hacyclic hfuel
  have hnot : ¬ CanReuse ctx (some c) := by
    intro hr
    cases hr with
    | validated _ hv =>
      rcases hv with hv | hv
      · exact hcomputed hv
      · exact hchecked hv
    | dependencies _ _ hle hre =>
      rcases hdep with ⟨d, hd, hgt⟩ | ⟨d, hd, hnr⟩
      · exact absurd hgt (Nat.not_lt.2 (hle d hd))
      · exact hnr ((canReuse_iff_reusable hstamps _).1 (hre d hd))
    | input _ hnil _ =>
      rcases hdep with ⟨d, hd, _⟩ | ⟨d, hd, _⟩ <;> rw [hnil] at hd <;> cases hd
  have hbf : b = false := by
    cases b with
    | false => rfl
    | true => exact absurd (hb.1 rfl) hnot
  subst hbf
  refine ⟨{ ctx1 with queryDeps := ctx1.queryDeps ++ [⟨queryName, [], []⟩] },
    by simp only [queryCanUseSavedResultAndPushIfNot, hrun], ?_⟩
  show ctx1.queryDeps ++ _ = _
  rw [hm.1.2.2.1]

/-- The statement of C3 at the example graph `graphChangedInput`, whose input cell 2 changed
at the current revision. -/
theorem pushIfNot_pushes_on_changed_dependency_witness :
    ∃ ctx1, queryCanUseSavedResultAndPushIfNot 4 graphChangedInput 7 (some 0) = some (false, ctx1) ∧
      ctx1.queryDeps = graphChangedInput.queryDeps ++ [⟨7, [], []⟩] :=
  pushIfNot_pushes_on_changed_dependency graphChangedInput (exampleRank 3) 4 7 0
    (acyclic_exampleContext _ _ _ (by decide)) (by decide)
    (stampsNotAhead_exampleContext _ _ _ (by decide)) (by decide) (by decide)
    (Or.inl ⟨2, by decide, by decide⟩)

/-- C4, as stated, fails. The cell of `cellComputedNow` was computed at the current
revision 2 and last checked at revision 1: `queryCanUseSavedResult` returns `true` by its
first test and the cell's `lastCheckedAndReused` is 1 afterwards, not 2. -/
theorem queryCanUseSavedResult_stamp_counterexample :
    (queryCanUseSavedResult 1 cellComputedNow (some 0)).map
        (fun r => (r.1, (r.2.results 0).lastCheckedAndReused)) = some (true, 1) ∧
      cellComputedNow.currentRevisionNumber = 2 := by
  decide

/-- C4, amended. Whenever `queryCanUseSavedResult(c)` returns `true` for a cell `c` that
was not computed at the current revision, `c.lastCheckedAndReused` equals the current
revision afterwards; when `c` was computed at the current revision the call returns `true`
with `c.lastComputed` equal to the current revision and `c.lastCheckedAndReused` left as
it was. -/
theorem queryCanUseSavedResult_stamp (ctx : Context QM) (rank : Ptr → Nat) (fuel : Nat)
    (c : Ptr) (hacyclic : Acyclic ctx rank) (hfuel : rank c < fuel) :
    ∃ b ctx1, queryCanUseSavedResult fuel ctx (some c) = some (b, ctx1) ∧
      (b = true → (ctx.results c).lastComputed ≠ ctx.currentRevisionNumber →
        (ctx1.results c).lastCheckedAndReused = ctx1.currentRevisionNumber) ∧
      (b = true → (ctx.results c).lastComputed = ctx.currentRevisionNumber →
        (ctx1.results c).lastComputed = ctx1.currentRevisionNumber ∧
          (ctx1.results c).lastCheckedAndReused = (ctx.results c).lastCheckedAndReused) := by
  obtain ⟨b, ctx1, hrun, hm, _, hstamp⟩ :=
    queryCanUseSavedResult_spec rank fuel ctx c hacyclic hfuel
  refine ⟨b, ctx1, hrun, ?_, ?_⟩
  · intro hb hne
    rcases hstamp hb with h | ⟨_, h⟩
    · rw [hm.rev]; exact h
    · exact absurd h hne
  · intro hb heq
    refine ⟨by rw [hm.lastComputed, hm.rev]; exact heq, ?_⟩
    cases fuel with
    | zero => exact absurd hfuel (Nat.not_lt_zero _)
    | succ n =>
      simp only [queryCanUseSavedResult, heq, true_or, if_true, Option.some.injEq,
        Prod.mk.injEq] at hrun
      rw [← hrun.2]

/-- The statement of C4, amended, at cell 0 of the example graph `graphReusable`. -/
theorem queryCanUseSavedResult_stamp_witness :
    ∃ b ctx1, queryCanUseSavedResult 4 graphReusable (some 0) = some (b, ctx1) ∧
      (b = true → (graphReusable.results 0).lastComputed ≠ graphReusable.currentRevisionNumber →
        (ctx1.results 0).lastCheckedAndReused = ctx1.currentRevisionNumber) ∧
      (b = true → (graphReusable.results 0).lastComputed = graphReusable.currentRevisionNumber →
        (ctx1.results 0).lastComputed = ctx1.currentRevisionNumber ∧
          (ctx1.results 0).lastCheckedAndReused = (graphReusable.results 0).lastCheckedAndReused) :=
  queryCanUseSavedResult_stamp graphReusable (exampleRank 3) 4 0
    (acyclic_exampleContext _ _ _ (by decide)) (by decide)


theorem Marked.timestampInvariant {ctx ctx1 : Context QM} (h : Marked ctx ctx1)
    (hinv : TimestampInvariant ctx) : TimestampInvariant ctx1 := by
  intro p
  obtain ⟨h1, h2, h3⟩ := hinv p
  rw [h.lastChanged, h.lastComputed, h.rev]
  refine ⟨h1, ?_⟩
  rcases h.2 p with e | ⟨e, _⟩
  · rw [e]; exact ⟨h2, h3⟩
  · rw [e]; exact ⟨Nat.le_trans h2 h3, Nat.le_refl _⟩

theorem queryCanUseSavedResult_marked (rank : Ptr → Nat) (fuel : Nat) (ctx : Context QM)
    (c : Option Ptr) (hacyclic : Acyclic ctx rank) (hfuel : ∀ p, c = some p → rank p < fuel) :
    ∃ b ctx1, queryCanUseSavedResult fuel ctx c = some (b, ctx1) ∧ Marked ctx ctx1 := by
  cases c with
  | none => exact ⟨false, ctx, by cases fuel <;> rfl, Marked.unchanged ctx⟩
  | some p =>
    obtain ⟨b, ctx1, hrun, hm, _⟩ :=
      queryCanUseSavedResult_spec rank fuel ctx p hacyclic (hfuel p rfl)
    exact ⟨b, ctx1, hrun, hm⟩

theorem saveDependenciesAndErrorsInParent_results (ctx : Context QM) (resultEntry : Ptr) :
    (saveDependenciesAndErrorsInParent ctx resultEntry).results = ctx.results ∧
      (saveDependenciesAndErrorsInParent ctx resultEntry).currentRevisionNumber =
        ctx.currentRevisionNumber := by
  unfold saveDependenciesAndErrorsInParent
  cases ctx.queryDeps.getLast? <;> simp

theorem endQueryHandleDependency_results (ctx : Context QM) (result : Ptr)
    (back : QueryDepsEntry) (hback : ctx.queryDeps.getLast? = some back) :
    ∃ ctx1, endQueryHandleDependency ctx result = some ctx1 ∧
      ctx1.results = Function.update ctx.results result
        { ctx.results result with dependencies := back.dependencies, errors := back.errors } ∧
      ctx1.currentRevisionNumber = ctx.currentRevisionNumber := by
  unfold endQueryHandleDependency
  rw [hback]
  exact ⟨_, rfl, (saveDependenciesAndErrorsInParent_results _ _).1,
    (saveDependenciesAndErrorsInParent_results _ _).2⟩

/-- C5. If every result cell satisfies
`lastChanged ≤ lastComputed ≤ lastCheckedAndReused ≤` current revision, then it still does
after `queryCanUseSavedResult`, after `queryCanUseSavedResultAndPushIfNot`, after
`endQueryHandleDependency` and after `advanceToNextRevision`, and none of the four lowers
the `lastChanged` of a cell. The first two return on acyclic graphs, the third on a
non-empty active-query stack. -/
theorem timestampInvariant_preserved (ctx : Context QM) (hinv : TimestampInvariant ctx) :
    (∀ (rank : Ptr → Nat) (fuel : Nat) (c : Option Ptr), Acyclic ctx rank →
      (∀ p, c = some p → rank p < fuel) →
      ∃ b ctx1, queryCanUseSavedResult fuel ctx c = some (b, ctx1) ∧ TimestampInvariant ctx1 ∧
        ∀ p, (ctx.results p).lastChanged ≤ (ctx1.results p).lastChanged) ∧
    (∀ (rank : Ptr → Nat) (fuel : Nat) (queryName : Nat) (c : Option Ptr), Acyclic ctx rank →
      (∀ p, c = some p → rank p < fuel) →
      ∃ b ctx1, queryCanUseSavedResultAndPushIfNot fuel ctx queryName c = some (b, ctx1) ∧
        TimestampInvariant ctx1 ∧
        ∀ p, (ctx.results p).lastChanged ≤ (ctx1.results p).lastChanged) ∧
    (∀ (result : Ptr), ctx.queryDeps ≠ [] →
      ∃ ctx1, endQueryHandleDependency ctx result = some ctx1 ∧ TimestampInvariant ctx1 ∧
        ∀ p, (ctx.results p).lastChanged ≤ (ctx1.results p).lastChanged) ∧
    (∀ (prepareToGC : Bool), TimestampInvariant (advanceToNextRevision ctx prepareToGC) ∧
      ∀ p, (ctx.results p).lastChanged ≤
        ((advanceToNextRevision ctx prepareToGC).results p).lastChanged) := by
  refine ⟨?_, ?_, ?_, ?_⟩
  · intro rank fuel c hac hfuel
    obtain ⟨b, ctx1, hrun, hm⟩ := queryCanUseSavedResult_marked rank fuel ctx c hac hfuel
    exact ⟨b, ctx1, hrun, hm.timestampInvariant hinv, fun p => Nat.le_of_eq (hm.lastChanged p).symm⟩
  · intro rank fuel queryName c hac hfuel
    obtain ⟨b, ctx1, hrun, hm⟩ := queryCanUseSavedResult_marked rank fuel ctx c hac hfuel
    have hmono : ∀ p, (ctx.results p).lastChanged ≤ (ctx1.results p).lastChanged :=
      fun p => Nat.le_of_eq (hm.lastChanged p).symm
    cases b with
    | false =>
      exact ⟨false, { ctx1 with queryDeps := ctx1.queryDeps ++ [⟨queryName, [], []⟩] },
        by simp only [queryCanUseSavedResultAndPushIfNot, hrun],
        hm.timestampInvariant hinv, hmono⟩
    | true =>
      exact ⟨true, ctx1, by simp only [queryCanUseSavedResultAndPushIfNot, hrun],
        hm.timestampInvariant hinv, hmono⟩
  · intro result hne
    obtain ⟨back, hback⟩ : ∃ back, ctx.queryDeps.getLast? = some back := by
      cases h : ctx.queryDeps.getLast? with
      | none => exact absurd (List.getLast?_eq_none_iff.1 h) hne
      | some back => exact ⟨back, rfl⟩
    obtain ⟨ctx1, hrun, hres, hrev⟩ := endQueryHandleDependency_results ctx result back hback
    refine ⟨ctx1, hrun, ?_, ?_⟩
    · intro p
      rw [hres, hrev]
      by_cases hp : p = result
      · subst hp
        simp only [Function.update_same]
        exact hinv p
      · simp only [Function.update_noteq hp]
        exact hinv p
    · intro p
      rw [hres]
      by_cases hp : p = result
      · subst hp
        simp only [Function.update_same]
        exact Nat.le_refl _
      · simp only [Function.update_noteq hp]
        exact Nat.le_refl _
  · intro prepareToGC
    constructor
    · intro p
      obtain ⟨h1, h2, h3⟩ := hinv p
      cases prepareToGC <;> exact ⟨h1, h2, Nat.le_succ_of_le h3⟩
    · intro p
      cases prepareToGC <;> exact Nat.le_refl _

theorem timestampInvariant_exampleContext (rev : RevisionNumber)
    (cells : List QueryMapResultBase) (frames : List QueryDepsEntry)
    (h : ∀ e ∈ cells, e.lastChanged ≤ e.lastComputed ∧
      e.lastComputed ≤ e.lastCheckedAndReused ∧ e.lastCheckedAndReused ≤ rev) :
    TimestampInvariant (exampleContext rev cells frames) :=
  fun p => exampleContext_results_cases rev cells frames
    (fun e => e.lastChanged ≤ e.lastComputed ∧
      e.lastComputed ≤ e.lastCheckedAndReused ∧ e.lastCheckedAndReused ≤ rev)
    (by simp [blankResult]) h p

/-- The statement of C5 at the example graph `graphValidated`, for a revision advance and
for the end of the query of its one active frame. -/
theorem timestampInvariant_preserved_witness :
    TimestampInvariant graphValidated ∧
      TimestampInvariant (advanceToNextRevision graphValidated true) ∧
      ∃ ctx1, endQueryHandleDependency graphValidated 0 = some ctx1 ∧ TimestampInvariant ctx1 :=
  have hinv : TimestampInvariant graphValidated := timestampInvariant_exampleContext _ _ _ (by decide)
  ⟨hinv, ((timestampInvariant_preserved graphValidated hinv).2.2.2 true).1,
    (((timestampInvariant_preserved graphValidated hinv).2.2.1 0 (by decide)).imp
      (fun _ h => ⟨h.1, h.2.1⟩))⟩

theorem cstr_cstr (l : List Nat) : cstr (cstr l) = cstr l := by
  unfold cstr
  induction l with
  | nil => rfl
  | cons a l ih =>
    by_cases h : (a != 0) = true
    · simp only [List.takeWhile_cons, h, if_true]
      rw [ih]
    · simp only [List.takeWhile_cons, h, if_false]; rfl

theorem take_strlen (str : List Nat) : str.take (strlen str) = cstr str := by
  unfold strlen cstr
  induction str with
  | nil => rfl
  | cons a l ih =>
    by_cases h : (a != 0) = true
    · simp only [List.takeWhile_cons, h, if_true, List.length_cons, List.take_succ_cons]
      rw [ih]
    · simp only [List.takeWhile_cons, h, if_false]; rfl

theorem cstr_append_nul (l : List Nat) : cstr (cstr l ++ [0]) = cstr l := by
  unfold cstr
  induction l with
  | nil => rfl
  | cons a l ih =>
    by_cases h : (a != 0) = true
    · simp only [List.takeWhile_cons, h, if_true, List.cons_append]
      rw [ih]
    · simp only [List.takeWhile_cons, h, if_false]; rfl

theorem cstr_eq_self (l : List Nat) (h : ∀ b ∈ l, b ≠ 0) : cstr l = l := by
  unfold cstr
  rw [List.takeWhile_eq_self_iff]
  intro b hb
  simpa using h b hb

theorem keyText_new (buf gcMark : Nat) (str : List Nat) :
    keyText ⟨buf + 2, buf, [gcMark, 0x02] ++ (str.take (strlen str) ++ [0])⟩ = cstr str := by
  simp only [keyText, Nat.add_sub_cancel_left]
  rw [take_strlen]
  exact cstr_append_nul str

theorem keyText_set_zero (e : UniqueStrEntry) (m : Nat) (h : e.key = e.buf + 2) :
    keyText { e with bytes := e.bytes.set 0 m } = keyText e := by
  simp only [keyText, h, Nat.add_sub_cancel_left]
  congr 1
  cases e.bytes with
  | nil => rfl
  | cons a l => rfl

theorem tableFind_eq (table : List UniqueStrEntry) (str : List Nat) :
    tableFind table str = table.find? (fun e => keyText e == cstr str) := rfl

theorem getOrCreateUniqueString_found (al : Allocator) (ctx : Context QM) (str : List Nat)
    (e : UniqueStrEntry) (h : tableFind ctx.uniqueStringsTable str = some e) :
    getOrCreateUniqueString al ctx str = some (e.buf + 2,
      if ctx.currentRevisionNumber = ctx.lastPrepareToGCRevisionNumber then
        { ctx with uniqueStringsTable :=
            storeMark (ctx.gcCounter &&& 0xff) str ctx.uniqueStringsTable }
      else ctx) := by
  simp only [getOrCreateUniqueString, h]

theorem tableInsert_of_not_found (table : List UniqueStrEntry) (e : UniqueStrEntry)
    (h : table.find? (fun x => keyText x == keyText e) = none) :
    tableInsert table e = table ++ [e] := by
  unfold tableInsert
  rw [List.find?_eq_none] at h
  have : table.any (fun x => keyText x == keyText e) = false := by
    rw [List.any_eq_false]
    intro x hx
    exact h x hx
  rw [this]
  rfl

theorem getOrCreateUniqueString_not_found (al : Allocator) (ctx : Context QM) (str : List Nat)
    (h : tableFind ctx.uniqueStringsTable str = none) :
    getOrCreateUniqueString al ctx str =
      (allocateEvenAligned al (strlen str + 3)).map (fun buf =>
        (buf + 2, { ctx with uniqueStringsTable := ctx.uniqueStringsTable ++
          [⟨buf + 2, buf, [ctx.gcCounter &&& 0xff, 0x02] ++ (str.take (strlen str) ++ [0])⟩] })) := by
  simp only [getOrCreateUniqueString, h]
  cases hbuf : allocateEvenAligned al (strlen str + 3) with
  | none => rfl
  | some buf =>
    simp only [Option.map_some']
    rw [tableInsert_of_not_found]
    rw [keyText_new]
    exact h

theorem handleOf_cstr (table : List UniqueStrEntry) (str : List Nat) :
    handleOf table (cstr str) = (tableFind table str).map (fun e => e.buf + 2) := rfl

theorem storeMark_length (m : Nat) (str : List Nat) (table : List UniqueStrEntry) :
    (storeMark m str table).length = table.length := by
  induction table with
  | nil => rfl
  | cons e rest ih =>
    unfold storeMark
    split
    · rfl
    · simp only [List.length_cons, ih]

theorem storeMark_keys (m : Nat) (str : List Nat) (table : List UniqueStrEntry) :
    (storeMark m str table).map (fun e => (e.key, e.buf)) =
      table.map (fun e => (e.key, e.buf)) := by
  induction table with
  | nil => rfl
  | cons e rest ih =>
    unfold storeMark
    split
    · rfl
    · simp only [List.map_cons, ih]

theorem storeMark_keysAtOffsetTwo (m : Nat) (str : List Nat) (table : List UniqueStrEntry)
    (h : KeysAtOffsetTwo table) : KeysAtOffsetTwo (storeMark m str table) := by
  induction table with
  | nil => exact h
  | cons e rest ih =>
    have he : e.key = e.buf + 2 := h e (List.mem_cons_self _ _)
    have hrest : KeysAtOffsetTwo rest := fun x hx => h x (List.mem_cons_of_mem _ hx)
    unfold storeMark
    split
    · intro x hx
      rcases List.mem_cons.1 hx with rfl | hx
      · exact he
      · exact hrest x hx
    · intro x hx
      rcases List.mem_cons.1 hx with rfl | hx
      · exact he
      · exact ih hrest x hx

theorem handleOf_storeMark (m : Nat) (str : List Nat) (table : List UniqueStrEntry)
    (h : KeysAtOffsetTwo table) (text : List Nat) :
    handleOf (storeMark m str table) text = handleOf table text := by
  induction table with
  | nil => rfl
  | cons e rest ih =>
    have he : e.key = e.buf + 2 := h e (List.mem_cons_self _ _)
    have hrest : KeysAtOffsetTwo rest := fun x hx => h x (List.mem_cons_of_mem _ hx)
    unfold storeMark
    split
    · simp only [handleOf, List.find?_cons, keyText_set_zero e m he]
      cases keyText e == text <;> rfl
    · have := ih hrest
      simp only [handleOf, List.find?_cons] at this ⊢
      cases keyText e == text
      · exact this
      · rfl

theorem handleOf_append_of_some (table : List UniqueStrEntry) (e : UniqueStrEntry)
    (text : List Nat) (h : Nat) (hh : handleOf table text = some h) :
    handleOf (table ++ [e]) text = some h := by
  unfold handleOf at hh ⊢
  rw [List.find?_append]
  cases hf : table.find? (fun e => keyText e == text) with
  | none => rw [hf] at hh; cases hh
  | some x => rw [hf] at hh; exact hh

theorem handleOf_append_of_none (table : List UniqueStrEntry) (e : UniqueStrEntry)
    (hn : handleOf table (keyText e) = none) :
    handleOf (table ++ [e]) (keyText e) = some (e.buf + 2) := by
  unfold handleOf at hn ⊢
  rw [List.find?_append]
  cases hf : table.find? (fun x => keyText x == keyText e) with
  | none => simp
  | some x => rw [hf] at hn; cases hn

/-- What one call of `uniqueCString` does to the table, seen through `handleOf`. -/
theorem uniqueCString_handleOf (al : Allocator) (ctx ctx1 : Context QM)
    (s : Option (List Nat)) (h : Nat) (hkeys : KeysAtOffsetTwo ctx.uniqueStringsTable)
    (hcall : uniqueCString al ctx s = some (h, ctx1)) :
    handleOf ctx1.uniqueStringsTable (argText s) = some h ∧
      KeysAtOffsetTwo ctx1.uniqueStringsTable ∧
      ∀ text h1, handleOf ctx.uniqueStringsTable text = some h1 →
        handleOf ctx1.uniqueStringsTable text = some h1 := by
  unfold uniqueCString at hcall
  unfold argText
  generalize s.getD [] = str at hcall ⊢
  cases hfind : tableFind ctx.uniqueStringsTable str with
  | some e =>
    rw [getOrCreateUniqueString_found al ctx str e hfind] at hcall
    simp only [Option.some.injEq, Prod.mk.injEq] at hcall
    obtain ⟨hh, hctx⟩ := hcall
    subst hh
    subst hctx
    have hbase : handleOf ctx.uniqueStringsTable (cstr str) = some (e.buf + 2) := by
      rw [handleOf_cstr, hfind]; rfl
    split
    · exact ⟨by rw [handleOf_storeMark _ _ _ hkeys]; exact hbase,
        storeMark_keysAtOffsetTwo _ _ _ hkeys,
        fun text h1 hh => by rw [handleOf_storeMark _ _ _ hkeys]; exact hh⟩
    · exact ⟨hbase, hkeys, fun _ _ hh => hh⟩
  | none =>
    rw [getOrCreateUniqueString_not_found al ctx str hfind] at hcall
    cases hbuf : allocateEvenAligned al (strlen str + 3) with
    | none => rw [hbuf] at hcall; cases hcall
    | some buf =>
      rw [hbuf] at hcall
      simp only [Option.map_some', Option.some.injEq, Prod.mk.injEq] at hcall
      obtain ⟨hh, hctx⟩ := hcall
      subst hh
      subst hctx
      refine ⟨?_, ?_, fun text h1 hh => handleOf_append_of_some _ _ _ _ hh⟩
      · have hn : handleOf ctx.uniqueStringsTable (cstr str) = none := by
          rw [handleOf_cstr, hfind]; rfl
        have := handleOf_append_of_none ctx.uniqueStringsTable
          ⟨buf + 2, buf, [ctx.gcCounter &&& 0xff, 0x02] ++ (str.take (strlen str) ++ [0])⟩
          (by rw [keyText_new]; exact hn)
        rw [keyText_new] at this
        exact this
      · intro x hx
        rcases List.mem_append.1 hx with hx | hx
        · exact hkeys x hx
        · rw [List.mem_singleton.1 hx]

/-- A text that the table holds is returned with its handle, and no item is added. -/
theorem uniqueCString_of_handleOf (al : Allocator) (ctx : Context QM)
    (s : Option (List Nat)) (h : Nat)
    (hh : handleOf ctx.uniqueStringsTable (argText s) = some h) :
    ∃ ctx1, uniqueCString al ctx s = some (h, ctx1) ∧
      ctx1.uniqueStringsTable.length = ctx.uniqueStringsTable.length ∧
      ctx1.uniqueStringsTable.map (fun e => (e.key, e.buf)) =
        ctx.uniqueStringsTable.map (fun e => (e.key, e.buf)) := by
  unfold uniqueCString
  unfold argText at hh
  generalize s.getD [] = str at hh ⊢
  rw [handleOf_cstr] at hh
  cases hfind : tableFind ctx.uniqueStringsTable str with
  | none => rw [hfind] at hh; cases hh
  | some e =>
    rw [hfind] at hh
    simp only [Option.map_some', Option.some.injEq] at hh
    rw [getOrCreateUniqueString_found al ctx str e hfind, hh]
    split
    · exact ⟨_, rfl, storeMark_length _ _ _, storeMark_keys _ _ _⟩
    · exact ⟨_, rfl, rfl, rfl⟩

theorem InternerStep.keeps_handles {ctx ctx1 : Context QM} (hstep : InternerStep ctx ctx1)
    (hkeys : KeysAtOffsetTwo ctx.uniqueStringsTable) :
    KeysAtOffsetTwo ctx1.uniqueStringsTable ∧
      ∀ text h1, chpl.handleOf ctx.uniqueStringsTable text = some h1 →
        chpl.handleOf ctx1.uniqueStringsTable text = some h1 := by
  cases hstep with
  | intern al s h hcall => exact (uniqueCString_handleOf al ctx ctx1 s h hkeys hcall).2
  | other heq => rw [heq]; exact ⟨hkeys, fun _ _ hh => hh⟩

theorem WithoutGC.keeps_handles_along {ctx ctx1 : Context QM} (hsteps : WithoutGC ctx ctx1)
    (hkeys : KeysAtOffsetTwo ctx.uniqueStringsTable) :
    KeysAtOffsetTwo ctx1.uniqueStringsTable ∧
      ∀ text h1, chpl.handleOf ctx.uniqueStringsTable text = some h1 →
        chpl.handleOf ctx1.uniqueStringsTable text = some h1 := by
  induction hsteps with
  | refl => exact ⟨hkeys, fun _ _ hh => hh⟩
  | tail _ hstep ih =>
    obtain ⟨hk, hp⟩ := ih
    obtain ⟨hk2, hp2⟩ := hstep.keeps_handles hk
    exact ⟨hk2, fun text h1 hh => hp2 text h1 (hp text h1 hh)⟩

/-- C6. Interning identity: when a call of `uniqueCString` has returned the handle `h1`,
a later call in the same context on an equal text (with any operations other than a
garbage collection in between, and whatever the allocator would return) returns the same
handle `h1` and adds no item to `uniqueStringsTable`: its length and its key and buffer
pointers are as before the call. The key pointers of the table point two bytes into their
buffers, as `getOrCreateUniqueString` inserts them. -/
theorem uniqueCString_identity (ctx ctx1 ctx2 : Context QM) (al1 al2 : Allocator)
    (s1 s2 : Option (List Nat)) (h1 : Nat)
    (hkeys : KeysAtOffsetTwo ctx.uniqueStringsTable)
    (htext : argText s1 = argText s2)
    (hfirst : uniqueCString al1 ctx s1 = some (h1, ctx1))
    (hsteps : WithoutGC ctx1 ctx2) :
    ∃ ctx3, uniqueCString al2 ctx2 s2 = some (h1, ctx3) ∧
      ctx3.uniqueStringsTable.length = ctx2.uniqueStringsTable.length ∧
      ctx3.uniqueStringsTable.map (fun e => (e.key, e.buf)) =
        ctx2.uniqueStringsTable.map (fun e => (e.key, e.buf)) := by
  obtain ⟨hh, hk1, _⟩ := uniqueCString_handleOf al1 ctx ctx1 s1 h1 hkeys hfirst
  have h2 := (hsteps.keeps_handles_along hk1).2 _ _ hh
  rw [htext] at h2
  exact uniqueCString_of_handleOf al2 ctx2 s2 h1 h2

theorem Apart.symmetric : Symmetric Apart := fun _ _ h => h.symm

theorem handleOf_some {table : List UniqueStrEntry} {text : List Nat} {h : Nat}
    (hh : handleOf table text = some h) :
    ∃ e ∈ table, keyText e = text ∧ e.buf + 2 = h := by
  unfold handleOf at hh
  cases hf : table.find? (fun e => keyText e == text) with
  | none => rw [hf] at hh; cases hh
  | some e =>
    rw [hf] at hh
    simp only [Option.map_some', Option.some.injEq] at hh
    have hp := List.find?_some hf
    exact ⟨e, List.mem_of_find?_eq_some hf, by simpa using hp, hh⟩

theorem eq_of_overlap {table : List UniqueStrEntry} (hd : BuffersDisjoint table)
    {a b : UniqueStrEntry} (ha : a ∈ table) (hb : b ∈ table) (p : Nat)
    (hpa : a.buf ≤ p ∧ p < a.buf + a.bytes.length)
    (hpb : b.buf ≤ p ∧ p < b.buf + b.bytes.length) : a = b := by
  by_contra hne
  have := hd.2.forall Apart.symmetric ha hb hne
  unfold Apart at this
  omega

theorem readCString_of_mem {table : List UniqueStrEntry} (hd : BuffersDisjoint table)
    {e : UniqueStrEntry} (he : e ∈ table) (p : Nat)
    (hp : e.buf ≤ p ∧ p < e.buf + e.bytes.length) :
    readCString table p = some (cstr (e.bytes.drop (p - e.buf))) := by
  unfold readCString
  cases hf : table.find? (fun e => decide (e.buf ≤ p ∧ p < e.buf + e.bytes.length)) with
  | none =>
    rw [List.find?_eq_none] at hf
    have := hf e he
    simp only [decide_eq_true_eq] at this
    exact absurd hp this
  | some x =>
    have hx := List.find?_some hf
    simp only [decide_eq_true_eq] at hx
    have : x = e := eq_of_overlap hd (List.mem_of_find?_eq_some hf) he p hx hp
    rw [this]
    rfl

theorem readCString_of_handleOf {table : List UniqueStrEntry} (hk : KeysAtOffsetTwo table)
    (hd : BuffersDisjoint table) {text : List Nat} {h : Nat}
    (hh : handleOf table text = some h) : readCString table h = some text := by
  obtain ⟨e, he, htext, hbuf⟩ := handleOf_some hh
  have hlen := hd.1 e he
  rw [readCString_of_mem hd he h (by omega)]
  rw [← htext, ← hbuf]
  simp only [keyText, hk e he, Nat.add_sub_cancel_left]

theorem storeMark_buffersDisjoint (m : Nat) (str : List Nat) (table : List UniqueStrEntry)
    (h : BuffersDisjoint table) : BuffersDisjoint (storeMark m str table) := by
  induction table with
  | nil => exact h
  | cons e rest ih =>
    obtain ⟨hlen, hpw⟩ := h
    rw [List.pairwise_cons] at hpw
    have hrest : BuffersDisjoint rest :=
      ⟨fun x hx => hlen x (List.mem_cons_of_mem _ hx), hpw.2⟩
    unfold storeMark
    split
    · refine ⟨fun x hx => ?_, ?_⟩
      · rcases List.mem_cons.1 hx with rfl | hx
        · simpa using hlen e (List.mem_cons_self _ _)
        · exact hlen x (List.mem_cons_of_mem _ hx)
      · rw [List.pairwise_cons]
        refine ⟨fun x hx => ?_, hpw.2⟩
        have := hpw.1 x hx
        unfold Apart at this ⊢
        simpa using this
    · obtain ⟨hlen2, hpw2⟩ := ih hrest
      refine ⟨fun x hx => ?_, ?_⟩
      · rcases List.mem_cons.1 hx with rfl | hx
        · exact hlen x (List.mem_cons_self _ _)
        · exact hlen2 x hx
      · rw [List.pairwise_cons]
        refine ⟨fun x hx => ?_, hpw2⟩
        -- every item of the marked table has the extent of an item of the table
        have hext : ∀ (l : List UniqueStrEntry), ∀ y ∈ storeMark m str l,
            ∃ z ∈ l, y.buf = z.buf ∧ y.bytes.length = z.bytes.length := by
          intro l
          induction l with
          | nil => intro y hy; cases hy
          | cons a l ihl =>
            intro y hy
            unfold storeMark at hy
            split at hy
            · rcases List.mem_cons.1 hy with rfl | hy
              · exact ⟨a, List.mem_cons_self _ _, rfl, by simp⟩
              · exact ⟨y, List.mem_cons_of_mem _ hy, rfl, rfl⟩
            · rcases List.mem_cons.1 hy with rfl | hy
              · exact ⟨y, List.mem_cons_self _ _, rfl, rfl⟩
              · obtain ⟨z, hz, h1, h2⟩ := ihl y hy
                exact ⟨z, List.mem_cons_of_mem _ hz, h1, h2⟩
        obtain ⟨z, hz, h1, h2⟩ := hext rest x hx
        have := hpw.1 z hz
        unfold Apart at this ⊢
        rw [h1, h2]
        exact this

/-- One call of `uniqueCString` with a well-behaved allocator keeps the buffers apart. -/
theorem uniqueCString_buffersDisjoint (al : Allocator) (ctx ctx1 : Context QM)
    (s : Option (List Nat)) (h : Nat) (hd : BuffersDisjoint ctx.uniqueStringsTable)
    (hfresh : AllocatesFresh al ctx.uniqueStringsTable)
    (hcall : uniqueCString al ctx s = some (h, ctx1)) :
    BuffersDisjoint ctx1.uniqueStringsTable := by
  unfold uniqueCString at hcall
  generalize s.getD [] = str at hcall
  cases hfind : tableFind ctx.uniqueStringsTable str with
  | some e =>
    rw [getOrCreateUniqueString_found al ctx str e hfind] at hcall
    simp only [Option.some.injEq, Prod.mk.injEq] at hcall
    obtain ⟨_, hctx⟩ := hcall
    subst hctx
    split
    · exact storeMark_buffersDisjoint _ _ _ hd
    · exact hd
  | none =>
    rw [getOrCreateUniqueString_not_found al ctx str hfind] at hcall
    cases hbuf : allocateEvenAligned al (strlen str + 3) with
    | none => rw [hbuf] at hcall; cases hcall
    | some buf =>
      rw [hbuf] at hcall
      simp only [Option.map_some', Option.some.injEq, Prod.mk.injEq] at hcall
      obtain ⟨_, hctx⟩ := hcall
      subst hctx
      have hlen : ([ctx.gcCounter &&& 0xff, 0x02] ++ (str.take (strlen str) ++ [0])).length =
          strlen str + 3 := by
        rw [take_strlen]
        simp only [List.length_append, List.length_cons, List.length_nil, strlen]
        omega
      refine ⟨fun x hx => ?_, ?_⟩
      · rcases List.mem_append.1 hx with hx | hx
        · exact hd.1 x hx
        · rw [List.mem_singleton.1 hx]
          show 3 ≤ ([ctx.gcCounter &&& 0xff, 0x02] ++ (str.take (strlen str) ++ [0])).length
          rw [hlen]; omega
      · rw [List.pairwise_append]
        refine ⟨hd.2, List.pairwise_singleton _ _, fun x hx y hy => ?_⟩
        rw [List.mem_singleton.1 hy]
        have := hfresh _ _ hbuf x hx
        unfold Apart
        show x.buf + x.bytes.length ≤ buf ∨
          buf + ([ctx.gcCounter &&& 0xff, 0x02] ++ (str.take (strlen str) ++ [0])).length ≤ x.buf
        rw [hlen]
        omega

theorem handleOf_injective {table : List UniqueStrEntry} (hd : BuffersDisjoint table)
    {text1 text2 : List Nat} {h : Nat} (h1 : handleOf table text1 = some h)
    (h2 : handleOf table text2 = some h) : text1 = text2 := by
  obtain ⟨e1, he1, ht1, hb1⟩ := handleOf_some h1
  obtain ⟨e2, he2, ht2, hb2⟩ := handleOf_some h2
  have hl1 := hd.1 e1 he1
  have hl2 := hd.1 e2 he2
  have : e1 = e2 := eq_of_overlap hd he1 he2 h (by omega) (by omega)
  rw [← ht1, ← ht2, this]

/-- C7. Intern round trip: the C string read at the handle that `uniqueCString(s)` returns
is the text of `s`, which is `s` itself for a string without a NUL byte and the empty
text for the null pointer, so that `uniqueCString(null)` is `uniqueCString("")`; and a
later call on a different text returns a different handle. The table's buffers are live
heap blocks (`KeysAtOffsetTwo`, `BuffersDisjoint`) and the allocator hands out blocks that
overlap none of them (`AllocatesFresh`). -/
theorem uniqueCString_roundtrip (al : Allocator) (ctx ctx1 : Context QM)
    (s : Option (List Nat)) (h : Nat) (hkeys : KeysAtOffsetTwo ctx.uniqueStringsTable)
    (hdisjoint : BuffersDisjoint ctx.uniqueStringsTable)
    (hfresh : AllocatesFresh al ctx.uniqueStringsTable)
    (hcall : uniqueCString al ctx s = some (h, ctx1)) :
    readCString ctx1.uniqueStringsTable h = some (argText s) ∧
      (argText none = [] ∧ ∀ t : List Nat, (∀ b ∈ t, b ≠ 0) → argText (some t) = t) ∧
      uniqueCString al ctx none = uniqueCString al ctx (some []) ∧
      ∀ (al2 : Allocator) (s2 : Option (List Nat)) (h2 : Nat) (ctx2 : Context QM),
        AllocatesFresh al2 ctx1.uniqueStringsTable →
        uniqueCString al2 ctx1 s2 = some (h2, ctx2) →
        argText s2 ≠ argText s → h2 ≠ h := by
  obtain ⟨hh, hk1, _⟩ := uniqueCString_handleOf al ctx ctx1 s h hkeys hcall
  have hd1 := uniqueCString_buffersDisjoint al ctx ctx1 s h hdisjoint hfresh hcall
  refine ⟨readCString_of_handleOf hk1 hd1 hh, ⟨rfl, fun t ht => cstr_eq_self t ht⟩, rfl, ?_⟩
  intro al2 s2 h2 ctx2 hfresh2 hcall2 hne heq
  obtain ⟨hh2, _, hpers⟩ := uniqueCString_handleOf al2 ctx1 ctx2 s2 h2 hk1 hcall2
  have hd2 := uniqueCString_buffersDisjoint al2 ctx1 ctx2 s2 h2 hd1 hfresh2 hcall2
  have := hpers _ _ hh
  rw [heq] at hh2
  exact hne (handleOf_injective hd2 hh2 this)

theorem allocateEvenAligned_eq (al : Allocator) (amt : Nat) :
    allocateEvenAligned al amt =
      if allocatedPointer al amt = 0 then none
      else if allocatedPointer al amt &&& 1 ≠ 0 then none
      else some (allocatedPointer al amt) := rfl

theorem allocateEvenAligned_even (al : Allocator) (amt buf : Nat)
    (h : allocateEvenAligned al amt = some buf) :
    buf &&& 1 = 0 ∧ buf ≠ 0 ∧ buf = allocatedPointer al amt := by
  rw [allocateEvenAligned_eq] at h
  by_cases h0 : allocatedPointer al amt = 0
  · rw [if_pos h0] at h; cases h
  · rw [if_neg h0] at h
    by_cases h1 : allocatedPointer al amt &&& 1 ≠ 0
    · rw [if_pos h1] at h; cases h
    · rw [if_neg h1] at h
      simp only [Option.some.injEq] at h
      rw [← h]
      exact ⟨not_not.1 h1, h0, rfl⟩

theorem allocatedPointer_even (al : Allocator) (amt : Nat) (hsize : 2 ∣ al.pointerSize)
    (haligned : ∀ a n, a ∣ al.aligned_alloc a n) : allocatedPointer al amt &&& 1 = 0 := by
  unfold allocatedPointer
  simp only
  by_cases hodd : al.malloc amt &&& 1 ≠ 0
  · rw [if_pos hodd]
    have hdiv : 2 ∣ al.aligned_alloc al.pointerSize
        (ALIGN_UP al.pointerSize amt al.pointerSize) :=
      Dvd.dvd.trans hsize (haligned _ _)
    rw [Nat.and_one_is_mod]
    omega
  · rw [if_neg hodd]
    exact not_not.1 hodd

theorem allocateEvenAligned_of_ne_zero (al : Allocator) (amt : Nat)
    (hsize : 2 ∣ al.pointerSize) (haligned : ∀ a n, a ∣ al.aligned_alloc a n)
    (hne : allocatedPointer al amt ≠ 0) :
    allocateEvenAligned al amt = some (allocatedPointer al amt) := by
  rw [allocateEvenAligned_eq, if_neg hne,
    if_neg (not_not.2 (allocatedPointer_even al amt hsize haligned))]

theorem storeMark_buffersEven (m : Nat) (str : List Nat) (table : List UniqueStrEntry)
    (h : BuffersEven table) : BuffersEven (storeMark m str table) := by
  intro x hx
  have hmem : (x.key, x.buf) ∈ (storeMark m str table).map (fun e => (e.key, e.buf)) :=
    List.mem_map_of_mem _ hx
  rw [storeMark_keys] at hmem
  obtain ⟨y, hy, hxy⟩ := List.mem_map.1 hmem
  have : y.buf = x.buf := congrArg Prod.snd hxy
  rw [← this]
  exact h y hy

/-- C8. Handle alignment: the handle that `uniqueCString` returns has its low bit zero; it
is the address of a buffer of the table plus 2, and every buffer of the table is at an
even address, before the call (by hypothesis) and after it. The buffer that
`allocateEvenAligned` returns is even, and `allocateEvenAligned` does return its buffer (the final
assertion holds) whenever the allocation succeeded, that is the pointer is not null,
given that `aligned_alloc` returns multiples of the alignment asked for and that
`sizeof(void*)` is even. -/
theorem uniqueCString_even (al : Allocator) (ctx ctx1 : Context QM) (s : Option (List Nat))
    (h : Nat) (heven : BuffersEven ctx.uniqueStringsTable)
    (hcall : uniqueCString al ctx s = some (h, ctx1)) :
    h &&& 1 = 0 ∧
      (∃ e ∈ ctx1.uniqueStringsTable, e.buf &&& 1 = 0 ∧ h = e.buf + 2) ∧
      BuffersEven ctx1.uniqueStringsTable ∧
      (∀ amt buf, allocateEvenAligned al amt = some buf → buf &&& 1 = 0) ∧
      (∀ amt, 2 ∣ al.pointerSize → (∀ a n, a ∣ al.aligned_alloc a n) →
        allocatedPointer al amt ≠ 0 →
        allocateEvenAligned al amt = some (allocatedPointer al amt)) := by
  have hplus : ∀ b : Nat, b &&& 1 = 0 → (b + 2) &&& 1 = 0 := by
    intro b hb
    rw [Nat.and_one_is_mod] at hb ⊢
    omega
  have hmain : (∃ e ∈ ctx1.uniqueStringsTable, e.buf &&& 1 = 0 ∧ h = e.buf + 2) ∧
      BuffersEven ctx1.uniqueStringsTable := by
    unfold uniqueCString at hcall
    generalize s.getD [] = str at hcall
    cases hfind : tableFind ctx.uniqueStringsTable str with
    | some e =>
      rw [getOrCreateUniqueString_found al ctx str e hfind] at hcall
      simp only [Option.some.injEq, Prod.mk.injEq] at hcall
      obtain ⟨hh, hctx⟩ := hcall
      subst hh
      subst hctx
      have he : e ∈ ctx.uniqueStringsTable := List.mem_of_find?_eq_some hfind
      split
      · refine ⟨?_, storeMark_buffersEven _ _ _ heven⟩
        have hmem : (e.key, e.buf) ∈ (storeMark (ctx.gcCounter &&& 0xff) str
            ctx.uniqueStringsTable).map (fun e => (e.key, e.buf)) := by
          rw [storeMark_keys]
          exact List.mem_map_of_mem _ he
        obtain ⟨y, hy, hxy⟩ := List.mem_map.1 hmem
        have hb : y.buf = e.buf := congrArg Prod.snd hxy
        exact ⟨y, hy, by rw [hb]; exact heven e he, by rw [hb]⟩
      · exact ⟨⟨e, he, heven e he, rfl⟩, heven⟩
    | none =>
      rw [getOrCreateUniqueString_not_found al ctx str hfind] at hcall
      cases hbuf : allocateEvenAligned al (strlen str + 3) with
      | none => rw [hbuf] at hcall; cases hcall
      | some buf =>
        rw [hbuf] at hcall
        simp only [Option.map_some', Option.some.injEq, Prod.mk.injEq] at hcall
        obtain ⟨hh, hctx⟩ := hcall
        subst hh
        subst hctx
        have hb := (allocateEvenAligned_even al _ buf hbuf).1
        refine ⟨⟨_, List.mem_append_right _ (List.mem_singleton_self _), hb, rfl⟩, ?_⟩
        intro x hx
        rcases List.mem_append.1 hx with hx | hx
        · exact heven x hx
        · rw [List.mem_singleton.1 hx]; exact hb
  obtain ⟨⟨e, he, hbe, hhe⟩, hev1⟩ := hmain
  exact ⟨by rw [hhe]; exact hplus _ hbe, ⟨e, he, hbe, hhe⟩, hev1,
    fun amt buf hb => (allocateEvenAligned_even al amt buf hb).1,
    fun amt => allocateEvenAligned_of_ne_zero al amt⟩

theorem collectGarbage_of_not (clearOldResults : RevisionNumber → QM → QM) (ctx : Context QM)
    (h : ¬ (ctx.queryDeps.length = 0 ∧
      ctx.lastPrepareToGCRevisionNumber = ctx.currentRevisionNumber)) :
    collectGarbage clearOldResults ctx = (ctx, []) := by
  unfold collectGarbage
  rw [if_neg h]

/-- C9. `collectGarbage` returns the context unchanged and frees nothing unless the
active-query stack is empty and the current revision equals the last prepare-to-GC
revision; so it does on a freshly built context, and after `advanceToNextRevision(false)`
(the last prepare-to-GC revision being a revision already reached). -/
theorem collectGarbage_no_effect (clearOldResults : RevisionNumber → QM → QM) :
    (∀ ctx : Context QM,
      ¬ (ctx.queryDeps = [] ∧ ctx.currentRevisionNumber = ctx.lastPrepareToGCRevisionNumber) →
      collectGarbage clearOldResults ctx = (ctx, [])) ∧
    collectGarbage clearOldResults (Context.build : Context QM) = (Context.build, []) ∧
    (∀ ctx : Context QM, ctx.lastPrepareToGCRevisionNumber ≤ ctx.currentRevisionNumber →
      collectGarbage clearOldResults (advanceToNextRevision ctx false) =
        (advanceToNextRevision ctx false, [])) := by
  refine ⟨fun ctx h => ?_, ?_, fun ctx h => ?_⟩
  · apply collectGarbage_of_not
    rintro ⟨h1, h2⟩
    exact h ⟨List.length_eq_zero.1 h1, h2.symm⟩
  · apply collectGarbage_of_not
    rintro ⟨_, h2⟩
    exact Nat.zero_ne_one h2
  · apply collectGarbage_of_not
    rintro ⟨_, h2⟩
    have h3 : ctx.lastPrepareToGCRevisionNumber = ctx.currentRevisionNumber + 1 := h2
    rw [h3] at h
    exact Nat.not_succ_le_self _ h

theorem sweep_eq_filter (gcMark : Nat) (table : List UniqueStrEntry) :
    ∀ (newTable : List UniqueStrEntry) (toFree : List Nat),
      KeysUnique (newTable ++ table) →
      sweep gcMark table newTable toFree =
        (newTable ++ table.filter (hasMark gcMark),
          toFree ++ (table.filter (fun e => !hasMark gcMark e)).map (fun e => e.buf)) := by
  induction table with
  | nil => intro newTable toFree _; simp [sweep]
  | cons e rest ih =>
    intro newTable toFree hu
    unfold sweep
    by_cases hm : e.bytes.head? = some gcMark
    · have hins : tableInsert newTable e = newTable ++ [e] := by
        apply tableInsert_of_not_found
        rw [List.find?_eq_none]
        intro x hx
        have hpw := (List.pairwise_append.1 hu).2.2 x hx e (List.mem_cons_self _ _)
        simpa using hpw
      rw [if_pos hm, hins, ih (newTable ++ [e]) toFree (by simpa using hu)]
      simp [hasMark, hm]
    · have hu2 : KeysUnique (newTable ++ rest) := by
        unfold KeysUnique at hu ⊢
        exact hu.sublist (List.Sublist.append_left (List.sublist_cons_self e rest) newTable)
      rw [if_neg hm, ih newTable (toFree ++ [e.buf]) hu2]
      simp [hasMark, hm]

/-- C10. When `collectGarbage` takes effect (empty active-query stack, current revision
equal to the last prepare-to-GC revision), the table afterwards consists of exactly the
items of the table before whose mark byte `buf[0]` equals `gcCounter mod 256`, unchanged
and in their order, and the buffers passed to `free` are exactly those of the other items.
The keys of the table are pairwise different, as in every `std::unordered_map`. -/
theorem collectGarbage_sweeps (clearOldResults : RevisionNumber → QM → QM) (ctx : Context QM)
    (hstack : ctx.queryDeps = [])
    (hrev : ctx.currentRevisionNumber = ctx.lastPrepareToGCRevisionNumber)
    (hunique : KeysUnique ctx.uniqueStringsTable) :
    (collectGarbage clearOldResults ctx).1.uniqueStringsTable =
        ctx.uniqueStringsTable.filter (hasMark (ctx.gcCounter % 256)) ∧
      (collectGarbage clearOldResults ctx).2 =
        (ctx.uniqueStringsTable.filter (fun e => !hasMark (ctx.gcCounter % 256) e)).map
          (fun e => e.buf) := by
  have hmark : ctx.gcCounter &&& 0xff = ctx.gcCounter % 256 :=
    Nat.and_pow_two_sub_one_eq_mod ctx.gcCounter 8
  have hcond : ctx.queryDeps.length = 0 ∧
      ctx.lastPrepareToGCRevisionNumber = ctx.currentRevisionNumber :=
    ⟨by rw [hstack]; rfl, hrev.symm⟩
  unfold collectGarbage
  rw [if_pos hcond]
  simp only [hmark]
  rw [sweep_eq_filter _ _ [] [] (by simpa using hunique)]
  simp

theorem allocatorAt_result (a n buf : Nat)
    (h : allocateEvenAligned (allocatorAt a 0) n = some buf) : buf = a := by
  obtain ⟨_, hne, heq⟩ := allocateEvenAligned_even _ _ _ h
  rw [heq] at hne ⊢
  unfold allocatedPointer at hne ⊢
  simp only at hne ⊢
  by_cases hodd : (allocatorAt a 0).malloc n &&& 1 ≠ 0
  · rw [if_pos hodd] at hne
    exact absurd rfl hne
  · rw [if_neg hodd]
    rfl

/-- The statement of C6 for the text "ab", interned in a fresh context and asked for again
(at another address, followed by other bytes) after a revision advance. -/
theorem uniqueCString_identity_witness :
    ∃ ctx3, uniqueCString (allocatorAt 128 0) (advanceToNextRevision internedAb true)
        (some [97, 98, 0, 120]) = some (66, ctx3) ∧
      ctx3.uniqueStringsTable.length =
        (advanceToNextRevision internedAb true).uniqueStringsTable.length ∧
      ctx3.uniqueStringsTable.map (fun e => (e.key, e.buf)) =
        (advanceToNextRevision internedAb true).uniqueStringsTable.map
          (fun e => (e.key, e.buf)) :=
  uniqueCString_identity (Context.build : Context Unit) internedAb
    (advanceToNextRevision internedAb true) (allocatorAt 64 0) (allocatorAt 128 0)
    (some [97, 98]) (some [97, 98, 0, 120]) 66
    (fun _ h => by cases h) (by decide) rfl
    (Relation.ReflTransGen.single (InternerStep.other rfl))

/-- The statement of C7 for the text "c" interned after "ab". -/
theorem uniqueCString_roundtrip_witness :
    readCString [⟨66, 64, [1, 2, 97, 98, 0]⟩, ⟨130, 128, [1, 2, 99, 0]⟩] 130 =
        some (argText (some [99])) ∧
      (argText none = [] ∧ ∀ t : List Nat, (∀ b ∈ t, b ≠ 0) → argText (some t) = t) ∧
      uniqueCString (allocatorAt 128 0) internedAb none =
        uniqueCString (allocatorAt 128 0) internedAb (some []) ∧
      ∀ (al2 : Allocator) (s2 : Option (List Nat)) (h2 : Nat) (ctx2 : Context Unit),
        AllocatesFresh al2 [⟨66, 64, [1, 2, 97, 98, 0]⟩, ⟨130, 128, [1, 2, 99, 0]⟩] →
        uniqueCString al2 (exampleInterner 1 0 1
          [⟨66, 64, [1, 2, 97, 98, 0]⟩, ⟨130, 128, [1, 2, 99, 0]⟩]) s2 = some (h2, ctx2) →
        argText s2 ≠ argText (some [99]) → h2 ≠ 130 :=
  uniqueCString_roundtrip (allocatorAt 128 0) internedAb
    (exampleInterner 1 0 1 [⟨66, 64, [1, 2, 97, 98, 0]⟩, ⟨130, 128, [1, 2, 99, 0]⟩])
    (some [99]) 130 (by decide) (by decide)
    (fun n buf h e he => by
      have hb := allocatorAt_result 128 n buf h
      have he2 : e = ⟨66, 64, [1, 2, 97, 98, 0]⟩ := List.mem_singleton.1 he
      subst hb he2
      exact Or.inr (by decide))
    rfl

/-- The statement of C8 for an allocator whose `malloc` returns the odd address 65 and
whose `aligned_alloc` returns 128. -/
theorem uniqueCString_even_witness :
    130 &&& 1 = 0 ∧
      (∃ e ∈ [(⟨130, 128, [1, 2, 97, 98, 0]⟩ : UniqueStrEntry)], e.buf &&& 1 = 0 ∧ 130 = e.buf + 2) ∧
      BuffersEven [⟨130, 128, [1, 2, 97, 98, 0]⟩] ∧
      (∀ amt buf, allocateEvenAligned (allocatorAt 65 128) amt = some buf → buf &&& 1 = 0) ∧
      (∀ amt, 2 ∣ (allocatorAt 65 128).pointerSize →
        (∀ a n, a ∣ (allocatorAt 65 128).aligned_alloc a n) →
        allocatedPointer (allocatorAt 65 128) amt ≠ 0 →
        allocateEvenAligned (allocatorAt 65 128) amt =
          some (allocatedPointer (allocatorAt 65 128) amt)) :=
  uniqueCString_even (allocatorAt 65 128) (Context.build : Context Unit)
    (exampleInterner 1 0 1 [⟨130, 128, [1, 2, 97, 98, 0]⟩]) (some [97, 98]) 130
    (fun _ h => by cases h) rfl

/-- The statement of C10 at `internedTwo`: "ab", marked 1, is freed and "c", marked 2, is
kept. -/
theorem collectGarbage_sweeps_witness :
    (collectGarbage (fun _ m => m) internedTwo).1.uniqueStringsTable =
        internedTwo.uniqueStringsTable.filter (hasMark (internedTwo.gcCounter % 256)) ∧
      (collectGarbage (fun _ m => m) internedTwo).2 =
        (internedTwo.uniqueStringsTable.filter
          (fun e => !hasMark (internedTwo.gcCounter % 256) e)).map (fun e => e.buf) :=
  collectGarbage_sweeps (fun _ m => m) internedTwo rfl rfl (by decide)

/-- C14. `advanceToNextRevision(prepareToGC)` raises the current revision number by exactly
one; with `prepareToGC` it sets the last prepare-to-GC revision to the new revision and
raises `gcCounter` by one, without it both are unchanged; the unique-strings table, the
result cells, the active-query stack and the query maps are unchanged in both cases. -/
theorem advanceToNextRevision_effect (ctx : Context QM) (prepareToGC : Bool) :
    (advanceToNextRevision ctx prepareToGC).currentRevisionNumber =
        ctx.currentRevisionNumber + 1 ∧
      (prepareToGC = true →
        (advanceToNextRevision ctx prepareToGC).lastPrepareToGCRevisionNumber =
            ctx.currentRevisionNumber + 1 ∧
          (advanceToNextRevision ctx prepareToGC).gcCounter = ctx.gcCounter + 1) ∧
      (prepareToGC = false →
        (advanceToNextRevision ctx prepareToGC).lastPrepareToGCRevisionNumber =
            ctx.lastPrepareToGCRevisionNumber ∧
          (advanceToNextRevision ctx prepareToGC).gcCounter = ctx.gcCounter) ∧
      (advanceToNextRevision ctx prepareToGC).uniqueStringsTable = ctx.uniqueStringsTable ∧
      (advanceToNextRevision ctx prepareToGC).results = ctx.results ∧
      (advanceToNextRevision ctx prepareToGC).queryDeps = ctx.queryDeps ∧
      (advanceToNextRevision ctx prepareToGC).queryDB = ctx.queryDB := by
  cases prepareToGC <;> simp [advanceToNextRevision]

theorem tableInsert_keysUnique (table : List UniqueStrEntry) (e : UniqueStrEntry)
    (h : KeysUnique table) : KeysUnique (tableInsert table e) := by
  unfold tableInsert
  split
  · exact h
  · rename_i hany
    unfold KeysUnique at h ⊢
    rw [List.pairwise_append]
    refine ⟨h, List.pairwise_singleton _ _, fun x hx y hy => ?_⟩
    rw [List.mem_singleton.1 hy]
    intro heq
    apply hany
    rw [List.any_eq_true]
    exact ⟨x, hx, by simpa using heq⟩

theorem tableInsert_mem (table : List UniqueStrEntry) (e x : UniqueStrEntry)
    (hx : x ∈ tableInsert table e) : x ∈ table ∨ x = e := by
  unfold tableInsert at hx
  split at hx
  · exact Or.inl hx
  · rcases List.mem_append.1 hx with h | h
    · exact Or.inl h
    · exact Or.inr (List.mem_singleton.1 h)

theorem sweep_table_invariant (gcMark : Nat) (table : List UniqueStrEntry) :
    ∀ (newTable : List UniqueStrEntry) (toFree : List Nat),
      KeysUnique newTable → (∀ x ∈ newTable, hasMark gcMark x = true) →
      KeysUnique (sweep gcMark table newTable toFree).1 ∧
        ∀ x ∈ (sweep gcMark table newTable toFree).1, hasMark gcMark x = true := by
  induction table with
  | nil => intro newTable toFree hu hm; exact ⟨hu, hm⟩
  | cons e rest ih =>
    intro newTable toFree hu hm
    unfold sweep
    by_cases he : e.bytes.head? = some gcMark
    · rw [if_pos he]
      refine ih _ _ (tableInsert_keysUnique _ _ hu) (fun x hx => ?_)
      rcases tableInsert_mem _ _ _ hx with h | h
      · exact hm x h
      · rw [h]; simp [hasMark, he]
    · rw [if_neg he]
      exact ih _ _ hu hm

theorem filter_hasMark_of_all (gcMark : Nat) (table : List UniqueStrEntry)
    (h : ∀ x ∈ table, hasMark gcMark x = true) :
    table.filter (hasMark gcMark) = table ∧
      table.filter (fun e => !hasMark gcMark e) = [] := by
  constructor
  · rw [List.filter_eq_self]
    exact h
  · rw [List.filter_eq_nil_iff]
    intro x hx
    simp [h x hx]

/-- C13. For every context state a second `collectGarbage` right after the first frees
nothing and leaves the unique-strings table, the result cells and the active-query stack
as the first call left them; the whole state is the same when discarding old results of
the query maps a second time changes nothing. -/
theorem collectGarbage_idempotent (clearOldResults : RevisionNumber → QM → QM)
    (ctx : Context QM) :
    (collectGarbage clearOldResults (collectGarbage clearOldResults ctx).1).2 = [] ∧
      (collectGarbage clearOldResults (collectGarbage clearOldResults ctx).1).1.uniqueStringsTable =
        (collectGarbage clearOldResults ctx).1.uniqueStringsTable ∧
      (collectGarbage clearOldResults (collectGarbage clearOldResults ctx).1).1.results =
        (collectGarbage clearOldResults ctx).1.results ∧
      (collectGarbage clearOldResults (collectGarbage clearOldResults ctx).1).1.queryDeps =
        (collectGarbage clearOldResults ctx).1.queryDeps ∧
      ((∀ (rev : RevisionNumber) (m : QM),
          clearOldResults rev (clearOldResults rev m) = clearOldResults rev m) →
        (collectGarbage clearOldResults (collectGarbage clearOldResults ctx).1).1 =
          (collectGarbage clearOldResults ctx).1) := by
  by_cases hcond : ctx.queryDeps.length = 0 ∧
      ctx.lastPrepareToGCRevisionNumber = ctx.currentRevisionNumber
  · obtain ⟨hu, hm⟩ := sweep_table_invariant (ctx.gcCounter &&& 0xff) ctx.uniqueStringsTable
      [] [] List.Pairwise.nil (fun x hx => by cases hx)
    have hfirst : collectGarbage clearOldResults ctx =
        ({ ctx with
            queryDB := ctx.queryDB.map
              (fun dbEntry => (dbEntry.1, clearOldResults ctx.currentRevisionNumber dbEntry.2))
            uniqueStringsTable :=
              (sweep (ctx.gcCounter &&& 0xff) ctx.uniqueStringsTable [] []).1 },
          (sweep (ctx.gcCounter &&& 0xff) ctx.uniqueStringsTable [] []).2) := by
      unfold collectGarbage
      rw [if_pos hcond]
    rw [hfirst]
    simp only
    have hsecond := sweep_eq_filter (ctx.gcCounter &&& 0xff)
      (sweep (ctx.gcCounter &&& 0xff) ctx.uniqueStringsTable [] []).1 [] [] (by simpa using hu)
    obtain ⟨hf1, hf2⟩ := filter_hasMark_of_all _ _ hm
    rw [hf1, hf2] at hsecond
    unfold collectGarbage
    simp only [if_pos hcond, hsecond, List.nil_append, List.map_nil, List.map_map, true_and]
    intro hidem
    congr 1
    apply List.map_congr_left
    intro dbEntry _
    simp [hidem]
  · have hfirst := collectGarbage_of_not clearOldResults ctx hcond
    rw [hfirst]
    simp only
    rw [hfirst]
    exact ⟨rfl, rfl, rfl, rfl, fun _ => rfl⟩

theorem handleOf_eq_entryOf (table : List UniqueStrEntry) (text : List Nat) :
    handleOf table text = (entryOf table text).map (fun p => p.1 + 2) := by
  unfold handleOf entryOf
  cases table.find? (fun e => keyText e == text) <;> rfl

theorem entryOf_storeMark_other (m : Nat) (str : List Nat) (table : List UniqueStrEntry)
    (hk : KeysAtOffsetTwo table) (text : List Nat) (hne : text ≠ cstr str) :
    entryOf (storeMark m str table) text = entryOf table text := by
  induction table with
  | nil => rfl
  | cons e rest ih =>
    have he : e.key = e.buf + 2 := hk e (List.mem_cons_self _ _)
    have hrest : KeysAtOffsetTwo rest := fun x hx => hk x (List.mem_cons_of_mem _ hx)
    unfold storeMark
    by_cases hm : keyMatches str e = true
    · rw [if_pos hm]
      have hkt : keyText e = cstr str := by simpa [keyMatches] using hm
      have hnot : (keyText e == text) = false := by
        rw [hkt]; simpa using fun h => hne h.symm
      simp only [entryOf, List.find?_cons, keyText_set_zero e m he, hnot]
    · rw [if_neg hm]
      have := ih hrest
      simp only [entryOf, List.find?_cons] at this ⊢
      cases keyText e == text
      · exact this
      · rfl

theorem entryOf_storeMark_self (m : Nat) (str : List Nat) (table : List UniqueStrEntry)
    (hk : KeysAtOffsetTwo table) (hlen : ∀ e ∈ table, 3 ≤ e.bytes.length) (b : Nat)
    (mk : Option Nat) (h : entryOf table (cstr str) = some (b, mk)) :
    entryOf (storeMark m str table) (cstr str) = some (b, some m) := by
  induction table with
  | nil => cases h
  | cons e rest ih =>
    have he : e.key = e.buf + 2 := hk e (List.mem_cons_self _ _)
    have hrest : KeysAtOffsetTwo rest := fun x hx => hk x (List.mem_cons_of_mem _ hx)
    have hl : 3 ≤ e.bytes.length := hlen e (List.mem_cons_self _ _)
    unfold storeMark
    by_cases hm : keyMatches str e = true
    · rw [if_pos hm]
      have hkt : (keyText e == cstr str) = true := hm
      simp only [entryOf, List.find?_cons, hkt, Option.map_some', Option.some.injEq,
        Prod.mk.injEq] at h
      simp only [entryOf, List.find?_cons, keyText_set_zero e m he, hkt, Option.map_some',
        Option.some.injEq, Prod.mk.injEq]
      refine ⟨h.1, ?_⟩
      cases hb : e.bytes with
      | nil => rw [hb] at hl; simp at hl
      | cons a l => rfl
    · rw [if_neg hm]
      have hkt : (keyText e == cstr str) = false := by simpa [keyMatches] using hm
      simp only [entryOf, List.find?_cons, hkt] at h ⊢
      exact ih hrest (fun x hx => hlen x (List.mem_cons_of_mem _ hx)) h

theorem storeMark_keyTexts (m : Nat) (str : List Nat) (table : List UniqueStrEntry)
    (hk : KeysAtOffsetTwo table) :
    (storeMark m str table).map keyText = table.map keyText := by
  induction table with
  | nil => rfl
  | cons e rest ih =>
    have he : e.key = e.buf + 2 := hk e (List.mem_cons_self _ _)
    have hrest : KeysAtOffsetTwo rest := fun x hx => hk x (List.mem_cons_of_mem _ hx)
    unfold storeMark
    split
    · simp only [List.map_cons, keyText_set_zero e m he]
    · simp only [List.map_cons, ih hrest]

theorem keysUnique_iff_nodup (table : List UniqueStrEntry) :
    KeysUnique table ↔ (table.map keyText).Nodup := by
  unfold KeysUnique List.Nodup
  rw [List.pairwise_map]

theorem storeMark_lengths (m : Nat) (str : List Nat) (table : List UniqueStrEntry)
    (hlen : ∀ e ∈ table, 3 ≤ e.bytes.length) :
    ∀ e ∈ storeMark m str table, 3 ≤ e.bytes.length := by
  induction table with
  | nil => intro e he; cases he
  | cons a rest ih =>
    intro e he
    unfold storeMark at he
    split at he
    · rcases List.mem_cons.1 he with rfl | he
      · simpa using hlen a (List.mem_cons_self _ _)
      · exact hlen e (List.mem_cons_of_mem _ he)
    · rcases List.mem_cons.1 he with rfl | he
      · exact hlen e (List.mem_cons_self _ _)
      · exact ih (fun x hx => hlen x (List.mem_cons_of_mem _ hx)) e he

theorem storeMark_tableInvariant (m : Nat) (str : List Nat) (table : List UniqueStrEntry)
    (h : TableInvariant table) : TableInvariant (storeMark m str table) :=
  ⟨storeMark_keysAtOffsetTwo m str table h.1,
    by rw [keysUnique_iff_nodup, storeMark_keyTexts m str table h.1, ← keysUnique_iff_nodup]
       exact h.2.1,
    storeMark_lengths m str table h.2.2⟩

theorem entryOf_append_of_ne (table : List UniqueStrEntry) (e : UniqueStrEntry)
    (text : List Nat) (hne : keyText e ≠ text) :
    entryOf (table ++ [e]) text = entryOf table text := by
  unfold entryOf
  rw [List.find?_append]
  have : (keyText e == text) = false := by simpa using hne
  cases table.find? (fun e => keyText e == text) with
  | none => simp [List.find?_cons, this]
  | some x => rfl

theorem entryOf_append_self (table : List UniqueStrEntry) (e : UniqueStrEntry)
    (hn : entryOf table (keyText e) = none) :
    entryOf (table ++ [e]) (keyText e) = some (e.buf, e.bytes.head?) := by
  unfold entryOf at hn ⊢
  rw [List.find?_append]
  cases hf : table.find? (fun x => keyText x == keyText e) with
  | none => simp
  | some x => rw [hf] at hn; cases hn

theorem entryOf_none_iff (table : List UniqueStrEntry) (text : List Nat) :
    entryOf table text = none ↔ ∀ e ∈ table, keyText e ≠ text := by
  unfold entryOf
  rw [Option.map_eq_none', List.find?_eq_none]
  constructor
  · intro h e he; simpa using h e he
  · intro h e he; simpa using h e he

/-- The effect of one call of `uniqueCString` on the table, item by item. -/
theorem uniqueCString_entryOf (al : Allocator) (ctx ctx1 : Context QM)
    (s : Option (List Nat)) (h : Nat) (hinv : TableInvariant ctx.uniqueStringsTable)
    (hcall : uniqueCString al ctx s = some (h, ctx1)) :
    TableInvariant ctx1.uniqueStringsTable ∧
      (∀ text, text ≠ argText s →
        entryOf ctx1.uniqueStringsTable text = entryOf ctx.uniqueStringsTable text) ∧
      (∃ b mk, h = b + 2 ∧ entryOf ctx1.uniqueStringsTable (argText s) = some (b, mk) ∧
        (ctx.currentRevisionNumber = ctx.lastPrepareToGCRevisionNumber →
          mk = some (ctx.gcCounter % 256)) ∧
        (∀ b0 mk0, entryOf ctx.uniqueStringsTable (argText s) = some (b0, mk0) →
          b = b0 ∧ (ctx.currentRevisionNumber ≠ ctx.lastPrepareToGCRevisionNumber → mk = mk0)) ∧
        (entryOf ctx.uniqueStringsTable (argText s) = none → mk = some (ctx.gcCounter % 256))) ∧
      ctx1.queryDeps = ctx.queryDeps ∧ ctx1.queryDB = ctx.queryDB ∧
      ctx1.results = ctx.results ∧
      ctx1.currentRevisionNumber = ctx.currentRevisionNumber ∧
      ctx1.lastPrepareToGCRevisionNumber = ctx.lastPrepareToGCRevisionNumber ∧
      ctx1.gcCounter = ctx.gcCounter := by
  have hmark : ctx.gcCounter &&& 0xff = ctx.gcCounter % 256 :=
    Nat.and_pow_two_sub_one_eq_mod ctx.gcCounter 8
  unfold uniqueCString at hcall
  unfold argText
  generalize s.getD [] = str at hcall ⊢
  cases hfind : tableFind ctx.uniqueStringsTable str with
  | some e =>
    rw [getOrCreateUniqueString_found al ctx str e hfind] at hcall
    simp only [Option.some.injEq, Prod.mk.injEq] at hcall
    obtain ⟨hh, hctx⟩ := hcall
    subst hh
    subst hctx
    have hentry : entryOf ctx.uniqueStringsTable (cstr str) = some (e.buf, e.bytes.head?) := by
      have : ctx.uniqueStringsTable.find? (fun x => keyText x == cstr str) = some e := hfind
      simp only [entryOf, this, Option.map_some']
    by_cases hrev : ctx.currentRevisionNumber = ctx.lastPrepareToGCRevisionNumber
    · rw [if_pos hrev]
      refine ⟨storeMark_tableInvariant _ _ _ hinv,
        fun text hne => entryOf_storeMark_other _ _ _ hinv.1 text hne,
        ⟨e.buf, some (ctx.gcCounter % 256), rfl, ?_, fun _ => rfl, ?_, ?_⟩,
        rfl, rfl, rfl, rfl, rfl, rfl⟩
      · rw [← hmark]
        exact entryOf_storeMark_self _ _ _ hinv.1 hinv.2.2 _ _ hentry
      · intro b0 mk0 h0
        rw [hentry] at h0
        simp only [Option.some.injEq, Prod.mk.injEq] at h0
        exact ⟨h0.1, fun hne => absurd hrev hne⟩
      · intro hnone
        exact absurd (hentry.symm.trans hnone) (Option.some_ne_none _)
    · rw [if_neg hrev]
      refine ⟨hinv, fun _ _ => rfl,
        ⟨e.buf, e.bytes.head?, rfl, hentry, fun h => absurd h hrev, ?_, ?_⟩,
        rfl, rfl, rfl, rfl, rfl, rfl⟩
      · intro b0 mk0 h0
        rw [hentry] at h0
        simp only [Option.some.injEq, Prod.mk.injEq] at h0
        exact ⟨h0.1, fun _ => h0.2⟩
      · intro hnone
        exact absurd (hentry.symm.trans hnone) (Option.some_ne_none _)
  | none =>
    rw [getOrCreateUniqueString_not_found al ctx str hfind] at hcall
    cases hbuf : allocateEvenAligned al (strlen str + 3) with
    | none => rw [hbuf] at hcall; cases hcall
    | some buf =>
      rw [hbuf] at hcall
      simp only [Option.map_some', Option.some.injEq, Prod.mk.injEq] at hcall
      obtain ⟨hh, hctx⟩ := hcall
      subst hh
      subst hctx
      have hnone : entryOf ctx.uniqueStringsTable (cstr str) = none := by
        have : ctx.uniqueStringsTable.find? (fun x => keyText x == cstr str) = none := hfind
        simp only [entryOf, this, Option.map_none']
      have hkt := keyText_new buf (ctx.gcCounter &&& 0xff) str
      have hself := entryOf_append_self ctx.uniqueStringsTable
        ⟨buf + 2, buf, [ctx.gcCounter &&& 0xff, 0x02] ++ (str.take (strlen str) ++ [0])⟩
        (by rw [hkt]; exact hnone)
      rw [hkt] at hself
      refine ⟨⟨?_, ?_, ?_⟩, fun text hne => entryOf_append_of_ne _ _ _ (by rw [hkt]; exact hne.symm),
        ⟨buf, some (ctx.gcCounter % 256), rfl, ?_, fun _ => rfl, ?_, fun _ => rfl⟩,
        rfl, rfl, rfl, rfl, rfl, rfl⟩
      · intro x hx
        rcases List.mem_append.1 hx with hx | hx
        · exact hinv.1 x hx
        · rw [List.mem_singleton.1 hx]
      · unfold KeysUnique
        rw [List.pairwise_append]
        refine ⟨hinv.2.1, List.pairwise_singleton _ _, fun x hx y hy => ?_⟩
        rw [List.mem_singleton.1 hy, hkt]
        exact (entryOf_none_iff _ _).1 hnone x hx
      · intro x hx
        rcases List.mem_append.1 hx with hx | hx
        · exact hinv.2.2 x hx
        · rw [List.mem_singleton.1 hx]
          simp
      · rw [hself, ← hmark]
        rfl
      · intro b0 mk0 h0
        rw [hnone] at h0
        cases h0

theorem find?_filter_of_keysUnique (q : UniqueStrEntry → Bool) (text : List Nat)
    (table : List UniqueStrEntry) (hu : KeysUnique table) :
    (table.filter q).find? (fun e => keyText e == text) =
      (table.find? (fun e => keyText e == text)).filter q := by
  induction table with
  | nil => rfl
  | cons e rest ih =>
    unfold KeysUnique at hu
    rw [List.pairwise_cons] at hu
    have ih2 := ih hu.2
    by_cases hm : (keyText e == text) = true
    · by_cases hq : q e = true
      · simp only [List.filter_cons, hq, if_true, List.find?_cons, hm, Option.filter, hq]
      · have hq2 : q e = false := by simpa using hq
        simp only [List.filter_cons, hq2, List.find?_cons, hm, Option.filter,
          Bool.false_eq_true, if_false]
        rw [List.find?_eq_none]
        intro x hx
        have hxr : x ∈ rest := (List.mem_filter.1 hx).1
        have hne := hu.1 x hxr
        have hkt : keyText e = text := by simpa using hm
        simpa [hkt] using hne.symm
    · have hm2 : (keyText e == text) = false := by simpa using hm
      by_cases hq : q e = true
      · simp only [List.filter_cons, hq, if_true, List.find?_cons, hm2]
        exact ih2
      · have hq2 : q e = false := by simpa using hq
        simp only [List.filter_cons, hq2, List.find?_cons, hm2]
        exact ih2

theorem entryOf_filter_hasMark (m : Nat) (text : List Nat) (table : List UniqueStrEntry)
    (hu : KeysUnique table) :
    entryOf (table.filter (hasMark m)) text =
      (entryOf table text).filter (fun p => decide (p.2 = some m)) := by
  unfold entryOf
  rw [find?_filter_of_keysUnique _ _ _ hu]
  cases table.find? (fun e => keyText e == text) with
  | none => rfl
  | some e =>
    by_cases h : e.bytes.head? = some m
    · simp [Option.filter, hasMark, h]
    · simp [Option.filter, hasMark, h]

theorem entryOf_of_mem (table : List UniqueStrEntry) (hu : KeysUnique table)
    (e : UniqueStrEntry) (he : e ∈ table) :
    entryOf table (keyText e) = some (e.buf, e.bytes.head?) := by
  induction table with
  | nil => cases he
  | cons a rest ih =>
    unfold KeysUnique at hu
    rw [List.pairwise_cons] at hu
    rcases List.mem_cons.1 he with rfl | he
    · simp [entryOf, List.find?_cons]
    · have hne : (keyText a == keyText e) = false := by simpa using hu.1 e he
      simp only [entryOf, List.find?_cons, hne]
      exact ih hu.2 he

theorem entryOf_mem {table : List UniqueStrEntry} {text : List Nat} {b : Nat}
    {mk : Option Nat} (h : entryOf table text = some (b, mk)) :
    ∃ e ∈ table, keyText e = text ∧ e.buf = b ∧ e.bytes.head? = mk := by
  unfold entryOf at h
  cases hf : table.find? (fun e => keyText e == text) with
  | none => rw [hf] at h; cases h
  | some e =>
    rw [hf] at h
    simp only [Option.map_some', Option.some.injEq, Prod.mk.injEq] at h
    exact ⟨e, List.mem_of_find?_eq_some hf, by simpa using List.find?_some hf, h.1, h.2⟩

theorem filter_tableInvariant (q : UniqueStrEntry → Bool) (table : List UniqueStrEntry)
    (h : TableInvariant table) : TableInvariant (table.filter q) :=
  ⟨fun e he => h.1 e (List.mem_filter.1 he).1,
    List.Pairwise.sublist (List.filter_sublist table) h.2.1,
    fun e he => h.2.2 e (List.mem_filter.1 he).1⟩

/-- The effect of an effective `collectGarbage` on the table, item by item. -/
theorem collectGarbage_entryOf (clearOldResults : RevisionNumber → QM → QM) (ctx : Context QM)
    (hstack : ctx.queryDeps = [])
    (hrev : ctx.currentRevisionNumber = ctx.lastPrepareToGCRevisionNumber)
    (hinv : TableInvariant ctx.uniqueStringsTable) :
    (collectGarbage clearOldResults ctx).1.uniqueStringsTable =
        ctx.uniqueStringsTable.filter (hasMark (ctx.gcCounter % 256)) ∧
      (∀ text, entryOf (collectGarbage clearOldResults ctx).1.uniqueStringsTable text =
        (entryOf ctx.uniqueStringsTable text).filter
          (fun p => decide (p.2 = some (ctx.gcCounter % 256)))) ∧
      (∀ text b mk, entryOf ctx.uniqueStringsTable text = some (b, mk) →
        mk ≠ some (ctx.gcCounter % 256) → b ∈ (collectGarbage clearOldResults ctx).2) ∧
      TableInvariant (collectGarbage clearOldResults ctx).1.uniqueStringsTable ∧
      (collectGarbage clearOldResults ctx).1.queryDeps = ctx.queryDeps ∧
      (collectGarbage clearOldResults ctx).1.currentRevisionNumber = ctx.currentRevisionNumber ∧
      (collectGarbage clearOldResults ctx).1.lastPrepareToGCRevisionNumber =
        ctx.lastPrepareToGCRevisionNumber ∧
      (collectGarbage clearOldResults ctx).1.gcCounter = ctx.gcCounter := by
  have hmark : ctx.gcCounter &&& 0xff = ctx.gcCounter % 256 :=
    Nat.and_pow_two_sub_one_eq_mod ctx.gcCounter 8
  have hcond : ctx.queryDeps.length = 0 ∧
      ctx.lastPrepareToGCRevisionNumber = ctx.currentRevisionNumber :=
    ⟨by rw [hstack]; rfl, hrev.symm⟩
  have hsweep := sweep_eq_filter (ctx.gcCounter % 256) ctx.uniqueStringsTable [] []
    (by simpa using hinv.2.1)
  have hgc : collectGarbage clearOldResults ctx =
      ({ ctx with
          queryDB := ctx.queryDB.map
            (fun dbEntry => (dbEntry.1, clearOldResults ctx.currentRevisionNumber dbEntry.2))
          uniqueStringsTable := ctx.uniqueStringsTable.filter (hasMark (ctx.gcCounter % 256)) },
        (ctx.uniqueStringsTable.filter (fun e => !hasMark (ctx.gcCounter % 256) e)).map
          (fun e => e.buf)) := by
    unfold collectGarbage
    rw [if_pos hcond]
    simp only [hmark, hsweep, List.nil_append]
  rw [hgc]
  refine ⟨rfl, fun text => entryOf_filter_hasMark _ _ _ hinv.2.1, ?_,
    filter_tableInvariant _ _ hinv, rfl, rfl, rfl, rfl⟩
  intro text b mk hentry hne
  obtain ⟨e, he, _, hb, hmk⟩ := entryOf_mem hentry
  simp only [List.mem_map, List.mem_filter]
  refine ⟨e, ⟨he, ?_⟩, hb⟩
  simp only [hasMark, hmk, Bool.not_eq_true', decide_eq_false_iff_not]
  exact hne

/-- The effect of successive calls of `uniqueCString` on the table, item by item. -/
theorem internAll_entryOf : ∀ (args : List (Allocator × Option (List Nat)))
    (ctx ctx1 : Context QM) (hs : List Nat),
    TableInvariant ctx.uniqueStringsTable → internAll args ctx = some (hs, ctx1) →
    TableInvariant ctx1.uniqueStringsTable ∧
      (ctx1.queryDeps = ctx.queryDeps ∧
        ctx1.currentRevisionNumber = ctx.currentRevisionNumber ∧
        ctx1.lastPrepareToGCRevisionNumber = ctx.lastPrepareToGCRevisionNumber ∧
        ctx1.gcCounter = ctx.gcCounter) ∧
      (∀ text, text ∉ textsOf args →
        entryOf ctx1.uniqueStringsTable text = entryOf ctx.uniqueStringsTable text) ∧
      (∀ text ∈ textsOf args, ∃ b mk, entryOf ctx1.uniqueStringsTable text = some (b, mk) ∧
        (ctx.currentRevisionNumber = ctx.lastPrepareToGCRevisionNumber →
          mk = some (ctx.gcCounter % 256)) ∧
        (entryOf ctx.uniqueStringsTable text = none → mk = some (ctx.gcCounter % 256)) ∧
        (∀ b0 mk0, entryOf ctx.uniqueStringsTable text = some (b0, mk0) →
          b = b0 ∧ (ctx.currentRevisionNumber ≠ ctx.lastPrepareToGCRevisionNumber → mk = mk0))) ∧
      List.Forall₂ (fun p h => handleOf ctx1.uniqueStringsTable (argText p.2) = some h)
        args hs := by
  intro args
  induction args with
  | nil =>
    intro ctx ctx1 hs hinv hrun
    simp only [internAll, Option.some.injEq, Prod.mk.injEq] at hrun
    obtain ⟨h1, h2⟩ := hrun
    subst h1
    subst h2
    exact ⟨hinv, ⟨rfl, rfl, rfl, rfl⟩, fun _ _ => rfl,
      fun text ht => absurd ht (List.not_mem_nil text), List.Forall₂.nil⟩
  | cons p rest ih =>
    intro ctx ctx1 hs hinv hrun
    obtain ⟨al, s⟩ := p
    unfold internAll at hrun
    cases hcall : uniqueCString al ctx s with
    | none => rw [hcall] at hrun; cases hrun
    | some r =>
      obtain ⟨h, c1⟩ := r
      rw [hcall] at hrun
      simp only at hrun
      cases hrest : internAll rest c1 with
      | none => rw [hrest] at hrun; cases hrun
      | some r2 =>
        obtain ⟨hs1, c2⟩ := r2
        rw [hrest] at hrun
        simp only [Option.some.injEq, Prod.mk.injEq] at hrun
        obtain ⟨hhs, hc⟩ := hrun
        subst hhs
        subst hc
        obtain ⟨hinv1, hother, ⟨b1, mk1, hh, he1, hprep1, hold1, hnew1⟩, hq, _, _, hcur, hprep, hgc⟩ :=
          uniqueCString_entryOf al ctx c1 s h hinv hcall
        obtain ⟨hinv2, ⟨hq2, hcur2, hprep2, hgc2⟩, houtside, hinside, hall⟩ :=
          ih c1 c2 hs1 hinv1 hrest
        rw [hcur, hprep, hgc] at hinside
        have hfirst : ∃ mk, entryOf c2.uniqueStringsTable (argText s) = some (b1, mk) ∧
            (ctx.currentRevisionNumber = ctx.lastPrepareToGCRevisionNumber →
              mk = some (ctx.gcCounter % 256)) ∧
            (entryOf ctx.uniqueStringsTable (argText s) = none →
              mk = some (ctx.gcCounter % 256)) ∧
            (∀ b0 mk0, entryOf ctx.uniqueStringsTable (argText s) = some (b0, mk0) →
              b1 = b0 ∧
                (ctx.currentRevisionNumber ≠ ctx.lastPrepareToGCRevisionNumber → mk = mk0)) := by
          by_cases hmem : argText s ∈ textsOf rest
          · obtain ⟨b, mk, he2, hp2, _, ho2⟩ := hinside _ hmem
            obtain ⟨hb, hmk⟩ := ho2 b1 mk1 he1
            subst hb
            refine ⟨mk, he2, hp2, fun hnone => ?_, fun b0 mk0 h0 => ?_⟩
            · by_cases hrev : ctx.currentRevisionNumber = ctx.lastPrepareToGCRevisionNumber
              · exact hp2 hrev
              · rw [hmk hrev]; exact hnew1 hnone
            · obtain ⟨hb0, hmk0⟩ := hold1 b0 mk0 h0
              exact ⟨hb0, fun hrev => by rw [hmk hrev]; exact hmk0 hrev⟩
          · exact ⟨mk1, by rw [houtside _ hmem]; exact he1, hprep1, hnew1, hold1⟩
        refine ⟨hinv2, ⟨hq2.trans hq, hcur2.trans hcur, hprep2.trans hprep, hgc2.trans hgc⟩,
          fun text hnot => ?_, fun text hin => ?_, List.Forall₂.cons ?_ hall⟩
        · have h1 : text ≠ argText s := fun h => hnot (by rw [h]; exact List.mem_cons_self _ _)
          have h2 : text ∉ textsOf rest := fun h => hnot (List.mem_cons_of_mem _ h)
          rw [houtside text h2, hother text h1]
        · by_cases hts : text = argText s
          · subst hts
            obtain ⟨mk, h1, h2, h3, h4⟩ := hfirst
            exact ⟨b1, mk, h1, h2, h3, h4⟩
          · have hin2 : text ∈ textsOf rest := by
              rcases List.mem_cons.1 hin with h | h
              · exact absurd h hts
              · exact h
            obtain ⟨b, mk, he2, hp2, hn2, ho2⟩ := hinside _ hin2
            rw [hother text hts] at hn2 ho2
            exact ⟨b, mk, he2, hp2, hn2, ho2⟩
        · obtain ⟨mk, h1, _⟩ := hfirst
          show handleOf c2.uniqueStringsTable (argText s) = some h
          rw [handleOf_eq_entryOf, h1, hh]
          rfl

theorem tableInvariant_nil : TableInvariant [] :=
  ⟨fun e h => absurd h (List.not_mem_nil e), List.Pairwise.nil,
    fun e h => absurd h (List.not_mem_nil e)⟩

theorem forall₂_and_mem {α β : Type} {R : α → β → Prop} :
    ∀ {l1 : List α} {l2 : List β}, List.Forall₂ R l1 l2 →
      List.Forall₂ (fun a b => a ∈ l1 ∧ R a b) l1 l2
  | _, _, List.Forall₂.nil => List.Forall₂.nil
  | _, _, List.Forall₂.cons h hrest =>
    List.Forall₂.cons ⟨List.mem_cons_self _ _, h⟩
      ((forall₂_and_mem hrest).imp (fun _ _ hab => ⟨List.mem_cons_of_mem _ hab.1, hab.2⟩))

/-- C11. Starting from a fresh context, after interning the texts `S`, one
`advanceToNextRevision(true)` and interning the texts `T` (every call returning), the
active-query stack is empty and the revision is the prepare-to-GC revision, and after
`collectGarbage` the table holds exactly the texts of `T`: each text of `T` has the handle
that its call returned, and each text of `S` that is not in `T` has no handle and the
buffer of the handle it had was freed. -/
theorem string_gc_scenario (clearOldResults : RevisionNumber → QM → QM)
    (S T : List (Allocator × Option (List Nat))) (hsS hsT : List Nat)
    (ctx1 ctx3 : Context QM)
    (hS : internAll S (Context.build : Context QM) = some (hsS, ctx1))
    (hT : internAll T (advanceToNextRevision ctx1 true) = some (hsT, ctx3)) :
    ctx3.queryDeps = [] ∧
      ctx3.currentRevisionNumber = ctx3.lastPrepareToGCRevisionNumber ∧
      (∀ text, (handleOf (collectGarbage clearOldResults ctx3).1.uniqueStringsTable text).isSome
        ↔ text ∈ textsOf T) ∧
      List.Forall₂ (fun p h =>
        handleOf (collectGarbage clearOldResults ctx3).1.uniqueStringsTable (argText p.2) =
          some h) T hsT ∧
      List.Forall₂ (fun p h => argText p.2 ∉ textsOf T →
        handleOf (collectGarbage clearOldResults ctx3).1.uniqueStringsTable (argText p.2) = none ∧
          ∃ buf ∈ (collectGarbage clearOldResults ctx3).2, h = buf + 2) S hsS := by
  obtain ⟨hinv1, ⟨hq1, hcur1, hprep1, hgc1⟩, hout1, hin1, hall1⟩ :=
    internAll_entryOf S Context.build ctx1 hsS tableInvariant_nil hS
  have hq1' : ctx1.queryDeps = [] := hq1
  have hcur1' : ctx1.currentRevisionNumber = 1 := hcur1
  have hgc1' : ctx1.gcCounter = 1 := hgc1
  obtain ⟨hinv3, ⟨hq3, hcur3, hprep3, hgc3⟩, hout3, hin3, hall3⟩ :=
    internAll_entryOf T (advanceToNextRevision ctx1 true) ctx3 hsT hinv1 hT
  have hq3' : ctx3.queryDeps = [] := hq3.trans hq1'
  have hcur3' : ctx3.currentRevisionNumber = 2 := by
    rw [hcur3]; show ctx1.currentRevisionNumber + 1 = 2; rw [hcur1']
  have hprep3' : ctx3.lastPrepareToGCRevisionNumber = 2 := by
    rw [hprep3]; show ctx1.currentRevisionNumber + 1 = 2; rw [hcur1']
  have hgc3' : ctx3.gcCounter = 2 := by
    rw [hgc3]; show ctx1.gcCounter + 1 = 2; rw [hgc1']
  have hrev3 : ctx3.currentRevisionNumber = ctx3.lastPrepareToGCRevisionNumber := by
    rw [hcur3', hprep3']
  obtain ⟨_, hgcview, hfreed, _⟩ :=
    collectGarbage_entryOf clearOldResults ctx3 hq3' hrev3 hinv3
  rw [hgc3'] at hgcview hfreed
  -- the marks after the first revision: every item carries the mark 1
  have hmark1 : ∀ text b mk, entryOf ctx1.uniqueStringsTable text = some (b, mk) →
      mk = some 1 := by
    intro text b mk he
    by_cases hmem : text ∈ textsOf S
    · obtain ⟨b2, mk2, he2, _, hn2, _⟩ := hin1 text hmem
      rw [he2] at he
      simp only [Option.some.injEq, Prod.mk.injEq] at he
      rw [← he.2]
      exact hn2 rfl
    · rw [hout1 text hmem] at he
      cases he
  -- the marks after the calls of the second revision
  have hin3' : ∀ text ∈ textsOf T, ∃ b, entryOf ctx3.uniqueStringsTable text = some (b, some 2) := by
    intro text hmem
    obtain ⟨b, mk, he, hp, _, _⟩ := hin3 text hmem
    have hmk : mk = some ((advanceToNextRevision ctx1 true).gcCounter % 256) := hp rfl
    have hcounter : (advanceToNextRevision ctx1 true).gcCounter = 2 := by
      show ctx1.gcCounter + 1 = 2
      rw [hgc1']
    rw [hcounter] at hmk
    subst hmk
    exact ⟨b, he⟩
  refine ⟨hq3', hrev3, fun text => ?_, ?_, ?_⟩
  · rw [handleOf_eq_entryOf, hgcview, Option.isSome_map']
    constructor
    · intro hsome
      by_contra hnot
      have h3 : entryOf ctx3.uniqueStringsTable text = entryOf ctx1.uniqueStringsTable text :=
        hout3 text hnot
      rw [h3] at hsome
      cases he : entryOf ctx1.uniqueStringsTable text with
      | none => rw [he] at hsome; simp [Option.filter] at hsome
      | some p =>
        obtain ⟨b, mk⟩ := p
        have := hmark1 text b mk he
        subst this
        rw [he] at hsome
        simp [Option.filter] at hsome
    · intro hmem
      obtain ⟨b, he⟩ := hin3' text hmem
      rw [he]
      simp [Option.filter]
  · refine List.Forall₂.imp ?_ (forall₂_and_mem hall3)
    rintro p h ⟨hp, hh⟩
    rw [handleOf_eq_entryOf] at hh ⊢
    rw [hgcview]
    obtain ⟨b, he⟩ := hin3' (argText p.2) (List.mem_map_of_mem _ hp)
    rw [he] at hh ⊢
    simpa [Option.filter] using hh
  · refine List.Forall₂.imp ?_ (forall₂_and_mem hall1)
    rintro p h ⟨_, hh⟩ hnot
    rw [handleOf_eq_entryOf] at hh
    cases he : entryOf ctx1.uniqueStringsTable (argText p.2) with
    | none => rw [he] at hh; cases hh
    | some r =>
      obtain ⟨b, mk⟩ := r
      rw [he] at hh
      simp only [Option.map_some', Option.some.injEq] at hh
      have hmk := hmark1 _ b mk he
      subst hmk
      have he3 : entryOf ctx3.uniqueStringsTable (argText p.2) = some (b, some 1) := by
        rw [hout3 _ hnot]
        exact he
      refine ⟨?_, b, hfreed _ b (some 1) he3 (by decide), hh.symm⟩
      rw [handleOf_eq_entryOf, hgcview, he3]
      simp [Option.filter]

/-- C11 on the scenario of the specification: `a` and `g` interned, then `b` and `a`
again in the prepare-to-GC revision. -/
theorem string_gc_scenario_witness :
    scenarioBeforeGC.queryDeps = [] ∧
      scenarioBeforeGC.currentRevisionNumber =
        scenarioBeforeGC.lastPrepareToGCRevisionNumber ∧
      (∀ text, (handleOf (collectGarbage (fun _ m => m)
          scenarioBeforeGC).1.uniqueStringsTable text).isSome
        ↔ text ∈ textsOf scenarioSecond) ∧
      List.Forall₂ (fun p h =>
        handleOf (collectGarbage (fun _ m => m)
          scenarioBeforeGC).1.uniqueStringsTable (argText p.2) =
          some h) scenarioSecond [130, 66] ∧
      List.Forall₂ (fun p h => argText p.2 ∉ textsOf scenarioSecond →
        handleOf (collectGarbage (fun _ m => m)
          scenarioBeforeGC).1.uniqueStringsTable (argText p.2) = none ∧
          ∃ buf ∈ (collectGarbage (fun _ m => m)
            scenarioBeforeGC).2, h = buf + 2) scenarioFirst [66, 98] :=
  string_gc_scenario (fun _ m => m) scenarioFirst scenarioSecond [66, 98] [130, 66]
    (exampleInterner 1 0 1 [⟨66, 64, [1, 2, 97, 0]⟩, ⟨98, 96, [1, 2, 103, 0]⟩])
    scenarioBeforeGC
    rfl rfl

set_option maxRecDepth 100000 in
/-- C12, the claim as stated fails: `a` is interned in revision 1 and never again; after
256 advances with `prepareToGC` the mark of the counter has wrapped to the mark of `a`, so
`collectGarbage` takes effect at revision 257, keeps `a` and frees nothing. -/
theorem retained_after_wrap_counterexample :
    (runHistory (fun _ m => m) wrapHistory).map
        (fun ctx => (ctx.queryDeps, (ctx.currentRevisionNumber : Nat),
          (ctx.lastPrepareToGCRevisionNumber : Nat),
          (collectGarbage (fun _ m => m) ctx).1.uniqueStringsTable,
          (collectGarbage (fun _ m => m) ctx).2)) =
      some ([], 257, 257, [⟨66, 64, [1, 2, 97, 0]⟩], []) ∧
    internedInCurrentRevision wrapHistory = [] := by
  decide

theorem InternedAtAge.older {history : List (Op QM)} {text : List Nat} {age : Nat}
    (h : InternedAtAge history text age) (op : Op QM) (hop : ∀ b, op ≠ Op.advance b) :
    InternedAtAge (op :: history) text age := by
  obtain ⟨newer, al, s, older, hh, ht, hc⟩ := h
  refine ⟨op :: newer, al, s, older, by rw [hh]; rfl, ht, ?_⟩
  rw [← hc]
  cases op with
  | intern _ _ => rfl
  | advance b => exact absurd rfl (hop b)
  | gc => rfl
  | engine _ _ _ => rfl

theorem InternedAtAge.advanced {history : List (Op QM)} {text : List Nat} {age : Nat}
    (h : InternedAtAge history text age) (b : Bool) :
    InternedAtAge (Op.advance b :: history) text (age + (if b = true then 1 else 0)) := by
  obtain ⟨newer, al, s, older, hh, ht, hc⟩ := h
  refine ⟨Op.advance b :: newer, al, s, older, by rw [hh]; rfl, ht, ?_⟩
  rw [← hc]
  cases b <;> rfl

theorem InternedAtAge.le {history : List (Op QM)} {text : List Nat} {age : Nat}
    (h : InternedAtAge history text age) : age ≤ prepareCount history := by
  obtain ⟨newer, al, s, older, hh, _, hc⟩ := h
  rw [hh, ← hc]
  clear hh hc
  induction newer with
  | nil => exact Nat.zero_le _
  | cons op rest ih =>
    cases op with
    | intern _ _ => exact ih
    | advance b =>
      cases b
      · exact ih
      · exact Nat.succ_le_succ ih
    | gc => exact ih
    | engine _ _ _ => exact ih

theorem internedInCurrentRevision_of_age_zero {history : List (Op QM)} {text : List Nat}
    (h : InternedAtAge history text 0) (hnew : newestAdvance history = some true) :
    text ∈ internedInCurrentRevision history := by
  obtain ⟨newer, al, s, older, hh, ht, hc⟩ := h
  subst hh
  induction newer with
  | nil => rw [← ht]; exact List.mem_cons_self _ _
  | cons op rest ih =>
    cases op with
    | intern al2 s2 => exact List.mem_cons_of_mem _ (ih hc hnew)
    | advance b =>
      cases b
      · cases hnew
      · simp [prepareCount] at hc
    | gc => exact ih hc hnew
    | engine _ _ _ => exact ih hc hnew

theorem historyInvariant_build : HistoryInvariant ([] : List (Op QM)) Context.build := by
  refine ⟨tableInvariant_nil, rfl, Nat.zero_le 1, ?_, ?_⟩
  · intro h
    exact absurd h.symm Nat.zero_ne_one
  · intro _ _ _ h
    cases h

theorem collectGarbage_cases (clearOldResults : RevisionNumber → QM → QM) (ctx : Context QM) :
    (collectGarbage clearOldResults ctx).1 = ctx ∨
      (ctx.queryDeps = [] ∧ ctx.currentRevisionNumber = ctx.lastPrepareToGCRevisionNumber) := by
  by_cases hcond : ctx.queryDeps.length = 0 ∧
      ctx.lastPrepareToGCRevisionNumber = ctx.currentRevisionNumber
  · exact Or.inr ⟨List.length_eq_zero.1 hcond.1, hcond.2.symm⟩
  · left
    rw [collectGarbage_of_not clearOldResults ctx hcond]

theorem historyInvariant_step (clearOldResults : RevisionNumber → QM → QM)
    (history : List (Op QM)) (ctx ctx1 : Context QM) (op : Op QM)
    (hinv : HistoryInvariant history ctx) (hstep : applyOp clearOldResults op ctx = some ctx1) :
    HistoryInvariant (op :: history) ctx1 := by
  obtain ⟨htable, hcount, hle, hnewest, hmarks⟩ := hinv
  cases op with
  | intern al s =>
    simp only [applyOp] at hstep
    cases hcall : uniqueCString al ctx s with
    | none => rw [hcall] at hstep; cases hstep
    | some r =>
      obtain ⟨h, c1⟩ := r
      rw [hcall] at hstep
      simp only [Option.map_some', Option.some.injEq] at hstep
      subst hstep
      obtain ⟨hinv1, hother, ⟨b1, mk1, _, he1, hprep1, hold1, hnew1⟩, _, _, _, hcur, hprep, hgc⟩ :=
        uniqueCString_entryOf al ctx c1 s h htable hcall
      refine ⟨hinv1, by rw [hgc, hcount]; rfl, by rw [hcur, hprep]; exact hle,
        fun heq => hnewest (by rw [← hcur, ← hprep]; exact heq), ?_⟩
      intro text b mk he
      rw [hgc]
      by_cases hts : text = argText s
      · subst hts
        rw [he1] at he
        simp only [Option.some.injEq, Prod.mk.injEq] at he
        obtain ⟨_, hmk⟩ := he
        subst hmk
        have hfresh : InternedAtAge (Op.intern al s :: history) (argText s) 0 :=
          ⟨[], al, s, history, rfl, rfl, rfl⟩
        cases hold : entryOf ctx.uniqueStringsTable (argText s) with
        | none => exact ⟨0, hfresh, hnew1 hold⟩
        | some p =>
          obtain ⟨b0, mk0⟩ := p
          by_cases hrev : ctx.currentRevisionNumber = ctx.lastPrepareToGCRevisionNumber
          · exact ⟨0, hfresh, hprep1 hrev⟩
          · obtain ⟨age, hage, hmk0⟩ := hmarks _ b0 mk0 hold
            refine ⟨age, hage.older _ (fun b hb => by cases hb), ?_⟩
            rw [(hold1 b0 mk0 hold).2 hrev]
            exact hmk0
      · rw [hother text hts] at he
        obtain ⟨age, hage, hmk⟩ := hmarks text b mk he
        exact ⟨age, hage.older _ (fun b hb => by cases hb), hmk⟩
  | advance prepareToGC =>
    simp only [applyOp, Option.some.injEq] at hstep
    subst hstep
    cases prepareToGC with
    | false =>
      refine ⟨htable, hcount, Nat.le_succ_of_le hle, fun heq => ?_, ?_⟩
      · have h1 : ctx.currentRevisionNumber + 1 = ctx.lastPrepareToGCRevisionNumber := heq
        rw [← h1] at hle
        exact absurd hle (Nat.not_succ_le_self _)
      · intro text b mk he
        obtain ⟨age, hage, hmk⟩ := hmarks text b mk he
        exact ⟨age, hage.advanced false, hmk⟩
    | true =>
      refine ⟨htable, ?_, Nat.le_refl _, fun _ => rfl, ?_⟩
      · show ctx.gcCounter + 1 = (prepareCount history + 1) + 1
        rw [hcount]
      · intro text b mk he
        obtain ⟨age, hage, hmk⟩ := hmarks text b mk he
        refine ⟨age + 1, hage.advanced true, ?_⟩
        rw [hmk]
        show some ((ctx.gcCounter - age) % 256) = some ((ctx.gcCounter + 1 - (age + 1)) % 256)
        rw [Nat.add_sub_add_right]
  | gc =>
    simp only [applyOp, Option.some.injEq] at hstep
    subst hstep
    rcases collectGarbage_cases clearOldResults ctx with hsame | ⟨hstack, hrev⟩
    · rw [hsame]
      refine ⟨htable, hcount, hle, hnewest, fun text b mk he => ?_⟩
      obtain ⟨age, hage, hmk⟩ := hmarks text b mk he
      exact ⟨age, hage.older _ (fun b hb => by cases hb), hmk⟩
    · obtain ⟨_, hview, _, hinv1, _, hcur, hprep, hgc⟩ :=
        collectGarbage_entryOf clearOldResults ctx hstack hrev htable
      refine ⟨hinv1, by rw [hgc, hcount]; rfl, by rw [hcur, hprep]; exact hle,
        fun heq => hnewest (by rw [← hcur, ← hprep]; exact heq), ?_⟩
      intro text b mk he
      rw [hview] at he
      have hold : entryOf ctx.uniqueStringsTable text = some (b, mk) := by
        cases hentry : entryOf ctx.uniqueStringsTable text with
        | none => rw [hentry] at he; cases he
        | some p =>
          rw [hentry] at he
          simp only [Option.filter] at he
          split at he
          · exact he
          · cases he
      obtain ⟨age, hage, hmk⟩ := hmarks text b mk hold
      rw [hgc]
      exact ⟨age, hage.older _ (fun b hb => by cases hb), hmk⟩
  | engine queryDeps results queryDB =>
    simp only [applyOp, Option.some.injEq] at hstep
    subst hstep
    refine ⟨htable, hcount, hle, hnewest, fun text b mk he => ?_⟩
    obtain ⟨age, hage, hmk⟩ := hmarks text b mk he
    exact ⟨age, hage.older _ (fun b hb => by cases hb), hmk⟩

theorem historyInvariant_run (clearOldResults : RevisionNumber → QM → QM) :
    ∀ (history : List (Op QM)) (ctx : Context QM),
      runHistory clearOldResults history = some ctx → HistoryInvariant history ctx
  | [], ctx, h => by
    simp only [runHistory, Option.some.injEq] at h
    rw [← h]
    exact historyInvariant_build
  | op :: older, ctx, h => by
    unfold runHistory at h
    cases hold : runHistory clearOldResults older with
    | none => rw [hold] at h; cases h
    | some c0 =>
      rw [hold] at h
      exact historyInvariant_step clearOldResults older c0 ctx op
        (historyInvariant_run clearOldResults older c0 hold) h

/-- C12, amended. In every state reached from a fresh context by interning, revision
advances, garbage collections and engine steps that keep the table and the counters, when
`collectGarbage` takes effect every string that remains in the table was interned in the
current revision or at a distance of a positive multiple of 256 prepare-to-GC advances;
after fewer than 256 prepare-to-GC advances every remaining string was interned in the
current revision and every string that was not is removed and its buffer freed. -/
theorem retained_only_if_interned (clearOldResults : RevisionNumber → QM → QM)
    (history : List (Op QM)) (ctx : Context QM)
    (hrun : runHistory clearOldResults history = some ctx)
    (hstack : ctx.queryDeps = [])
    (hrev : ctx.currentRevisionNumber = ctx.lastPrepareToGCRevisionNumber) :
    (∀ e ∈ (collectGarbage clearOldResults ctx).1.uniqueStringsTable,
      keyText e ∈ internedInCurrentRevision history ∨
        ∃ age, 0 < age ∧ 256 ∣ age ∧ InternedAtAge history (keyText e) age) ∧
    (prepareCount history < 256 →
      (∀ e ∈ (collectGarbage clearOldResults ctx).1.uniqueStringsTable,
        keyText e ∈ internedInCurrentRevision history) ∧
      (∀ e ∈ ctx.uniqueStringsTable, keyText e ∉ internedInCurrentRevision history →
        e ∉ (collectGarbage clearOldResults ctx).1.uniqueStringsTable ∧
          e.buf ∈ (collectGarbage clearOldResults ctx).2)) := by
  obtain ⟨htable, hcount, _, hnewest, hmarks⟩ :=
    historyInvariant_run clearOldResults history ctx hrun
  obtain ⟨hfilter, _, hfreed, _⟩ :=
    collectGarbage_entryOf clearOldResults ctx hstack hrev htable
  have hkept : ∀ e ∈ (collectGarbage clearOldResults ctx).1.uniqueStringsTable,
      keyText e ∈ internedInCurrentRevision history ∨
        ∃ age, 0 < age ∧ 256 ∣ age ∧ InternedAtAge history (keyText e) age := by
    intro e he
    rw [hfilter, List.mem_filter] at he
    obtain ⟨hmem, hmark⟩ := he
    have hhead : e.bytes.head? = some (ctx.gcCounter % 256) := by
      simpa [hasMark] using hmark
    obtain ⟨age, hage, hmk⟩ := hmarks _ _ _ (entryOf_of_mem _ htable.2.1 e hmem)
    have hle := hage.le
    rw [hhead] at hmk
    simp only [Option.some.injEq] at hmk
    have hmod : age % 256 = 0 := by
      obtain ⟨g, hgdef⟩ : ∃ g : Nat, g = ctx.gcCounter := ⟨_, rfl⟩
      rw [← hgdef] at hmk hcount
      have h1 : Nat.le age (prepareCount history) := hle
      have h2 : @Eq Nat (g % 256) ((g - age) % 256) := hmk
      have h3 : @Eq Nat g (prepareCount history + 1) := hcount
      simp only [Nat.le_eq] at h1
      omega
    by_cases h0 : age = 0
    · subst h0
      exact Or.inl (internedInCurrentRevision_of_age_zero hage (hnewest hrev))
    · exact Or.inr ⟨age, Nat.pos_of_ne_zero h0, Nat.dvd_of_mod_eq_zero hmod, hage⟩
  refine ⟨hkept, fun hsmall => ?_⟩
  have hkept2 : ∀ e ∈ (collectGarbage clearOldResults ctx).1.uniqueStringsTable,
      keyText e ∈ internedInCurrentRevision history := by
    intro e he
    rcases hkept e he with h | ⟨age, hpos, hdvd, hage⟩
    · exact h
    · have h1 : Nat.le age (prepareCount history) := hage.le
      have h2 : Nat.le 256 age := Nat.le_of_dvd hpos hdvd
      simp only [Nat.le_eq] at h1 h2
      omega
  refine ⟨hkept2, fun e he hnot => ?_⟩
  have hnotin : e ∉ (collectGarbage clearOldResults ctx).1.uniqueStringsTable :=
    fun hin => hnot (hkept2 e hin)
  refine ⟨hnotin, hfreed _ _ _ (entryOf_of_mem _ htable.2.1 e he) (fun hmk => hnotin ?_)⟩
  rw [hfilter, List.mem_filter]
  exact ⟨he, by simpa [hasMark] using hmk⟩

/-- C12 amended, on the history of the scenario of the specification. -/
theorem retained_only_if_interned_witness :
    (∀ e ∈ (collectGarbage (fun _ m => m) scenarioBeforeGC).1.uniqueStringsTable,
      keyText e ∈ internedInCurrentRevision scenarioHistory ∨
        ∃ age, 0 < age ∧ 256 ∣ age ∧ InternedAtAge scenarioHistory (keyText e) age) ∧
    (prepareCount scenarioHistory < 256 →
      (∀ e ∈ (collectGarbage (fun _ m => m) scenarioBeforeGC).1.uniqueStringsTable,
        keyText e ∈ internedInCurrentRevision scenarioHistory) ∧
      (∀ e ∈ scenarioBeforeGC.uniqueStringsTable,
        keyText e ∉ internedInCurrentRevision scenarioHistory →
        e ∉ (collectGarbage (fun _ m => m) scenarioBeforeGC).1.uniqueStringsTable ∧
          e.buf ∈ (collectGarbage (fun _ m => m) scenarioBeforeGC).2)) :=
  retained_only_if_interned (fun _ m => m) scenarioHistory scenarioBeforeGC rfl rfl rfl

/-! ## Lemmas on the implicit module -/

theorem scanTopLevelExps_eq (exps : List ASTBase) (only any : Bool) :
    scanTopLevelExps exps (only, any)
      = (only && exps.all ASTBase.isModuleDecl, any || exps.any ASTBase.isModuleDecl) := by
  induction exps generalizing only any with
  | nil => simp [scanTopLevelExps]
  | cons e rest ih =>
    unfold scanTopLevelExps
    by_cases he : e.isModuleDecl = true
    · rw [if_pos he, ih]; simp [he]
    · rw [if_neg he, ih]
      have he2 : e.isModuleDecl = false := by simpa using he
      simp [he2]

theorem needsImplicitModule_iff (exps : List ASTBase) :
    NeedsImplicitModule exps ↔
      ((scanTopLevelExps exps (true, false)).2 && (scanTopLevelExps exps (true, false)).1)
        = false := by
  rw [scanTopLevelExps_eq]
  unfold NeedsImplicitModule
  cases exps with
  | nil => simp
  | cons e rest =>
    simp only [Bool.true_and, Bool.false_or, List.any_cons, List.all_cons, List.mem_cons,
      false_or, reduceCtorEq]
    constructor
    · rintro ⟨x, hx, hnon⟩
      rcases hx with rfl | hx
      · simp [hnon]
      · have : rest.all ASTBase.isModuleDecl = false := by
          rw [List.all_eq_false]
          exact ⟨x, hx, by simp [hnon]⟩
        simp [this]
    · intro h
      by_cases he : e.isModuleDecl = true
      · simp only [he, Bool.true_or, Bool.true_and] at h
        rw [List.all_eq_false] at h
        obtain ⟨x, hx, hnon⟩ := h
        exact ⟨x, Or.inr hx, by simpa using hnon⟩
      · exact ⟨e, Or.inl rfl, by simpa using he⟩

theorem createImplicitModuleIfNeeded_wraps (b : Builder)
    (h : NeedsImplicitModule b.topLevelExps_) :
    b.createImplicitModuleIfNeeded
      = (b.inferredModuleName_,
          { b with
            topLevelExps_ := [implicitModuleOf b b.topLevelExps_]
            locations_ := b.locations_ ++ [(none, ⟨b.filepath_⟩)] }) := by
  have h2 := (needsImplicitModule_iff _).1 h
  unfold Builder.createImplicitModuleIfNeeded
  simp only [h2]
  rfl

theorem createImplicitModuleIfNeeded_keeps (b : Builder)
    (h : ¬ NeedsImplicitModule b.topLevelExps_) :
    b.createImplicitModuleIfNeeded = ([], b) := by
  have h2 : ((scanTopLevelExps b.topLevelExps_ (true, false)).2
      && (scanTopLevelExps b.topLevelExps_ (true, false)).1) = true := by
    by_contra hc
    exact h ((needsImplicitModule_iff _).2 (by simpa using hc))
  unfold Builder.createImplicitModuleIfNeeded
  simp only [h2]
  rfl

mutual
theorem doAssignIDs_counter : ∀ (ast : ASTBase) (symbolPath : UniqueString) (i : Nat)
    (pathVec : List (UniqueString × Nat)) (duplicates : UniqueString → Option Nat),
    (doAssignIDs ast symbolPath i pathVec duplicates).2.1 = i + numberedCount ast
  | .comment _, _, _, _, _ => by simp [doAssignIDs, numberedCount]
  | .exp _ _ children, symbolPath, i, pathVec, duplicates => by
    simp only [doAssignIDs, numberedCount]
    rw [doAssignIDsChildren_counter children symbolPath i pathVec duplicates]
    omega
  | .decl _ _ _, _, _, _, _ => by simp [doAssignIDs, numberedCount]
theorem doAssignIDsChildren_counter : ∀ (children : List ASTBase) (symbolPath : UniqueString)
    (i : Nat) (pathVec : List (UniqueString × Nat)) (duplicates : UniqueString → Option Nat),
    (doAssignIDsChildren children symbolPath i pathVec duplicates).2.1
      = i + numberedCountList children
  | [], _, _, _, _ => by simp [doAssignIDsChildren, numberedCountList]
  | child :: rest, symbolPath, i, pathVec, duplicates => by
    simp only [doAssignIDsChildren, numberedCountList]
    rw [doAssignIDsChildren_counter rest, doAssignIDs_counter child]
    omega
end

theorem numberedKeys_append (symbolPath : UniqueString) (i m n : Nat) :
    numberedKeys symbolPath i m ++ numberedKeys symbolPath (i + m) n
      = numberedKeys symbolPath i (m + n) := by
  unfold numberedKeys
  rw [← List.map_append, List.range'_append_1, Nat.add_comm n m]

theorem numberedKeys_one (symbolPath : UniqueString) (i : Nat) :
    numberedKeys symbolPath i 1 = [some (symbolPath, i)] := by
  simp [numberedKeys]

mutual
theorem doAssignIDs_keys : ∀ (ast : ASTBase) (symbolPath : UniqueString) (i : Nat)
    (pathVec : List (UniqueString × Nat)) (duplicates : UniqueString → Option Nat),
    (numberedIDs (doAssignIDs ast symbolPath i pathVec duplicates).1).map idKey
      = numberedKeys symbolPath i (numberedCount ast)
  | .comment _, _, _, _, _ => by simp [doAssignIDs, numberedCount, numberedIDs, numberedKeys]
  | .exp _ _ children, symbolPath, i, pathVec, duplicates => by
    simp only [doAssignIDs, numberedCount, numberedIDs, List.map_append, List.map_cons,
      List.map_nil]
    rw [doAssignIDsChildren_keys children symbolPath i pathVec duplicates,
      doAssignIDsChildren_counter, ← numberedKeys_append, numberedKeys_one]
    rfl
  | .decl _ _ _, symbolPath, i, _, _ => by
    simp only [doAssignIDs, numberedCount, numberedIDs, List.map_cons, List.map_nil,
      numberedKeys_one]
    rfl
theorem doAssignIDsChildren_keys : ∀ (children : List ASTBase) (symbolPath : UniqueString)
    (i : Nat) (pathVec : List (UniqueString × Nat)) (duplicates : UniqueString → Option Nat),
    (numberedIDsList (doAssignIDsChildren children symbolPath i pathVec duplicates).1).map idKey
      = numberedKeys symbolPath i (numberedCountList children)
  | [], _, _, _, _ => by
    simp [doAssignIDsChildren, numberedCountList, numberedIDsList, numberedKeys]
  | child :: rest, symbolPath, i, pathVec, duplicates => by
    simp only [doAssignIDsChildren, numberedCountList, numberedIDsList, List.map_append]
    rw [doAssignIDsChildren_keys rest, doAssignIDs_keys child, doAssignIDs_counter,
      numberedKeys_append]
end

/-! ## Lemmas on the walk of `doAssignIDs` -/

theorem doAssignIDsSym_eq (name : UniqueString) (visibility : Visibility)
    (moduleKind : Option ModuleKind) (id : Option ID) (children : List ASTBase)
    (symbolPath : UniqueString) (i : Nat) (pathVec : List (UniqueString × Nat))
    (duplicates : UniqueString → Option Nat) :
    (doAssignIDsSym (.mk name visibility moduleKind id children) symbolPath i pathVec
        duplicates).1
      = .mk name visibility moduleKind
          (some ⟨symbolPath, i + numberedCountList children, numberedCountList children⟩)
          (doAssignIDsChildren children symbolPath i pathVec duplicates).1 := by
  simp only [doAssignIDsSym]
  rw [doAssignIDsChildren_counter]
  simp

theorem doAssignIDsSym_name (s : Sym) (symbolPath : UniqueString) (i : Nat)
    (pathVec : List (UniqueString × Nat)) (duplicates : UniqueString → Option Nat) :
    (doAssignIDsSym s symbolPath i pathVec duplicates).1.name = s.name := by
  cases s
  rw [doAssignIDsSym_eq]
  rfl

theorem doAssignIDsSym_path (s : Sym) (symbolPath : UniqueString) (i : Nat)
    (pathVec : List (UniqueString × Nat)) (duplicates : UniqueString → Option Nat) :
    (doAssignIDsSym s symbolPath i pathVec duplicates).1.path = some symbolPath := by
  cases s
  rw [doAssignIDsSym_eq]
  rfl

mutual
theorem symsOf_doAssignIDs : ∀ (ast : ASTBase) (symbolPath : UniqueString) (i : Nat)
    (pathVec : List (UniqueString × Nat)) (duplicates : UniqueString → Option Nat)
    (x : Sym), x ∈ symsOf (doAssignIDs ast symbolPath i pathVec duplicates).1 →
    ∃ s pv, pv ≠ [] ∧ x = (doAssignIDsSym s (pathStrOf pv) 0 pv (fun _ => none)).1
  | .comment _, _, _, _, _, x, hx => by
    simp [doAssignIDs, symsOf] at hx
  | .exp _ _ children, symbolPath, i, pathVec, duplicates, x, hx => by
    simp only [doAssignIDs, symsOf] at hx
    exact symsOfList_doAssignIDs children symbolPath i pathVec duplicates x hx
  | .decl _ _ sym, symbolPath, i, pathVec, duplicates, x, hx => by
    simp only [doAssignIDs, symsOf, List.mem_cons] at hx
    rcases hx with hx | hx
    · exact ⟨sym, pathVec ++ [(sym.name, nextRepeat duplicates sym.name)], by simp, hx⟩
    · exact symsInside_doAssignIDs sym _ _ _ _ x hx
theorem symsInside_doAssignIDs : ∀ (sym : Sym) (symbolPath : UniqueString) (i : Nat)
    (pathVec : List (UniqueString × Nat)) (duplicates : UniqueString → Option Nat)
    (x : Sym), x ∈ symsInside (doAssignIDsSym sym symbolPath i pathVec duplicates).1 →
    ∃ s pv, pv ≠ [] ∧ x = (doAssignIDsSym s (pathStrOf pv) 0 pv (fun _ => none)).1
  | .mk _ _ _ _ children, symbolPath, i, pathVec, duplicates, x, hx => by
    simp only [doAssignIDsSym, symsInside] at hx
    exact symsOfList_doAssignIDs children symbolPath i pathVec duplicates x hx
theorem symsOfList_doAssignIDs : ∀ (children : List ASTBase) (symbolPath : UniqueString)
    (i : Nat) (pathVec : List (UniqueString × Nat)) (duplicates : UniqueString → Option Nat)
    (x : Sym), x ∈ symsOfList (doAssignIDsChildren children symbolPath i pathVec duplicates).1 →
    ∃ s pv, pv ≠ [] ∧ x = (doAssignIDsSym s (pathStrOf pv) 0 pv (fun _ => none)).1
  | [], _, _, _, _, x, hx => by
    simp [doAssignIDsChildren, symsOfList] at hx
  | child :: rest, symbolPath, i, pathVec, duplicates, x, hx => by
    simp only [doAssignIDsChildren, symsOfList, List.mem_append] at hx
    rcases hx with hx | hx
    · exact symsOf_doAssignIDs child symbolPath i pathVec duplicates x hx
    · exact symsOfList_doAssignIDs rest _ _ _ _ x hx
end

mutual
theorem nodesOf_doAssignIDs : ∀ (ast : ASTBase) (symbolPath : UniqueString) (i : Nat)
    (pathVec : List (UniqueString × Nat)) (duplicates : UniqueString → Option Nat)
    (n : ASTBase), n ∈ nodesOf (doAssignIDs ast symbolPath i pathVec duplicates).1 →
    ∃ t P j pv d, n = (doAssignIDs t P j pv d).1
  | .comment id, symbolPath, i, pathVec, duplicates, n, hn => by
    simp only [doAssignIDs, nodesOf, List.mem_singleton] at hn
    exact ⟨.comment id, symbolPath, i, pathVec, duplicates, by simp [doAssignIDs, hn]⟩
  | .exp tag id children, symbolPath, i, pathVec, duplicates, n, hn => by
    simp only [doAssignIDs, nodesOf, List.mem_cons] at hn
    rcases hn with hn | hn
    · exact ⟨.exp tag id children, symbolPath, i, pathVec, duplicates, by
        simp [doAssignIDs, hn]⟩
    · exact nodesOfList_doAssignIDs children symbolPath i pathVec duplicates n hn
  | .decl tag id sym, symbolPath, i, pathVec, duplicates, n, hn => by
    simp only [doAssignIDs, nodesOf, List.mem_cons] at hn
    rcases hn with hn | hn
    · exact ⟨.decl tag id sym, symbolPath, i, pathVec, duplicates, by
        simp [doAssignIDs, hn]⟩
    · exact nodesInside_doAssignIDs sym _ _ _ _ n hn
theorem nodesInside_doAssignIDs : ∀ (sym : Sym) (symbolPath : UniqueString) (i : Nat)
    (pathVec : List (UniqueString × Nat)) (duplicates : UniqueString → Option Nat)
    (n : ASTBase), n ∈ nodesInside (doAssignIDsSym sym symbolPath i pathVec duplicates).1 →
    ∃ t P j pv d, n = (doAssignIDs t P j pv d).1
  | .mk _ _ _ _ children, symbolPath, i, pathVec, duplicates, n, hn => by
    simp only [doAssignIDsSym, nodesInside] at hn
    exact nodesOfList_doAssignIDs children symbolPath i pathVec duplicates n hn
theorem nodesOfList_doAssignIDs : ∀ (children : List ASTBase) (symbolPath : UniqueString)
    (i : Nat) (pathVec : List (UniqueString × Nat)) (duplicates : UniqueString → Option Nat)
    (n : ASTBase),
    n ∈ nodesOfList (doAssignIDsChildren children symbolPath i pathVec duplicates).1 →
    ∃ t P j pv d, n = (doAssignIDs t P j pv d).1
  | [], _, _, _, _, n, hn => by
    simp [doAssignIDsChildren, nodesOfList] at hn
  | child :: rest, symbolPath, i, pathVec, duplicates, n, hn => by
    simp only [doAssignIDsChildren, nodesOfList, List.mem_append] at hn
    rcases hn with hn | hn
    · exact nodesOf_doAssignIDs child symbolPath i pathVec duplicates n hn
    · exact nodesOfList_doAssignIDs rest _ _ _ _ n hn
end

theorem nextRepeat_duplicatesAfter (seen : List UniqueString) (name : UniqueString) :
    nextRepeat (duplicatesAfter seen) name = seen.count name := by
  unfold nextRepeat duplicatesAfter
  by_cases h : seen.count name = 0
  · simp [h]
  · simp only [h, if_false]
    omega

theorem noteDeclared_duplicatesAfter (seen : List UniqueString) (name : UniqueString) :
    noteDeclared (duplicatesAfter seen) name = duplicatesAfter (seen ++ [name]) := by
  funext m
  unfold noteDeclared
  rw [nextRepeat_duplicatesAfter]
  by_cases hm : m = name
  · subst hm
    simp [duplicatesAfter, List.count_append]
  · rw [Function.update_noteq hm]
    have hne : (name == m) = false := by
      simp only [beq_eq_false_iff_ne, ne_eq]
      exact fun h => hm h.symm
    simp [duplicatesAfter, List.count_append, List.count_cons, hne]

theorem duplicatesAfter_nil : duplicatesAfter [] = fun _ => none := by
  funext m
  simp [duplicatesAfter]

theorem numberFrom_append (seen a b : List UniqueString) :
    numberFrom seen (a ++ b) = numberFrom seen a ++ numberFrom (seen ++ a) b := by
  induction a generalizing seen with
  | nil => simp [numberFrom]
  | cons n rest ih =>
    have h : seen ++ n :: rest = (seen ++ [n]) ++ rest := by simp
    show (n, seen.count n) :: numberFrom (seen ++ [n]) (rest ++ b)
      = (n, seen.count n) :: numberFrom (seen ++ [n]) rest ++ numberFrom (seen ++ n :: rest) b
    rw [h, ih, List.cons_append]

mutual
theorem doAssignIDs_declared : ∀ (ast : ASTBase) (symbolPath : UniqueString) (i : Nat)
    (pathVec : List (UniqueString × Nat)) (seen : List UniqueString),
    (doAssignIDs ast symbolPath i pathVec (duplicatesAfter seen)).2.2
        = duplicatesAfter (seen ++ (declsOf ast).map Sym.name)
      ∧ (declsOf (doAssignIDs ast symbolPath i pathVec (duplicatesAfter seen)).1).map
          (fun s => (s.name, s.path))
        = (numberFrom seen ((declsOf ast).map Sym.name)).map
          (fun nk => (nk.1, some (pathStrOf (pathVec ++ [nk]))))
  | .comment _, _, _, _, seen => by
    simp [doAssignIDs, declsOf, numberFrom]
  | .exp _ _ children, symbolPath, i, pathVec, seen => by
    simp only [doAssignIDs, declsOf]
    exact doAssignIDsChildren_declared children symbolPath i pathVec seen
  | .decl _ _ sym, symbolPath, i, pathVec, seen => by
    simp only [doAssignIDs, declsOf, List.map_cons, List.map_nil, numberFrom,
      noteDeclared_duplicatesAfter, nextRepeat_duplicatesAfter, doAssignIDsSym_name,
      doAssignIDsSym_path, true_and]
theorem doAssignIDsChildren_declared : ∀ (children : List ASTBase)
    (symbolPath : UniqueString) (i : Nat) (pathVec : List (UniqueString × Nat))
    (seen : List UniqueString),
    (doAssignIDsChildren children symbolPath i pathVec (duplicatesAfter seen)).2.2
        = duplicatesAfter (seen ++ (declsOfList children).map Sym.name)
      ∧ (declsOfList
          (doAssignIDsChildren children symbolPath i pathVec (duplicatesAfter seen)).1).map
          (fun s => (s.name, s.path))
        = (numberFrom seen ((declsOfList children).map Sym.name)).map
          (fun nk => (nk.1, some (pathStrOf (pathVec ++ [nk]))))
  | [], _, _, _, seen => by
    simp [doAssignIDsChildren, declsOfList, numberFrom]
  | child :: rest, symbolPath, i, pathVec, seen => by
    have h1 := doAssignIDs_declared child symbolPath i pathVec seen
    simp only [doAssignIDsChildren, declsOfList, List.map_append]
    rw [h1.1, h1.2]
    have h2 := doAssignIDsChildren_declared rest symbolPath
      (doAssignIDs child symbolPath i pathVec (duplicatesAfter seen)).2.1 pathVec
      (seen ++ (declsOf child).map Sym.name)
    rw [h2.1, h2.2, numberFrom_append, List.map_append, List.append_assoc]
    exact ⟨rfl, rfl⟩
end

theorem appendPathComponents_snoc (pathVec : List (UniqueString × Nat))
    (nk : UniqueString × Nat) (first : Bool) (pathStr : List Char) :
    appendPathComponents (pathVec ++ [nk]) first pathStr
      = appendPathComponents [nk] (first && pathVec.isEmpty)
          (appendPathComponents pathVec first pathStr) := by
  induction pathVec generalizing first pathStr with
  | nil => simp [appendPathComponents]
  | cons p rest ih =>
    obtain ⟨name, repeatNo⟩ := p
    have hl : appendPathComponents ((name, repeatNo) :: rest ++ [nk]) first pathStr
        = appendPathComponents (rest ++ [nk]) false
            (if repeatNo ≠ 0 then
              (if first = false then pathStr ++ ['.'] else pathStr) ++ name ++ ['#']
                ++ Nat.toDigits 10 repeatNo
             else (if first = false then pathStr ++ ['.'] else pathStr) ++ name) := rfl
    have hr : appendPathComponents ((name, repeatNo) :: rest) first pathStr
        = appendPathComponents rest false
            (if repeatNo ≠ 0 then
              (if first = false then pathStr ++ ['.'] else pathStr) ++ name ++ ['#']
                ++ Nat.toDigits 10 repeatNo
             else (if first = false then pathStr ++ ['.'] else pathStr) ++ name) := rfl
    rw [hl, hr, ih]
    simp

theorem pathStrOf_snoc (pathVec : List (UniqueString × Nat)) (name : UniqueString)
    (k : Nat) (hne : pathVec ≠ []) :
    pathStrOf (pathVec ++ [(name, k)])
      = pathStrOf pathVec ++ ['.'] ++ name ++ repeatSuffix k := by
  unfold pathStrOf
  rw [appendPathComponents_snoc]
  cases pathVec with
  | nil => exact absurd rfl hne
  | cons p rest =>
    simp only [List.isEmpty_cons, Bool.and_false, appendPathComponents, repeatSuffix]
    by_cases hk : k = 0
    · simp [hk]
    · simp [hk]

theorem pathStrOf_single (name : UniqueString) (k : Nat) :
    pathStrOf [(name, k)] = name ++ repeatSuffix k := by
  unfold pathStrOf
  simp only [appendPathComponents, repeatSuffix]
  by_cases hk : k = 0
  · simp [hk]
  · simp [hk]

/-! ## Lemmas on comments -/

theorem stripCommentsSym_name (s : Sym) : (stripCommentsSym s).name = s.name := by
  cases s
  rfl

mutual
theorem doAssignIDs_strip : ∀ (ast : ASTBase) (symbolPath : UniqueString) (i : Nat)
    (pathVec : List (UniqueString × Nat)) (duplicates : UniqueString → Option Nat),
    doAssignIDs (stripComments ast) symbolPath i pathVec duplicates
      = (stripComments (doAssignIDs ast symbolPath i pathVec duplicates).1,
         (doAssignIDs ast symbolPath i pathVec duplicates).2.1,
         (doAssignIDs ast symbolPath i pathVec duplicates).2.2)
  | .comment _, _, _, _, _ => by simp [doAssignIDs, stripComments]
  | .exp _ _ children, symbolPath, i, pathVec, duplicates => by
    simp only [doAssignIDs, stripComments]
    rw [doAssignIDsChildren_strip children symbolPath i pathVec duplicates]
  | .decl _ _ sym, symbolPath, i, pathVec, duplicates => by
    simp only [doAssignIDs, stripComments, stripCommentsSym_name]
    rw [doAssignIDsSym_strip sym]
theorem doAssignIDsSym_strip : ∀ (sym : Sym) (symbolPath : UniqueString) (i : Nat)
    (pathVec : List (UniqueString × Nat)) (duplicates : UniqueString → Option Nat),
    doAssignIDsSym (stripCommentsSym sym) symbolPath i pathVec duplicates
      = (stripCommentsSym (doAssignIDsSym sym symbolPath i pathVec duplicates).1,
         (doAssignIDsSym sym symbolPath i pathVec duplicates).2.1,
         (doAssignIDsSym sym symbolPath i pathVec duplicates).2.2)
  | .mk _ _ _ _ children, symbolPath, i, pathVec, duplicates => by
    simp only [doAssignIDsSym, stripCommentsSym]
    rw [doAssignIDsChildren_strip children symbolPath i pathVec duplicates]
theorem doAssignIDsChildren_strip : ∀ (children : List ASTBase) (symbolPath : UniqueString)
    (i : Nat) (pathVec : List (UniqueString × Nat)) (duplicates : UniqueString → Option Nat),
    doAssignIDsChildren (stripCommentsList children) symbolPath i pathVec duplicates
      = (stripCommentsList (doAssignIDsChildren children symbolPath i pathVec duplicates).1,
         (doAssignIDsChildren children symbolPath i pathVec duplicates).2.1,
         (doAssignIDsChildren children symbolPath i pathVec duplicates).2.2)
  | [], _, _, _, _ => by simp [doAssignIDsChildren, stripCommentsList]
  | .comment _ :: rest, symbolPath, i, pathVec, duplicates => by
    simp only [doAssignIDsChildren, stripCommentsList, doAssignIDs]
    rw [doAssignIDsChildren_strip rest symbolPath i pathVec duplicates]
  | .exp tag id children :: rest, symbolPath, i, pathVec, duplicates => by
    have h := doAssignIDs_strip (.exp tag id children) symbolPath i pathVec duplicates
    simp only [stripComments] at h
    simp only [doAssignIDsChildren, stripCommentsList]
    rw [h, doAssignIDsChildren_strip rest]
    simp only [doAssignIDs, stripCommentsList]
  | .decl tag id sym :: rest, symbolPath, i, pathVec, duplicates => by
    have h := doAssignIDs_strip (.decl tag id sym) symbolPath i pathVec duplicates
    simp only [stripComments] at h
    simp only [doAssignIDsChildren, stripCommentsList]
    rw [h, doAssignIDsChildren_strip rest]
    simp only [doAssignIDs, stripCommentsList]
end

theorem isModuleDecl_stripComments (e : ASTBase) :
    (stripComments e).isModuleDecl = e.isModuleDecl := by
  cases e with
  | comment id => rfl
  | exp tag id children => rfl
  | decl tag id sym => cases tag <;> rfl

theorem assignIDsLoop_strip (exps : List ASTBase) (i : Nat)
    (duplicates : UniqueString → Option Nat) :
    assignIDsLoop (exps.map stripComments) i duplicates
      = (assignIDsLoop exps i duplicates).map (List.map stripComments) := by
  induction exps generalizing i duplicates with
  | nil => rfl
  | cons e rest ih =>
    simp only [List.map_cons, assignIDsLoop, isModuleDecl_stripComments]
    by_cases he : e.isModuleDecl = true
    · rw [if_pos he, if_pos he, doAssignIDs_strip, ih]
      cases assignIDsLoop rest (doAssignIDs e [] i [] duplicates).2.1
        (doAssignIDs e [] i [] duplicates).2.2 <;> rfl
    · rw [if_neg he, if_neg he]
      rfl

/-! ## Lemmas on the paths of declared symbols -/

theorem numberFrom_map_fst (seen names : List UniqueString) :
    (numberFrom seen names).map Prod.fst = names := by
  induction names generalizing seen with
  | nil => rfl
  | cons n rest ih =>
    show n :: (numberFrom (seen ++ [n]) rest).map Prod.fst = n :: rest
    rw [ih]

theorem numberFrom_length (seen names : List UniqueString) :
    (numberFrom seen names).length = names.length := by
  have h := congrArg List.length (numberFrom_map_fst seen names)
  simpa using h

theorem declared_at_position (f : UniqueString × Nat → Option UniqueString)
    (seen : List UniqueString) (names : List UniqueString) (decls before after : List Sym)
    (s : Sym)
    (h : decls.map (fun x => (x.name, x.path))
      = (numberFrom seen names).map (fun nk => (nk.1, f nk)))
    (hsplit : decls = before ++ s :: after) :
    s.path = f (s.name, (seen ++ before.map Sym.name).count s.name) := by
  have hnames : names = decls.map Sym.name := by
    have h1 := congrArg (List.map Prod.fst) h
    simp only [List.map_map] at h1
    have h2 : (numberFrom seen names).map (Prod.fst ∘ fun nk => (nk.1, f nk))
        = (numberFrom seen names).map Prod.fst := rfl
    rw [h2, numberFrom_map_fst] at h1
    rw [← h1]
    rfl
  subst hsplit
  rw [hnames] at h
  simp only [List.map_append, List.map_cons, numberFrom_append] at h
  have hlen : (before.map (fun x => (x.name, x.path))).length
      = ((numberFrom seen (before.map Sym.name)).map (fun nk => (nk.1, f nk))).length := by
    simp [numberFrom_length]
  have h3 := (List.append_inj h hlen).2
  have h4 : numberFrom (seen ++ before.map Sym.name) (s.name :: after.map Sym.name)
      = (s.name, (seen ++ before.map Sym.name).count s.name)
        :: numberFrom (seen ++ before.map Sym.name ++ [s.name]) (after.map Sym.name) := rfl
  rw [h4, List.map_cons] at h3
  have h5 := (List.cons.inj h3).1
  exact (Prod.mk.inj h5).2

theorem assignIDsLoop_declared (exps : List ASTBase) (i : Nat) (seen : List UniqueString)
    (out : List ASTBase) (h : assignIDsLoop exps i (duplicatesAfter seen) = some out) :
    (declsOfList out).map (fun s => (s.name, s.path))
      = (numberFrom seen ((declsOfList exps).map Sym.name)).map
          (fun nk => (nk.1, some (pathStrOf [nk]))) := by
  induction exps generalizing i seen out with
  | nil =>
    simp only [assignIDsLoop, Option.some.injEq] at h
    subst h
    rfl
  | cons e rest ih =>
    simp only [assignIDsLoop] at h
    by_cases he : e.isModuleDecl = true
    · rw [if_pos he] at h
      have h1 := doAssignIDs_declared e [] i [] seen
      rw [h1.1] at h
      cases hrest : assignIDsLoop rest (doAssignIDs e [] i [] (duplicatesAfter seen)).2.1
          (duplicatesAfter (seen ++ (declsOf e).map Sym.name)) with
      | none => rw [hrest] at h; exact absurd h (by simp)
      | some l =>
        rw [hrest] at h
        simp only [Option.map_some', Option.some.injEq] at h
        subst h
        have h2 := ih _ _ _ hrest
        simp only [declsOfList, List.map_append, numberFrom_append]
        rw [h2, h1.2]
        rfl
    · rw [if_neg he] at h
      exact absurd h (by simp)

/-! ## The claims on the builder -/

/-- C15, the claim as stated fails: the empty list of top-level expressions contains no
non-module expression, yet `createImplicitModuleIfNeeded` wraps it in an implicit module
and returns the inferred name. -/
theorem createImplicitModuleIfNeeded_empty_counterexample :
    (¬ ∃ e ∈ (Builder.build ['e', '.', 'c', 'h', 'p', 'l']).topLevelExps_,
        e.isModuleDecl = false)
    ∧ (Builder.build ['e', '.', 'c', 'h', 'p', 'l']).createImplicitModuleIfNeeded.1 = ['e']
    ∧ (Builder.build ['e', '.', 'c', 'h', 'p', 'l']).createImplicitModuleIfNeeded.2.topLevelExps_
        = [ASTBase.decl DeclTag.ModuleDecl none
            (Sym.mk ['e'] Visibility.VISIBILITY_DEFAULT (some ModuleKind.IMPLICIT) none [])] :=
  ⟨fun h => h.elim (fun e he => absurd he.1 (List.not_mem_nil e)), rfl, rfl⟩

/-- C15, amended. `createImplicitModuleIfNeeded` wraps the list of top-level expressions
in an implicit module exactly when the list is empty or contains an expression that is
not a module declaration: then it returns the inferred name and the list becomes the one
implicit module; otherwise (a non-empty list of module declarations) it returns the empty
name and leaves the builder as it was. -/
theorem createImplicitModuleIfNeeded_condition (b : Builder) :
    ((b.topLevelExps_ = [] ∨ ∃ e ∈ b.topLevelExps_, e.isModuleDecl = false) →
        b.createImplicitModuleIfNeeded.1 = b.inferredModuleName_
        ∧ b.createImplicitModuleIfNeeded.2.topLevelExps_
            = [implicitModuleOf b b.topLevelExps_])
    ∧ (¬ (b.topLevelExps_ = [] ∨ ∃ e ∈ b.topLevelExps_, e.isModuleDecl = false) →
        b.createImplicitModuleIfNeeded = ([], b)) := by
  constructor
  · intro h
    rw [createImplicitModuleIfNeeded_wraps b h]
    exact ⟨rfl, rfl⟩
  · intro h
    exact createImplicitModuleIfNeeded_keeps b h

/-- C16. Whenever `createImplicitModuleIfNeeded` wraps (the list is empty or has an
expression that is not a module declaration, mixed lists included), the top-level list
afterwards is exactly one module declaration whose symbol has the inferred module name,
default visibility, implicit kind and, as its statements, the original top-level
expressions in their order; the returned name is the inferred module name; the errors,
file path and inferred name of the builder are unchanged. -/
theorem createImplicitModuleIfNeeded_shape (b : Builder)
    (h : NeedsImplicitModule b.topLevelExps_) :
    b.createImplicitModuleIfNeeded.1 = b.inferredModuleName_
    ∧ b.createImplicitModuleIfNeeded.2.topLevelExps_
        = [ASTBase.decl DeclTag.ModuleDecl none
            (Sym.mk b.inferredModuleName_ Visibility.VISIBILITY_DEFAULT
              (some ModuleKind.IMPLICIT) none b.topLevelExps_)]
    ∧ b.createImplicitModuleIfNeeded.2.errors_ = b.errors_
    ∧ b.createImplicitModuleIfNeeded.2.filepath_ = b.filepath_
    ∧ b.createImplicitModuleIfNeeded.2.inferredModuleName_ = b.inferredModuleName_ := by
  rw [createImplicitModuleIfNeeded_wraps b h]
  exact ⟨rfl, rfl, rfl, rfl, rfl⟩

/-- C16 on the mixed list `[VarDecl("x"), ModuleDecl("M")]` with inferred name `Mix`: one
implicit module `Mix` that contains both statements. -/
theorem createImplicitModuleIfNeeded_shape_witness :
    NeedsImplicitModule mixedTopLevel
    ∧ (exampleBuilder ['M', 'i', 'x', '.', 'c'] ['M', 'i', 'x']
        mixedTopLevel).createImplicitModuleIfNeeded.1 = ['M', 'i', 'x']
    ∧ (exampleBuilder ['M', 'i', 'x', '.', 'c'] ['M', 'i', 'x']
        mixedTopLevel).createImplicitModuleIfNeeded.2.topLevelExps_
        = [ASTBase.decl DeclTag.ModuleDecl none
            (Sym.mk ['M', 'i', 'x'] Visibility.VISIBILITY_DEFAULT (some ModuleKind.IMPLICIT)
              none [exampleVariable ['x'], exampleModule ['M'] []])] :=
  ⟨Or.inr ⟨exampleVariable ['x'], List.Mem.head _, rfl⟩,
   (createImplicitModuleIfNeeded_shape
      (exampleBuilder ['M', 'i', 'x', '.', 'c'] ['M', 'i', 'x'] mixedTopLevel)
      (Or.inr ⟨exampleVariable ['x'], List.Mem.head _, rfl⟩)).1,
   (createImplicitModuleIfNeeded_shape
      (exampleBuilder ['M', 'i', 'x', '.', 'c'] ['M', 'i', 'x'] mixedTopLevel)
      (Or.inr ⟨exampleVariable ['x'], List.Mem.head _, rfl⟩)).2.1⟩

/-- C17, the claim as stated fails: for the file `.chpl` the inferred module name is
empty, so the declaration of `x` in the implicit module is visited under the empty symbol
path, and the symbol it declares gets the path `.x`, with a leading dot. -/
theorem symbol_path_leading_dot_counterexample :
    (((Builder.build ['.', 'c', 'h', 'p', 'l']).addToplevelExp
        (exampleVariable ['x'])).result.map (fun r => r.1.topLevelExps))
      = some [ASTBase.decl DeclTag.ModuleDecl (some ⟨[], 0, 0⟩)
          (Sym.mk [] Visibility.VISIBILITY_DEFAULT (some ModuleKind.IMPLICIT)
            (some ⟨[], 1, 1⟩)
            [ASTBase.decl (DeclTag.otherDecl 1) (some ⟨[], 0, 0⟩)
              (Sym.mk ['x'] Visibility.VISIBILITY_DEFAULT none
                (some ⟨['.', 'x'], 0, 0⟩) [])])] := by
  rfl

/-- C17, amended. In every tree that `doAssignIDs` has walked, each declared symbol `x`
has a path `P`, and a symbol `s` declared directly inside `x` (outside nested symbols),
preceded there by `k` declarations of the same name, has the path `P.n` for `k = 0` and
`P.n#k` otherwise, where `n` is its name: the dot is written whenever there is an
enclosing symbol, also when `P` is empty. The symbols of the top-level declarations that
`assignIDs` walks have no enclosing symbol and get `n` or `n#k` without a dot, `k` counting
the earlier top-level declarations of the name. -/
theorem declared_symbol_paths (ast : ASTBase) (symbolPath : UniqueString) (i : Nat)
    (pathVec : List (UniqueString × Nat)) (duplicates : UniqueString → Option Nat)
    (exps : List ASTBase) :
    (∀ x ∈ symsOf (doAssignIDs ast symbolPath i pathVec duplicates).1,
      ∃ P, x.path = some P ∧
        ∀ (before after : List Sym) (s : Sym),
          declsOfList x.children = before ++ s :: after →
          s.path = some (P ++ ['.'] ++ s.name
            ++ repeatSuffix ((before.map Sym.name).count s.name)))
    ∧ (∀ out, assignIDsLoop exps 0 (fun _ => none) = some out →
        ∀ (before after : List Sym) (s : Sym),
          declsOfList out = before ++ s :: after →
          s.path = some (s.name ++ repeatSuffix ((before.map Sym.name).count s.name))) := by
  constructor
  · intro x hx
    obtain ⟨s0, pv, hpv, rfl⟩ := symsOf_doAssignIDs ast symbolPath i pathVec duplicates x hx
    refine ⟨pathStrOf pv, doAssignIDsSym_path _ _ _ _ _, ?_⟩
    intro before after s hsplit
    cases s0 with
    | mk name visibility moduleKind id children =>
      rw [doAssignIDsSym_eq] at hsplit
      have hd := (doAssignIDsChildren_declared children (pathStrOf pv) 0 pv []).2
      rw [duplicatesAfter_nil] at hd
      have h := declared_at_position (fun nk => some (pathStrOf (pv ++ [nk]))) [] _ _
        before after s hd hsplit
      rw [h]
      simp only [pathStrOf_snoc _ _ _ hpv, List.nil_append]
  · intro out hout before after s hsplit
    rw [← duplicatesAfter_nil] at hout
    have hd := assignIDsLoop_declared exps 0 [] out hout
    have h := declared_at_position (fun nk => some (pathStrOf [nk])) [] _ _
      before after s hd hsplit
    rw [h]
    simp only [pathStrOf_single, List.nil_append]

/-- C17 on two declarations of `f` inside module `M`: their symbols get the paths `M.f`
and `M.f#1`. -/
theorem declared_symbol_paths_witness :
    ((declsOfList (doAssignIDsSym (Sym.mk ['M'] Visibility.VISIBILITY_DEFAULT (some ModuleKind.DEFAULT_MODULE_KIND) none
        [exampleFunction ['f'] [], exampleFunction ['f'] []]) ['M'] 0 [(['M'], 0)]
        (fun _ => none)).1.children).map Sym.path
      = [some ['M', '.', 'f'], some ['M', '.', 'f', '#', '1']])
    ∧ ∃ P, (doAssignIDsSym (Sym.mk ['M'] Visibility.VISIBILITY_DEFAULT (some ModuleKind.DEFAULT_MODULE_KIND) none
          [exampleFunction ['f'] [], exampleFunction ['f'] []]) ['M'] 0 [(['M'], 0)]
          (fun _ => none)).1.path = some P ∧
        ∀ (before after : List Sym) (s : Sym),
          declsOfList (doAssignIDsSym (Sym.mk ['M'] Visibility.VISIBILITY_DEFAULT (some ModuleKind.DEFAULT_MODULE_KIND) none
            [exampleFunction ['f'] [], exampleFunction ['f'] []]) ['M'] 0 [(['M'], 0)]
            (fun _ => none)).1.children = before ++ s :: after →
          s.path = some (P ++ ['.'] ++ s.name
            ++ repeatSuffix ((before.map Sym.name).count s.name)) :=
  ⟨rfl,
   (declared_symbol_paths
      (exampleModule ['M'] [exampleFunction ['f'] [], exampleFunction ['f'] []])
      [] 0 [] (fun _ => none) []).1 _ (List.Mem.head _)⟩

/-- C18. In every tree that `doAssignIDs` has walked, for each declared symbol the IDs of
the symbol node and of its non-comment descendants outside nested symbols (nested
declaration nodes included) carry one symbol path and, in the order of the walk, the
postorder indices 0, 1, ..., N-1, each once; the symbol node itself has N-1. -/
theorem symbol_numbering_contiguous (ast : ASTBase) (symbolPath : UniqueString) (i : Nat)
    (pathVec : List (UniqueString × Nat)) (duplicates : UniqueString → Option Nat)
    (x : Sym) (hx : x ∈ symsOf (doAssignIDs ast symbolPath i pathVec duplicates).1) :
    ∃ P, x.numberedIDs.map idKey
          = (List.range x.numberedIDs.length).map (fun j => some (P, j))
      ∧ idKey x.id = some (P, x.numberedIDs.length - 1) := by
  obtain ⟨s0, pv, _, rfl⟩ := symsOf_doAssignIDs ast symbolPath i pathVec duplicates x hx
  refine ⟨pathStrOf pv, ?_⟩
  cases s0 with
  | mk name visibility moduleKind id children =>
    rw [doAssignIDsSym_eq]
    have hk := doAssignIDsChildren_keys children (pathStrOf pv) 0 pv (fun _ => none)
    have hlen : (numberedIDsList
        (doAssignIDsChildren children (pathStrOf pv) 0 pv (fun _ => none)).1).length
        = numberedCountList children := by
      have h := congrArg List.length hk
      simpa [numberedKeys] using h
    have hall : (Sym.numberedIDs (Sym.mk name visibility moduleKind
        (some ⟨pathStrOf pv, 0 + numberedCountList children, numberedCountList children⟩)
        (doAssignIDsChildren children (pathStrOf pv) 0 pv (fun _ => none)).1)).map idKey
        = numberedKeys (pathStrOf pv) 0 (numberedCountList children + 1) := by
      unfold Sym.numberedIDs
      simp only [Sym.children, Sym.id, List.map_append, List.map_cons, List.map_nil]
      rw [hk, ← numberedKeys_append, numberedKeys_one]
      rfl
    have hlen2 : (Sym.numberedIDs (Sym.mk name visibility moduleKind
        (some ⟨pathStrOf pv, 0 + numberedCountList children, numberedCountList children⟩)
        (doAssignIDsChildren children (pathStrOf pv) 0 pv (fun _ => none)).1)).length
        = numberedCountList children + 1 := by
      unfold Sym.numberedIDs
      simp [Sym.children, hlen]
    rw [hall, hlen2]
    constructor
    · simp [numberedKeys, List.range_eq_range']
    · simp [idKey, Sym.id]

/-- C18 on the second function of `twoFunctions`: its body has the statements 8 and 7,
which with the symbol node get the indices 0, 1, 2. -/
theorem symbol_numbering_contiguous_witness :
    Sym.mk ['f'] Visibility.VISIBILITY_DEFAULT none (some ⟨['f'], 2, 2⟩)
        [.comment none, .exp 7 (some ⟨['f'], 1, 1⟩) [.exp 8 (some ⟨['f'], 0, 0⟩) [],
          .comment none]]
      ∈ symsOf (doAssignIDs (exampleFunction ['f']
          [.comment none, .exp 7 none [.exp 8 none [], .comment none]]) [] 0 []
          (fun _ => none)).1
    ∧ ∃ P, (Sym.mk ['f'] Visibility.VISIBILITY_DEFAULT none (some ⟨['f'], 2, 2⟩)
        [.comment none, .exp 7 (some ⟨['f'], 1, 1⟩) [.exp 8 (some ⟨['f'], 0, 0⟩) [],
          .comment none]]).numberedIDs.map idKey
          = (List.range 3).map (fun j => some (P, j))
      ∧ idKey (some (⟨['f'], 2, 2⟩ : ID)) = some (P, 2) :=
  ⟨List.Mem.head _,
   symbol_numbering_contiguous (exampleFunction ['f']
      [.comment none, .exp 7 none [.exp 8 none [], .comment none]]) [] 0 []
      (fun _ => none) _ (List.Mem.head _)⟩

theorem numberedIDsList_length (children : List ASTBase) (symbolPath : UniqueString)
    (i : Nat) (pathVec : List (UniqueString × Nat)) (duplicates : UniqueString → Option Nat) :
    (numberedIDsList (doAssignIDsChildren children symbolPath i pathVec duplicates).1).length
      = numberedCountList children := by
  have h := congrArg List.length
    (doAssignIDsChildren_keys children symbolPath i pathVec duplicates)
  simpa [numberedKeys] using h

/-- C19. In every tree that `doAssignIDs` has walked: a node that is neither a comment nor
a declaration has an ID whose contained count is the number of its non-comment
descendants outside nested symbols, and these carry its symbol path and, in the order of
the walk, the indices from `postOrderId - numContainedIds` up to `postOrderId - 1`; the
same holds for every symbol node; a declaration node has the contained count 0. -/
theorem contained_count (ast : ASTBase) (symbolPath : UniqueString) (i : Nat)
    (pathVec : List (UniqueString × Nat)) (duplicates : UniqueString → Option Nat) :
    (∀ tag id children,
      ASTBase.exp tag id children
          ∈ nodesOf (doAssignIDs ast symbolPath i pathVec duplicates).1 →
        ∃ x, id = some x ∧ x.numContainedIds = (numberedIDsList children).length
          ∧ (numberedIDsList children).map idKey
              = numberedKeys x.symbolPath (x.postOrderId - x.numContainedIds)
                  x.numContainedIds)
    ∧ (∀ tag id sym,
        ASTBase.decl tag id sym
            ∈ nodesOf (doAssignIDs ast symbolPath i pathVec duplicates).1 →
          ∃ x, id = some x ∧ x.numContainedIds = 0)
    ∧ (∀ s ∈ symsOf (doAssignIDs ast symbolPath i pathVec duplicates).1,
        ∃ x, s.id = some x ∧ x.numContainedIds = (numberedIDsList s.children).length
          ∧ (numberedIDsList s.children).map idKey
              = numberedKeys x.symbolPath (x.postOrderId - x.numContainedIds)
                  x.numContainedIds) := by
  refine ⟨?_, ?_, ?_⟩
  · intro tag id children hn
    obtain ⟨t, P, j, pv, d, h⟩ := nodesOf_doAssignIDs ast symbolPath i pathVec duplicates _ hn
    cases t with
    | comment id0 => simp [doAssignIDs] at h
    | decl tag0 id0 sym0 => simp [doAssignIDs] at h
    | exp tag0 id0 children0 =>
      simp only [doAssignIDs, ASTBase.exp.injEq] at h
      obtain ⟨_, hid, hch⟩ := h
      rw [doAssignIDsChildren_counter] at hid
      refine ⟨_, hid, ?_, ?_⟩
      · rw [hch, numberedIDsList_length]
        simp
      · rw [hch, doAssignIDsChildren_keys]
        simp
  · intro tag id sym hn
    obtain ⟨t, P, j, pv, d, h⟩ := nodesOf_doAssignIDs ast symbolPath i pathVec duplicates _ hn
    cases t with
    | comment id0 => simp [doAssignIDs] at h
    | exp tag0 id0 children0 => simp [doAssignIDs] at h
    | decl tag0 id0 sym0 =>
      simp only [doAssignIDs, ASTBase.decl.injEq] at h
      exact ⟨_, h.2.1, by simp⟩
  · intro s hs
    obtain ⟨s0, pv, _, rfl⟩ := symsOf_doAssignIDs ast symbolPath i pathVec duplicates s hs
    cases s0 with
    | mk name visibility moduleKind id children =>
      rw [doAssignIDsSym_eq]
      refine ⟨_, rfl, ?_, ?_⟩
      · simp only [Sym.children]
        rw [numberedIDsList_length]
      · simp only [Sym.children]
        rw [doAssignIDsChildren_keys]
        simp

/-- C20. `assignIDs` on the top-level list with all comments below the top-level nodes
removed gives the tree that it gives on the list itself, with the comments removed: each
non-comment node gets the same ID in both. A comment visited by `doAssignIDs` is returned
as it is, without an ID set, and the counter and the map of declared names are
unchanged. -/
theorem assignIDs_modulo_comments (b : Builder) (inferredModule : UniqueString) :
    ({ b with topLevelExps_ := b.topLevelExps_.map stripComments }.assignIDs inferredModule
        = (b.assignIDs inferredModule).map
            (fun r => { r with topLevelExps_ := r.topLevelExps_.map stripComments }))
    ∧ (∀ id symbolPath i pathVec duplicates,
        doAssignIDs (.comment id) symbolPath i pathVec duplicates
          = (.comment id, i, duplicates))
    ∧ (∀ children symbolPath i pathVec duplicates,
        doAssignIDsChildren (stripCommentsList children) symbolPath i pathVec duplicates
          = (stripCommentsList
              (doAssignIDsChildren children symbolPath i pathVec duplicates).1,
             (doAssignIDsChildren children symbolPath i pathVec duplicates).2.1,
             (doAssignIDsChildren children symbolPath i pathVec duplicates).2.2)) := by
  refine ⟨?_, ?_, ?_⟩
  · unfold Builder.assignIDs
    simp only [assignIDsLoop_strip]
    cases assignIDsLoop b.topLevelExps_ 0 (fun _ => none) <;> rfl
  · intro id symbolPath i pathVec duplicates
    simp [doAssignIDs]
  · exact doAssignIDsChildren_strip

/-! ## Lemmas on module names and file names -/

theorem take_moduleNameLength (s : List Char) :
    s.take (moduleNameLength s) = s.takeWhile (fun c => c != '.') := by
  induction s with
  | nil => rfl
  | cons c rest ih =>
    unfold moduleNameLength
    by_cases hc : c = '.'
    · simp [hc]
    · simp [hc, ih]

theorem moduleNameForID_eq (id : ID) :
    moduleNameForID id = id.symbolPath.takeWhile (fun c => c != '.') := by
  unfold moduleNameForID
  by_cases h : id.symbolPath.isEmpty = true
  · rw [if_pos h]
    rw [List.isEmpty_iff] at h
    rw [h]
    rfl
  · rw [if_neg h, take_moduleNameLength]

theorem takeWhile_append_dropWhile_head (s : List Char) :
    s.dropWhile (fun c => c != '.') = []
      ∨ (s.dropWhile (fun c => c != '.')).head? = some '.' := by
  induction s with
  | nil => exact Or.inl rfl
  | cons c rest ih =>
    by_cases hc : c = '.'
    · right
      simp [hc, List.dropWhile]
    · have : (c != '.') = true := by simpa using hc
      simp only [List.dropWhile, this]
      exact ih

theorem not_mem_takeWhile_ne (s : List Char) (d : Char) :
    d ∉ s.takeWhile (fun c => c != d) := by
  intro h
  have := List.mem_takeWhile_imp h
  simp at this

theorem isPrefix_takeWhile_of_not_mem (p s : List Char) (d : Char) (hp : p <+: s)
    (hd : d ∉ p) : p <+: s.takeWhile (fun c => c != d) := by
  obtain ⟨t, rfl⟩ := hp
  induction p with
  | nil => exact List.nil_prefix
  | cons c rest ih =>
    have hc : c ≠ d := fun h => hd (by simp [h])
    have hrest : d ∉ rest := fun h => hd (List.mem_cons_of_mem _ h)
    have : (c != d) = true := by simpa using hc
    simp only [List.cons_append, List.takeWhile, this]
    exact (List.cons_prefix_cons).2 ⟨rfl, ih hrest⟩

theorem strrchr_eq_none (s : List Char) (c : Char) : strrchr s c = none ↔ c ∉ s := by
  induction s with
  | nil => simp [strrchr]
  | cons x rest ih =>
    unfold strrchr
    cases h : strrchr rest c with
    | some k =>
      have : ¬ c ∉ rest := fun hn => by
        rw [ih.2 hn] at h
        exact Option.noConfusion h
      simp only [reduceCtorEq, List.mem_cons, not_or, false_iff, not_and, not_not]
      intro _
      exact not_not.1 this
    | none =>
      have hrest := ih.1 h
      by_cases hx : x = c
      · simp [hx]
      · have hx2 : ¬ c = x := fun e => hx e.symm
        simp [hx, hx2, hrest]

theorem strrchr_append_cons (a b : List Char) (c : Char) (hb : c ∉ b) :
    strrchr (a ++ c :: b) c = some a.length := by
  induction a with
  | nil =>
    show strrchr (c :: b) c = some 0
    unfold strrchr
    rw [(strrchr_eq_none b c).2 hb]
    simp
  | cons x rest ih =>
    show strrchr (x :: (rest ++ c :: b)) c = some (rest.length + 1)
    unfold strrchr
    rw [ih]

theorem filenameToModulename_of_no_slash (base : List Char) (hbase : '/' ∉ base) :
    filenameToModulename base
      = ((strrchr base '.').map (fun firstPeriod => base.take firstPeriod)).getD base := by
  unfold filenameToModulename
  rw [(strrchr_eq_none base '/').2 hbase]
  dsimp only
  cases strrchr base '.' <;> rfl

theorem filenameToModulename_dir (dir base : List Char) (hbase : '/' ∉ base) :
    filenameToModulename (dir ++ '/' :: base) = filenameToModulename base := by
  rw [filenameToModulename_of_no_slash base hbase]
  unfold filenameToModulename
  rw [strrchr_append_cons dir base '/' hbase]
  have hdrop : List.drop (dir.length + 1) (dir ++ '/' :: base) = base := by
    rw [List.drop_append_eq_append_drop]
    simp
  dsimp only
  rw [hdrop]
  cases strrchr base '.' <;> rfl

theorem exists_last_slash (path : List Char) :
    '/' ∉ path ∨ ∃ dir base, path = dir ++ '/' :: base ∧ '/' ∉ base := by
  induction path with
  | nil => exact Or.inl (List.not_mem_nil _)
  | cons x rest ih =>
    rcases ih with h | ⟨dir, base, hsplit, hbase⟩
    · by_cases hx : x = '/'
      · exact Or.inr ⟨[], rest, by simp [hx], h⟩
      · left
        intro hm
        rcases List.mem_cons.1 hm with e | e
        · exact hx e.symm
        · exact h e
    · exact Or.inr ⟨x :: dir, base, by simp [hsplit], hbase⟩

theorem filenameToModulename_isPrefix (base : List Char) (hbase : '/' ∉ base) :
    filenameToModulename base <+: base := by
  rw [filenameToModulename_of_no_slash base hbase]
  cases strrchr base '.' with
  | none => exact List.prefix_refl _
  | some k => exact List.take_prefix _ _

/-- C27. `moduleNameForID(id)` is the text of `id.symbolPath` before its first `.`: the
path is the result followed by nothing or by a rest that starts with `.`; the result
contains no `.`, every prefix of the path without a `.` is a prefix of the result, the
result is the whole path when the path has no `.`, and it is empty for the empty path. -/
theorem moduleNameForID_before_dot (id : ID) :
    (∃ rest, id.symbolPath = moduleNameForID id ++ rest
        ∧ (rest = [] ∨ rest.head? = some '.'))
    ∧ '.' ∉ moduleNameForID id
    ∧ (∀ p, p <+: id.symbolPath → '.' ∉ p → p <+: moduleNameForID id)
    ∧ ('.' ∉ id.symbolPath → moduleNameForID id = id.symbolPath)
    ∧ (id.symbolPath = [] → moduleNameForID id = []) := by
  rw [moduleNameForID_eq]
  refine ⟨⟨id.symbolPath.dropWhile (fun c => c != '.'), ?_, ?_⟩, ?_, ?_, ?_, ?_⟩
  · exact (List.takeWhile_append_dropWhile _ _).symm
  · exact takeWhile_append_dropWhile_head _
  · exact not_mem_takeWhile_ne _ _
  · intro p hp hd
    exact isPrefix_takeWhile_of_not_mem p _ _ hp hd
  · intro h
    rw [List.takeWhile_eq_self_iff]
    intro c hc
    have : c ≠ '.' := fun e => h (e ▸ hc)
    simpa using this
  · intro h
    rw [h]
    rfl

/-- C30. For a file path whose text after the last `/` is `base` (the whole path when it
has no `/`), `filenameToModulename` gives what it gives for `base` alone, whatever the
directory part is; for `base = stem.ext` with no `.` in `ext` that is `stem`, for a
`base` without `.` it is `base`; the result never contains `/`. -/
theorem filenameToModulename_basename (dir base : List Char) (hbase : '/' ∉ base) :
    filenameToModulename (dir ++ '/' :: base) = filenameToModulename base
    ∧ (∀ stem ext, base = stem ++ '.' :: ext → '.' ∉ ext →
        filenameToModulename base = stem)
    ∧ ('.' ∉ base → filenameToModulename base = base)
    ∧ (∀ path, '/' ∉ filenameToModulename path) := by
  refine ⟨filenameToModulename_dir dir base hbase, ?_, ?_, ?_⟩
  · intro stem ext hsplit hext
    rw [filenameToModulename_of_no_slash base hbase, hsplit,
      strrchr_append_cons stem ext '.' hext]
    simp
  · intro hdot
    rw [filenameToModulename_of_no_slash base hbase, (strrchr_eq_none base '.').2 hdot]
    rfl
  · intro path
    rcases exists_last_slash path with h | ⟨d, b, hsplit, hb⟩
    · exact fun hm => h ((filenameToModulename_isPrefix path h).subset hm)
    · rw [hsplit, filenameToModulename_dir d b hb]
      exact fun hm => hb ((filenameToModulename_isPrefix b hb).subset hm)

/-- C30 on the path `src/a.b/foo.bar.chpl`: the inferred module name is `foo.bar`. -/
theorem filenameToModulename_basename_witness :
    '/' ∉ ['f', 'o', 'o', '.', 'b', 'a', 'r', '.', 'c', 'h', 'p', 'l']
    ∧ filenameToModulename
        (['s', 'r', 'c', '/', 'a', '.', 'b'] ++
          '/' :: ['f', 'o', 'o', '.', 'b', 'a', 'r', '.', 'c', 'h', 'p', 'l'])
      = ['f', 'o', 'o', '.', 'b', 'a', 'r'] :=
  ⟨by decide,
   ((filenameToModulename_basename ['s', 'r', 'c', '/', 'a', '.', 'b']
      ['f', 'o', 'o', '.', 'b', 'a', 'r', '.', 'c', 'h', 'p', 'l'] (by decide)).1).trans
    (by decide)⟩

/-! ## Lemmas on the top-level walk -/

theorem assignIDsLoop_ids (exps : List ASTBase) (i : Nat)
    (duplicates : UniqueString → Option Nat) (out : List ASTBase)
    (h : assignIDsLoop exps i duplicates = some out) :
    out.map ASTBase.id = (List.range' i exps.length).map (fun j => some ⟨[], j, 0⟩) := by
  induction exps generalizing i duplicates out with
  | nil =>
    simp only [assignIDsLoop, Option.some.injEq] at h
    subst h
    rfl
  | cons e rest ih =>
    simp only [assignIDsLoop] at h
    by_cases he : e.isModuleDecl = true
    · rw [if_pos he] at h
      cases e with
      | comment id => simp [ASTBase.isModuleDecl] at he
      | exp tag id children => simp [ASTBase.isModuleDecl] at he
      | decl tag id sym =>
        cases hrest : assignIDsLoop rest
            (doAssignIDs (.decl tag id sym) [] i [] duplicates).2.1
            (doAssignIDs (.decl tag id sym) [] i [] duplicates).2.2 with
        | none => rw [hrest] at h; exact absurd h (by simp)
        | some l =>
          rw [hrest] at h
          simp only [Option.map_some', Option.some.injEq] at h
          subst h
          have h2 := ih _ _ _ hrest
          simp only [doAssignIDs] at h2
          simp only [List.map_cons, List.length_cons, List.range'_succ, h2]
          simp [doAssignIDs, ASTBase.id]
    · rw [if_neg he] at h
      exact absurd h (by simp)

theorem assignIDsLoop_isSome (exps : List ASTBase) (i : Nat)
    (duplicates : UniqueString → Option Nat)
    (h : ∀ e ∈ exps, e.isModuleDecl = true) :
    ∃ out, assignIDsLoop exps i duplicates = some out := by
  induction exps generalizing i duplicates with
  | nil => exact ⟨[], rfl⟩
  | cons e rest ih =>
    have he := h e (List.mem_cons_self _ _)
    obtain ⟨l, hl⟩ := ih (doAssignIDs e [] i [] duplicates).2.1
      (doAssignIDs e [] i [] duplicates).2.2 (fun x hx => h x (List.mem_cons_of_mem _ hx))
    refine ⟨(doAssignIDs e [] i [] duplicates).1 :: l, ?_⟩
    simp only [assignIDsLoop]
    rw [if_pos he, hl]
    rfl

/-- C21, the claim as stated fails: of two top-level modules named `M` the second gets the
postorder index 1 for its declaration node, not 0, and the path `M#1` for its symbol, not
`M`: the counter and the map of declared names are shared by the top-level modules. -/
theorem assignIDs_shared_counter_counterexample :
    ((exampleBuilder ['M', '.', 'c'] ['M'] twoModulesOfOneName).assignIDs []).map
        (fun b => b.topLevelExps_)
      = some [ASTBase.decl DeclTag.ModuleDecl (some ⟨[], 0, 0⟩)
          (Sym.mk ['M'] Visibility.VISIBILITY_DEFAULT (some ModuleKind.DEFAULT_MODULE_KIND)
            (some ⟨['M'], 0, 0⟩) []),
        ASTBase.decl DeclTag.ModuleDecl (some ⟨[], 1, 0⟩)
          (Sym.mk ['M'] Visibility.VISIBILITY_DEFAULT (some ModuleKind.DEFAULT_MODULE_KIND)
            (some ⟨['M', '#', '1'], 0, 0⟩) [])] := by
  rfl

/-- C21, amended. `assignIDs` walks the top-level module declarations with the empty
symbol path and with one counter and one map of declared names for the whole list: on a
list of module declarations it returns, the declaration node at position `j` gets the ID
with the empty path, postorder index `j` and contained count 0, and the symbol of a
top-level module named `n` gets the path `n`, or `n#k` when `k > 0` earlier top-level
modules have the name `n`. -/
theorem assignIDs_top_level (b : Builder) (inferredModule : UniqueString)
    (hmods : ∀ e ∈ b.topLevelExps_, e.isModuleDecl = true) :
    ∃ b1, b.assignIDs inferredModule = some b1
      ∧ b1.topLevelExps_.map ASTBase.id
          = (List.range b.topLevelExps_.length).map (fun j => some ⟨[], j, 0⟩)
      ∧ ∀ (before after : List Sym) (s : Sym),
          declsOfList b1.topLevelExps_ = before ++ s :: after →
          s.path = some (s.name ++ repeatSuffix ((before.map Sym.name).count s.name)) := by
  obtain ⟨out, hout⟩ := assignIDsLoop_isSome b.topLevelExps_ 0 (fun _ => none) hmods
  refine ⟨{ b with topLevelExps_ := out }, ?_, ?_, ?_⟩
  · unfold Builder.assignIDs
    rw [hout]
    rfl
  · show out.map ASTBase.id = _
    rw [assignIDsLoop_ids _ _ _ _ hout, List.range_eq_range']
  · intro before after s hsplit
    have hout2 := hout
    rw [← duplicatesAfter_nil] at hout2
    have hd := assignIDsLoop_declared b.topLevelExps_ 0 [] out hout2
    have h := declared_at_position (fun nk => some (pathStrOf [nk])) [] _ _
      before after s hd hsplit
    rw [h]
    simp only [pathStrOf_single, List.nil_append]

/-- C21 amended, on two top-level modules named `M`: the indices 0 and 1. -/
theorem assignIDs_top_level_witness :
    ∃ b1, (exampleBuilder ['M', '.', 'c'] ['M'] twoModulesOfOneName).assignIDs []
        = some b1
      ∧ b1.topLevelExps_.map ASTBase.id
          = (List.range 2).map (fun j => some ⟨[], j, 0⟩)
      ∧ ∀ (before after : List Sym) (s : Sym),
          declsOfList b1.topLevelExps_ = before ++ s :: after →
          s.path = some (s.name ++ repeatSuffix ((before.map Sym.name).count s.name)) :=
  assignIDs_top_level (exampleBuilder ['M', '.', 'c'] ['M'] twoModulesOfOneName) []
    (fun e he => by
      rcases List.mem_cons.1 he with h | h
      · rw [h]; rfl
      · rcases List.mem_cons.1 h with h | h
        · rw [h]; rfl
        · exact absurd h (List.not_mem_nil e))

/-- C23, the code on the failing input: two results that differ in their errors only
(equal locations). `update` puts the new errors into `keep` and returns `false`, whatever
`updateASTList` does. -/
theorem result_update_misses_change
    (updateASTList : List ASTBase → List ASTBase → Bool × List ASTBase × List ASTBase) :
    (BuilderResult.update updateASTList ⟨[], ["old error"], []⟩
        ⟨[], ["new error"], []⟩).1 = false
    ∧ (BuilderResult.update updateASTList ⟨[], ["old error"], []⟩
        ⟨[], ["new error"], []⟩).2.1.errors = ["new error"] := by
  constructor
  · simp [BuilderResult.update, defaultUpdate]
  · simp [BuilderResult.update, defaultUpdate]

/-! ## Lemmas on the end of a query -/

theorem getLast?_append_singleton {α : Type} (l : List α) (a : α) :
    (l ++ [a]).getLast? = some a := by
  simp

theorem dropLast_append_singleton {α : Type} (l : List α) (a : α) :
    (l ++ [a]).dropLast = l := by
  simp

theorem saveDependenciesAndErrorsInParent_nil (ctx : Context QM) (resultEntry : Ptr)
    (h : ctx.queryDeps = []) :
    saveDependenciesAndErrorsInParent ctx resultEntry = ctx := by
  unfold saveDependenciesAndErrorsInParent
  rw [h]
  rfl

theorem saveDependenciesAndErrorsInParent_snoc (ctx : Context QM) (resultEntry : Ptr)
    (below : List QueryDepsEntry) (parent : QueryDepsEntry)
    (h : ctx.queryDeps = below ++ [parent]) :
    saveDependenciesAndErrorsInParent ctx resultEntry
      = { ctx with
          queryDeps := below ++
            [{ parent with
               dependencies := parent.dependencies ++ [resultEntry]
               errors := parent.errors ++ (ctx.results resultEntry).errors }] } := by
  unfold saveDependenciesAndErrorsInParent
  rw [h, getLast?_append_singleton, dropLast_append_singleton]
  by_cases he : (ctx.results resultEntry).errors.length > 0
  · simp only [he, if_true]
  · have hnil : (ctx.results resultEntry).errors = [] := by
      cases hl : (ctx.results resultEntry).errors with
      | nil => rfl
      | cons a l => rw [hl] at he; simp at he
    simp [hnil]

theorem endQueryHandleDependency_snoc (ctx : Context QM) (result : Ptr)
    (deeper : List QueryDepsEntry) (top : QueryDepsEntry)
    (h : ctx.queryDeps = deeper ++ [top]) :
    endQueryHandleDependency ctx result
      = some (saveDependenciesAndErrorsInParent
          { ctx with
            results := Function.update ctx.results result
              { ctx.results result with
                dependencies := top.dependencies, errors := top.errors }
            queryDeps := deeper } result) := by
  unfold endQueryHandleDependency
  rw [h, getLast?_append_singleton, dropLast_append_singleton]

/-- C29. On a stack `deeper ++ [top]`, `endQueryHandleDependency(result)` returns; the
result cell then has exactly the dependencies and errors of the top frame, in their
order, and its revision stamps as before; the other cells are unchanged; the stack is
one frame shorter; when no frame remains the stack is empty, and otherwise the frames
below the new top are unchanged and the new top has `result` appended as its last
dependency and the errors of `result` appended to its errors; nothing else changes. -/
theorem endQueryHandleDependency_bookkeeping (ctx : Context QM) (result : Ptr)
    (deeper : List QueryDepsEntry) (top : QueryDepsEntry)
    (h : ctx.queryDeps = deeper ++ [top]) :
    ∃ ctx1, endQueryHandleDependency ctx result = some ctx1
      ∧ (ctx1.results result).dependencies = top.dependencies
      ∧ (ctx1.results result).errors = top.errors
      ∧ (ctx1.results result).lastComputed = (ctx.results result).lastComputed
      ∧ (ctx1.results result).lastChanged = (ctx.results result).lastChanged
      ∧ (ctx1.results result).lastCheckedAndReused
          = (ctx.results result).lastCheckedAndReused
      ∧ (∀ c, c ≠ result → ctx1.results c = ctx.results c)
      ∧ ctx1.queryDeps.length + 1 = ctx.queryDeps.length
      ∧ (deeper = [] → ctx1.queryDeps = [])
      ∧ (∀ below parent, deeper = below ++ [parent] →
          ctx1.queryDeps = below ++
            [{ parent with
               dependencies := parent.dependencies ++ [result]
               errors := parent.errors ++ top.errors }])
      ∧ ctx1.uniqueStringsTable = ctx.uniqueStringsTable
      ∧ ctx1.queryDB = ctx.queryDB
      ∧ ctx1.currentRevisionNumber = ctx.currentRevisionNumber
      ∧ ctx1.lastPrepareToGCRevisionNumber = ctx.lastPrepareToGCRevisionNumber
      ∧ ctx1.gcCounter = ctx.gcCounter := by
  refine ⟨_, endQueryHandleDependency_snoc ctx result deeper top h, ?_⟩
  rcases List.eq_nil_or_concat deeper with hd | ⟨below, parent, hd⟩
  · subst hd
    rw [saveDependenciesAndErrorsInParent_nil _ _ rfl]
    refine ⟨?_, ?_, ?_, ?_, ?_, ?_, ?_, ?_, ?_, rfl, rfl, rfl, rfl, rfl⟩
    · simp
    · simp
    · simp
    · simp
    · simp
    · intro c hc
      simp [Function.update_noteq hc]
    · simp [h]
    · intro _; rfl
    · intro below parent hbp
      exact absurd hbp (by simp)
  · rw [List.concat_eq_append] at hd
    subst hd
    rw [saveDependenciesAndErrorsInParent_snoc _ _ below parent rfl]
    refine ⟨?_, ?_, ?_, ?_, ?_, ?_, ?_, ?_, ?_, rfl, rfl, rfl, rfl, rfl⟩
    · simp
    · simp
    · simp
    · simp
    · simp
    · intro c hc
      simp [Function.update_noteq hc]
    · simp [h]
    · intro hnil
      exact absurd hnil (by simp)
    · intro below1 parent1 hbp
      obtain ⟨hb, hp⟩ := List.append_inj' hbp rfl
      simp only [List.cons.injEq, and_true] at hp
      subst hb
      subst hp
      simp

/-- C29 on a stack of two frames: the parent frame of query 7 with one error, and the top
frame of query 8 that consulted the cells 1 and 2 and noted two errors. -/
theorem endQueryHandleDependency_bookkeeping_witness :
    ∃ ctx1, endQueryHandleDependency
        (exampleContext 2 [blankResult, blankResult, blankResult]
          [⟨7, [], ["p"]⟩, ⟨8, [1, 2], ["a", "b"]⟩]) 0 = some ctx1
      ∧ (ctx1.results 0).dependencies = [1, 2]
      ∧ (ctx1.results 0).errors = ["a", "b"]
      ∧ ctx1.queryDeps = [⟨7, [0], ["p", "a", "b"]⟩] := by
  obtain ⟨ctx1, h1, h2, h3, _, _, _, _, _, _, h4, _⟩ :=
    endQueryHandleDependency_bookkeeping
      (exampleContext 2 [blankResult, blankResult, blankResult]
        [⟨7, [], ["p"]⟩, ⟨8, [1, 2], ["a", "b"]⟩]) 0 [⟨7, [], ["p"]⟩] ⟨8, [1, 2], ["a", "b"]⟩ rfl
  exact ⟨ctx1, h1, h2, h3, h4 [] ⟨7, [], ["p"]⟩ rfl⟩

/-! ## Lemmas on edits below one symbol -/

theorem doAssignIDsChildren_append (a b : List ASTBase) (symbolPath : UniqueString)
    (i : Nat) (pathVec : List (UniqueString × Nat)) (duplicates : UniqueString → Option Nat) :
    doAssignIDsChildren (a ++ b) symbolPath i pathVec duplicates
      = ((doAssignIDsChildren a symbolPath i pathVec duplicates).1
          ++ (doAssignIDsChildren b symbolPath
              (doAssignIDsChildren a symbolPath i pathVec duplicates).2.1 pathVec
              (doAssignIDsChildren a symbolPath i pathVec duplicates).2.2).1,
         (doAssignIDsChildren b symbolPath
            (doAssignIDsChildren a symbolPath i pathVec duplicates).2.1 pathVec
            (doAssignIDsChildren a symbolPath i pathVec duplicates).2.2).2.1,
         (doAssignIDsChildren b symbolPath
            (doAssignIDsChildren a symbolPath i pathVec duplicates).2.1 pathVec
            (doAssignIDsChildren a symbolPath i pathVec duplicates).2.2).2.2) := by
  induction a generalizing i duplicates with
  | nil => simp [doAssignIDsChildren]
  | cons x rest ih =>
    rw [List.cons_append]
    simp only [doAssignIDsChildren, ih, List.cons_append]

theorem doAssignIDsChildren_edited (before after : List ASTBase) (t1 t2 : ASTBase)
    (symbolPath : UniqueString) (i : Nat) (pathVec : List (UniqueString × Nat))
    (duplicates : UniqueString → Option Nat)
    (h : ∀ j d, (doAssignIDs t1 symbolPath j pathVec d).2
      = (doAssignIDs t2 symbolPath j pathVec d).2) :
    ∃ before1 after1 j d,
      doAssignIDsChildren (before ++ t1 :: after) symbolPath i pathVec duplicates
        = (before1 ++ (doAssignIDs t1 symbolPath j pathVec d).1 :: after1,
           (doAssignIDsChildren (before ++ t1 :: after) symbolPath i pathVec duplicates).2)
      ∧ doAssignIDsChildren (before ++ t2 :: after) symbolPath i pathVec duplicates
        = (before1 ++ (doAssignIDs t2 symbolPath j pathVec d).1 :: after1,
           (doAssignIDsChildren (before ++ t1 :: after) symbolPath i pathVec duplicates).2)
      := by
  refine ⟨(doAssignIDsChildren before symbolPath i pathVec duplicates).1,
    (doAssignIDsChildren after symbolPath
      (doAssignIDs t1 symbolPath
        (doAssignIDsChildren before symbolPath i pathVec duplicates).2.1 pathVec
        (doAssignIDsChildren before symbolPath i pathVec duplicates).2.2).2.1 pathVec
      (doAssignIDs t1 symbolPath
        (doAssignIDsChildren before symbolPath i pathVec duplicates).2.1 pathVec
        (doAssignIDsChildren before symbolPath i pathVec duplicates).2.2).2.2).1,
    (doAssignIDsChildren before symbolPath i pathVec duplicates).2.1,
    (doAssignIDsChildren before symbolPath i pathVec duplicates).2.2, ?_, ?_⟩
  · rw [doAssignIDsChildren_append]
    simp only [doAssignIDsChildren]
  · rw [doAssignIDsChildren_append, doAssignIDsChildren_append]
    simp only [doAssignIDsChildren]
    rw [← h]

theorem doAssignIDs_edited {t1 t2 : ASTBase} (hedit : EditedBelowSymbol t1 t2) :
    ∀ (symbolPath : UniqueString) (i : Nat) (pathVec : List (UniqueString × Nat))
      (duplicates : UniqueString → Option Nat),
      SameOutsideSymbol (doAssignIDs t1 symbolPath i pathVec duplicates).1
          (doAssignIDs t2 symbolPath i pathVec duplicates).1
        ∧ (doAssignIDs t1 symbolPath i pathVec duplicates).2
          = (doAssignIDs t2 symbolPath i pathVec duplicates).2 := by
  induction hedit with
  | here tag id name visibility moduleKind symId children1 children2 =>
    intro symbolPath i pathVec duplicates
    refine ⟨?_, ?_⟩
    · simp only [doAssignIDs]
      refine SameOutsideSymbol.here _ _ _ _ ?_ ?_
      · rw [doAssignIDsSym_name, doAssignIDsSym_name]
        rfl
      · rw [doAssignIDsSym_path, doAssignIDsSym_path]
        rfl
    · simp only [doAssignIDs]
      rfl
  | inExp tag id before after _ ih =>
    intro symbolPath i pathVec duplicates
    obtain ⟨b1, a1, j, d, h1, h2⟩ := doAssignIDsChildren_edited before after _ _
      symbolPath i pathVec duplicates (fun j d => (ih symbolPath j pathVec d).2)
    simp only [doAssignIDs]
    rw [h2, h1]
    exact ⟨SameOutsideSymbol.inExp _ _ _ _ (ih symbolPath j pathVec d).1, rfl⟩
  | inSym tag id name visibility moduleKind symId before after _ ih =>
    intro symbolPath i pathVec duplicates
    obtain ⟨b1, a1, j, d, h1, h2⟩ := doAssignIDsChildren_edited before after _ _
      (pathStrOf (pathVec ++ [(name, nextRepeat duplicates name)])) 0
      (pathVec ++ [(name, nextRepeat duplicates name)]) (fun _ => none)
      (fun j d => (ih _ j _ d).2)
    simp only [doAssignIDs, doAssignIDsSym, Sym.name]
    rw [h2, h1]
    exact ⟨SameOutsideSymbol.inSym _ _ _ _ _ _ _ _ (ih _ j _ d).1, trivial⟩

theorem isModuleDecl_edited {t1 t2 : ASTBase} (hedit : EditedBelowSymbol t1 t2) :
    t2.isModuleDecl = t1.isModuleDecl := by
  cases hedit with
  | here tag id name visibility moduleKind symId children1 children2 => cases tag <;> rfl
  | inExp tag id before after h => rfl
  | inSym tag id name visibility moduleKind symId before after h => cases tag <;> rfl

theorem assignIDsLoop_append (a b : List ASTBase) (i : Nat)
    (duplicates : UniqueString → Option Nat) (ha : ∀ e ∈ a, e.isModuleDecl = true) :
    assignIDsLoop (a ++ b) i duplicates
      = (assignIDsLoop b (doAssignIDsChildren a [] i [] duplicates).2.1
          (doAssignIDsChildren a [] i [] duplicates).2.2).map
          (fun l => (doAssignIDsChildren a [] i [] duplicates).1 ++ l) := by
  induction a generalizing i duplicates with
  | nil =>
    simp only [List.nil_append, doAssignIDsChildren]
    cases assignIDsLoop b i duplicates <;> rfl
  | cons x rest ih =>
    have hx := ha x (List.mem_cons_self _ _)
    rw [List.cons_append]
    simp only [assignIDsLoop, doAssignIDsChildren]
    rw [if_pos hx, ih _ _ (fun e he => ha e (List.mem_cons_of_mem _ he))]
    cases assignIDsLoop b _ _ <;> rfl

theorem doAssignIDsChildren_length (children : List ASTBase) (symbolPath : UniqueString)
    (i : Nat) (pathVec : List (UniqueString × Nat)) (duplicates : UniqueString → Option Nat) :
    (doAssignIDsChildren children symbolPath i pathVec duplicates).1.length
      = children.length := by
  induction children generalizing i duplicates with
  | nil => rfl
  | cons x rest ih => simp only [doAssignIDsChildren, List.length_cons, ih]

/-- C22. For two lists of top-level modules that are identical except for the children of
one declared symbol, `assignIDs` returns on both, and the two results are equal, IDs
included, everywhere outside the subtree of that symbol: the top-level nodes before and
after the edited module are equal, and inside it every node outside the symbol, the
declaration node of the symbol and the later siblings with their symbols included; the
two symbol nodes keep the same name and path. -/
theorem edit_locality (b : Builder) (inferredModule : UniqueString)
    (before after : List ASTBase) (t1 t2 : ASTBase) (hedit : EditedBelowSymbol t1 t2)
    (hmods : ∀ e ∈ before ++ t1 :: after, e.isModuleDecl = true) :
    ∃ before1 after1 o1 o2,
      { b with topLevelExps_ := before ++ t1 :: after }.assignIDs inferredModule
        = some { b with topLevelExps_ := before1 ++ o1 :: after1 }
      ∧ { b with topLevelExps_ := before ++ t2 :: after }.assignIDs inferredModule
        = some { b with topLevelExps_ := before1 ++ o2 :: after1 }
      ∧ before1.length = before.length
      ∧ after1.length = after.length
      ∧ SameOutsideSymbol o1 o2 := by
  have hbefore : ∀ e ∈ before, e.isModuleDecl = true :=
    fun e he => hmods e (List.mem_append_left _ he)
  have ht1 : t1.isModuleDecl = true := hmods t1 (by simp)
  have ht2 : t2.isModuleDecl = true := by rw [isModuleDecl_edited hedit]; exact ht1
  have hafter : ∀ e ∈ after, e.isModuleDecl = true :=
    fun e he => hmods e (by simp [he])
  obtain ⟨hsame, hrest⟩ := doAssignIDs_edited hedit []
    (doAssignIDsChildren before [] 0 [] (fun _ => none)).2.1 []
    (doAssignIDsChildren before [] 0 [] (fun _ => none)).2.2
  obtain ⟨l, hl⟩ := assignIDsLoop_isSome after
    (doAssignIDs t1 [] (doAssignIDsChildren before [] 0 [] (fun _ => none)).2.1 []
      (doAssignIDsChildren before [] 0 [] (fun _ => none)).2.2).2.1
    (doAssignIDs t1 [] (doAssignIDsChildren before [] 0 [] (fun _ => none)).2.1 []
      (doAssignIDsChildren before [] 0 [] (fun _ => none)).2.2).2.2 hafter
  have hlen : l.length = after.length := by
    have h := congrArg List.length (assignIDsLoop_ids _ _ _ _ hl)
    simpa using h
  refine ⟨(doAssignIDsChildren before [] 0 [] (fun _ => none)).1, l, _, _, ?_, ?_,
    doAssignIDsChildren_length _ _ _ _ _, hlen, hsame⟩
  · unfold Builder.assignIDs
    show (assignIDsLoop (before ++ t1 :: after) 0 (fun _ => none)).map _ = _
    rw [assignIDsLoop_append _ _ _ _ hbefore]
    simp only [assignIDsLoop]
    rw [if_pos ht1, hl]
    rfl
  · unfold Builder.assignIDs
    show (assignIDsLoop (before ++ t2 :: after) 0 (fun _ => none)).map _ = _
    rw [assignIDsLoop_append _ _ _ _ hbefore]
    simp only [assignIDsLoop]
    rw [if_pos ht2, ← hrest, hl]
    rfl

/-- C22 on the module `M` with the functions `f` and `g`, once with an empty body of `f`
and once with a statement in it. -/
theorem edit_locality_witness :
    ∃ before1 after1 o1 o2,
      { exampleBuilder ['M', '.', 'c'] ['M'] [] with
          topLevelExps_ := [] ++ moduleWithBody [] :: [] }.assignIDs []
        = some { exampleBuilder ['M', '.', 'c'] ['M'] [] with
            topLevelExps_ := before1 ++ o1 :: after1 }
      ∧ { exampleBuilder ['M', '.', 'c'] ['M'] [] with
          topLevelExps_ := [] ++ moduleWithBody [.exp 9 none []] :: [] }.assignIDs []
        = some { exampleBuilder ['M', '.', 'c'] ['M'] [] with
            topLevelExps_ := before1 ++ o2 :: after1 }
      ∧ before1.length = ([] : List ASTBase).length
      ∧ after1.length = ([] : List ASTBase).length
      ∧ SameOutsideSymbol o1 o2 :=
  edit_locality (exampleBuilder ['M', '.', 'c'] ['M'] []) [] [] []
    (moduleWithBody []) (moduleWithBody [.exp 9 none []])
    (EditedBelowSymbol.inSym DeclTag.ModuleDecl none ['M'] Visibility.VISIBILITY_DEFAULT
      (some ModuleKind.DEFAULT_MODULE_KIND) none []
      [.exp 5 none [], exampleFunction ['g'] []]
      (EditedBelowSymbol.here (DeclTag.otherDecl 2) none ['f'] Visibility.VISIBILITY_DEFAULT
        none none [] [.exp 9 none []]))
    (fun e he => by
      rcases List.mem_cons.1 he with h | h
      · rw [h]; rfl
      · exact absurd h (List.not_mem_nil e))

/-! ## Lemmas on named queries -/

theorem find?_replaceOrAdd {α : Type} (p : α → Bool) (item : α) (l : List α)
    (hp : p item = true) : (replaceOrAdd p item l).find? p = some item := by
  induction l with
  | nil => simp [replaceOrAdd, hp]
  | cons x rest ih =>
    unfold replaceOrAdd
    by_cases hx : p x = true
    · rw [if_pos hx]
      simp [hp]
    · rw [if_neg hx]
      simp only [List.find?_cons]
      have hx2 : p x = false := by simpa using hx
      rw [hx2]
      exact ih

theorem storeResultForQuery_spec (ctx : Context QueryMap) (fresh : Ptr)
    (args : UniqueString) (result : List Char) (queryName : Nat) :
    ∃ cell,
      getResult (storeResultForQuery ctx fresh args result queryName).2 queryName args
        = some ⟨args, cell, result⟩
      ∧ ((storeResultForQuery ctx fresh args result queryName).2.results cell).lastComputed
        = ctx.currentRevisionNumber
      ∧ (storeResultForQuery ctx fresh args result queryName).2.currentRevisionNumber
        = ctx.currentRevisionNumber
      ∧ (storeResultForQuery ctx fresh args result queryName).2.queryDeps = ctx.queryDeps := by
  refine ⟨(((((ctx.queryDB.find? (fun m => m.1 == queryName)).map (fun m => m.2)).getD
    []).find? (fun e => e.args == args)).map (fun keep => keep.cell)).getD fresh,
    ?_, ?_, rfl, rfl⟩
  · unfold getResult storeResultForQuery
    dsimp only
    rw [find?_replaceOrAdd _ _ _ (by simp)]
    simp only [Option.some_bind]
    rw [find?_replaceOrAdd _ _ _ (by simp)]
  · unfold storeResultForQuery
    dsimp only
    rw [Function.update_same]
    cases List.find? (fun e => e.args == args)
      ((Option.map (fun m => m.2)
        (List.find? (fun m => m.1 == queryName) ctx.queryDB)).getD []) <;> rfl

/-- C25. After `setFilePathForModuleName(m, p)` on an empty active-query stack, which
returns and leaves the revision as it is, `filePathForModuleName(m)` returns `p` from the
saved result: the assertion is not reached and no frame is pushed (the context is
unchanged by the call). -/
theorem setFilePath_then_filePath (ctx : Context QueryMap) (fresh : Ptr)
    (modName path : UniqueString) (fuel : Nat) (hstack : ctx.queryDeps = []) :
    ∃ changed ctx1, setFilePathForModuleName ctx fresh modName path = some (changed, ctx1)
      ∧ ctx1.currentRevisionNumber = ctx.currentRevisionNumber
      ∧ filePathForModuleName (fuel + 1) ctx1 modName = some (path, ctx1)
      ∧ ctx1.queryDeps = [] := by
  obtain ⟨cell, hget, hcomp, hrev, hdeps⟩ := storeResultForQuery_spec ctx fresh modName path
    (queryNameKey "filePathForModuleName".toList)
  have hlen : ¬ ctx.queryDeps.length > 0 := by simp [hstack]
  refine ⟨(storeResultForQuery ctx fresh modName path
      (queryNameKey "filePathForModuleName".toList)).1,
    (storeResultForQuery ctx fresh modName path
      (queryNameKey "filePathForModuleName".toList)).2, ?_, hrev, ?_, hdeps.trans hstack⟩
  · unfold setFilePathForModuleName updateResultForQuery
    dsimp only
    rw [if_neg hlen]
  · unfold filePathForModuleName
    dsimp only
    rw [hget]
    have hfirst : ((storeResultForQuery ctx fresh modName path
          (queryNameKey "filePathForModuleName".toList)).2.results cell).lastComputed
        = (storeResultForQuery ctx fresh modName path
          (queryNameKey "filePathForModuleName".toList)).2.currentRevisionNumber :=
      hcomp.trans hrev.symm
    simp only [Option.map_some', queryCanUseSavedResultAndPushIfNot, queryCanUseSavedResult,
      hfirst, true_or, if_true]
    rw [saveDependenciesAndErrorsInParent_nil _ _ (hdeps.trans hstack)]

/-- C25 on a context at revision 3: the path `a.chpl` set for the module `A`. -/
theorem setFilePath_then_filePath_witness :
    ∃ changed ctx1, setFilePathForModuleName (exampleNamedQueries []) 0 ['A']
        ['a', '.', 'c', 'h', 'p', 'l'] = some (changed, ctx1)
      ∧ ctx1.currentRevisionNumber = (exampleNamedQueries []).currentRevisionNumber
      ∧ filePathForModuleName (0 + 1) ctx1 ['A']
          = some (['a', '.', 'c', 'h', 'p', 'l'], ctx1)
      ∧ ctx1.queryDeps = [] :=
  setFilePath_then_filePath (exampleNamedQueries []) 0 ['A']
    ['a', '.', 'c', 'h', 'p', 'l'] 0 rfl

/-- C26. In every context state whose active-query stack is not empty, `setFileText` and
`setFilePathForModuleName` fail at once, before any result cell or frame is written. -/
theorem setter_in_query_fails (ctx : Context QueryMap) (fresh : Ptr)
    (path : UniqueString) (data : List Char) (modName filePath : UniqueString)
    (hstack : ctx.queryDeps ≠ []) :
    setFileText ctx fresh path data = none
    ∧ setFilePathForModuleName ctx fresh modName filePath = none := by
  have hlen : ctx.queryDeps.length > 0 := List.length_pos.2 hstack
  constructor
  · unfold setFileText updateResultForQuery
    dsimp only
    rw [if_pos hlen]
  · unfold setFilePathForModuleName updateResultForQuery
    dsimp only
    rw [if_pos hlen]

/-- C26 inside the body of one query. -/
theorem setter_in_query_fails_witness :
    (exampleNamedQueries [⟨1, [], []⟩]).queryDeps ≠ []
    ∧ setFileText (exampleNamedQueries [⟨1, [], []⟩]) 0 ['a', '.', 'c'] ['x'] = none
    ∧ setFilePathForModuleName (exampleNamedQueries [⟨1, [], []⟩]) 0 ['A'] ['a', '.', 'c']
        = none :=
  ⟨List.cons_ne_nil _ _,
   setter_in_query_fails (exampleNamedQueries [⟨1, [], []⟩]) 0 ['a', '.', 'c'] ['x'] ['A']
     ['a', '.', 'c'] (List.cons_ne_nil _ _)⟩

/-- C28, the code on the failing input: for the file `a.b.chpl` with one top-level
variable `x` the builder makes the implicit module `a.b`, yet `moduleNameForID` of the ID
of the declaration of `x` and of the ID of its symbol, both inside that module, is `a`. -/
theorem moduleNameForID_dotted_module :
    (((Builder.build ['a', '.', 'b', '.', 'c', 'h', 'p', 'l']).addToplevelExp
        (exampleVariable ['x'])).result.map (fun r => r.1.topLevelExps))
      = some [ASTBase.decl DeclTag.ModuleDecl (some ⟨[], 0, 0⟩)
          (Sym.mk ['a', '.', 'b'] Visibility.VISIBILITY_DEFAULT (some ModuleKind.IMPLICIT)
            (some ⟨['a', '.', 'b'], 1, 1⟩)
            [ASTBase.decl (DeclTag.otherDecl 1) (some ⟨['a', '.', 'b'], 0, 0⟩)
              (Sym.mk ['x'] Visibility.VISIBILITY_DEFAULT none
                (some ⟨['a', '.', 'b', '.', 'x'], 0, 0⟩) [])])]
    ∧ moduleNameForID ⟨['a', '.', 'b'], 0, 0⟩ = ['a']
    ∧ moduleNameForID ⟨['a', '.', 'b', '.', 'x'], 0, 0⟩ = ['a'] := by
  refine ⟨rfl, rfl, rfl⟩

/-! ## Lemmas on the errors of a query body -/

theorem queryNoteError_snoc (ctx : Context QM) (error : ErrorMessage)
    (below : List QueryDepsEntry) (top : QueryDepsEntry)
    (h : ctx.queryDeps = below ++ [top]) :
    queryNoteError ctx error
      = some { ctx with
          queryDeps := below ++ [{ top with errors := top.errors ++ [error] }] } := by
  unfold queryNoteError
  rw [h, getLast?_append_singleton, dropLast_append_singleton]

theorem errorsCovered_extend (results results1 : Ptr → QueryMapResultBase)
    (lower : List QueryDepsEntry) (top top1 : QueryDepsEntry) (newdeps : List Ptr)
    (hdeps : top1.dependencies = top.dependencies ++ newdeps)
    (herrs : top.errors <+: top1.errors)
    (hnew : ∀ c ∈ newdeps, (results1 c).errors <:+: top1.errors)
    (hres : ∀ c, results1 c = results c ∨ (results1 c).errors <:+: top1.errors)
    (h : ErrorsCovered results (lower ++ [top])) :
    ErrorsCovered results1 (lower ++ [top1]) := by
  intro F hF c hc
  have htop1 : top1 ∈ lower ++ [top1] := by simp
  rcases hres c with hsame | hcov
  · have hold : ∃ F0 ∈ lower ++ [top], c ∈ F0.dependencies ∨ c ∈ newdeps := by
      rcases List.mem_append.1 hF with hl | ht
      · exact ⟨F, List.mem_append_left _ hl, Or.inl hc⟩
      · have hFe : F = top1 := by simpa using ht
        rw [hFe, hdeps] at hc
        rcases List.mem_append.1 hc with h1 | h2
        · exact ⟨top, by simp, Or.inl h1⟩
        · exact ⟨top, by simp, Or.inr h2⟩
    obtain ⟨F0, hF0, hc0⟩ := hold
    rcases hc0 with hc0 | hc0
    · obtain ⟨G, hG, hinf⟩ := h F0 hF0 c hc0
      rw [hsame]
      rcases List.mem_append.1 hG with hl | ht
      · exact ⟨G, List.mem_append_left _ hl, hinf⟩
      · have hGe : G = top := by simpa using ht
        rw [hGe] at hinf
        exact ⟨top1, htop1, hinf.trans herrs.isInfix⟩
    · exact ⟨top1, htop1, hnew c hc0⟩
  · exact ⟨top1, htop1, hcov⟩

theorem errorsCovered_pop (results : Ptr → QueryMapResultBase)
    (lower : List QueryDepsEntry) (top child : QueryDepsEntry) (c : Ptr)
    (h : ErrorsCovered results (lower ++ [top] ++ [child])) :
    ErrorsCovered
      (Function.update results c
        { results c with dependencies := child.dependencies, errors := child.errors })
      (lower ++ [{ top with
        dependencies := top.dependencies ++ [c]
        errors := top.errors ++ child.errors }]) := by
  intro F hF x hx
  have htop1 : ({ top with
        dependencies := top.dependencies ++ [c]
        errors := top.errors ++ child.errors } : QueryDepsEntry)
      ∈ lower ++ [{ top with
        dependencies := top.dependencies ++ [c]
        errors := top.errors ++ child.errors }] := by simp
  by_cases hxc : x = c
  · subst hxc
    refine ⟨_, htop1, ?_⟩
    rw [Function.update_same]
    exact (List.suffix_append _ _).isInfix
  · rw [Function.update_noteq hxc]
    have hold : ∃ F0 ∈ lower ++ [top] ++ [child], x ∈ F0.dependencies := by
      rcases List.mem_append.1 hF with hl | ht
      · exact ⟨F, by simp [hl], hx⟩
      · have hFe : F = { top with
            dependencies := top.dependencies ++ [c]
            errors := top.errors ++ child.errors } := by simpa using ht
        rw [hFe] at hx
        rcases List.mem_append.1 hx with h1 | h2
        · exact ⟨top, by simp, h1⟩
        · exact absurd (by simpa using h2) hxc
    obtain ⟨F0, hF0, hx0⟩ := hold
    obtain ⟨G, hG, hinf⟩ := h F0 hF0 x hx0
    rcases List.mem_append.1 hG with hlt | hch
    · rcases List.mem_append.1 hlt with hl | ht
      · exact ⟨G, List.mem_append_left _ hl, hinf⟩
      · have hGe : G = top := by simpa using ht
        rw [hGe] at hinf
        exact ⟨_, htop1, hinf.trans (List.prefix_append _ _).isInfix⟩
    · have hGe : G = child := by simpa using hch
      rw [hGe] at hinf
      exact ⟨_, htop1, hinf.trans (List.suffix_append _ _).isInfix⟩

theorem errorsCovered_push (results : Ptr → QueryMapResultBase)
    (frames : List QueryDepsEntry) (queryName : Nat)
    (h : ErrorsCovered results frames) :
    ErrorsCovered results (frames ++ [⟨queryName, [], []⟩]) := by
  intro F hF c hc
  rcases List.mem_append.1 hF with hl | ht
  · obtain ⟨G, hG, hinf⟩ := h F hl c hc
    exact ⟨G, List.mem_append_left _ hG, hinf⟩
  · have hFe : F = ⟨queryName, [], []⟩ := by simpa using ht
    rw [hFe] at hc
    exact absurd hc (List.not_mem_nil c)

mutual
theorem runBodyOp_covered : ∀ (op : BodyOp) (ctx : Context QM)
    (base lower : List QueryDepsEntry) (top : QueryDepsEntry),
    ctx.queryDeps = base ++ (lower ++ [top]) →
    ErrorsCovered ctx.results (lower ++ [top]) →
    ∃ ctx1 top1, runBodyOp op ctx = some ctx1
      ∧ ctx1.queryDeps = base ++ (lower ++ [top1])
      ∧ ErrorsCovered ctx1.results (lower ++ [top1])
      ∧ top1.dependencies = top.dependencies ++ op.consulted
      ∧ ∃ added, top1.errors = top.errors ++ added ∧ List.Sublist op.directErrors added
  | .noteError error, ctx, base, lower, top, hstack, hcov => by
    have hstack2 : ctx.queryDeps = (base ++ lower) ++ [top] := by
      rw [hstack, List.append_assoc]
    refine ⟨{ ctx with
        queryDeps := (base ++ lower) ++ [{ top with errors := top.errors ++ [error] }] },
      { top with errors := top.errors ++ [error] }, ?_, ?_, ?_, ?_, [error], rfl,
      List.Sublist.refl _⟩
    · simp only [runBodyOp]
      exact queryNoteError_snoc ctx error _ top hstack2
    · simp
    · exact errorsCovered_extend ctx.results ctx.results lower top _ [] (by simp)
        (List.prefix_append _ _) (fun c hc => absurd hc (List.not_mem_nil c))
        (fun c => Or.inl rfl) hcov
    · simp [BodyOp.consulted]
  | .reuseChild child, ctx, base, lower, top, hstack, hcov => by
    have hstack2 : ctx.queryDeps = (base ++ lower) ++ [top] := by
      rw [hstack, List.append_assoc]
    refine ⟨{ ctx with
        queryDeps := (base ++ lower) ++ [{ top with
          dependencies := top.dependencies ++ [child]
          errors := top.errors ++ (ctx.results child).errors }] },
      { top with
        dependencies := top.dependencies ++ [child]
        errors := top.errors ++ (ctx.results child).errors }, ?_, ?_, ?_, ?_,
      (ctx.results child).errors, rfl, List.nil_sublist _⟩
    · simp only [runBodyOp]
      rw [saveDependenciesAndErrorsInParent_snoc ctx child _ top hstack2]
    · simp
    · refine errorsCovered_extend ctx.results ctx.results lower top _ [child] rfl
        (List.prefix_append _ _) ?_ (fun c => Or.inl rfl) hcov
      intro c hc
      have hce : c = child := by simpa using hc
      rw [hce]
      exact (List.suffix_append _ _).isInfix
    · rfl
  | .computeChild queryName child body, ctx, base, lower, top, hstack, hcov => by
    have hpush : ({ ctx with queryDeps := ctx.queryDeps ++ [⟨queryName, [], []⟩] } :
        Context QM).queryDeps = base ++ ((lower ++ [top]) ++ [⟨queryName, [], []⟩]) := by
      show ctx.queryDeps ++ [⟨queryName, [], []⟩] = _
      rw [hstack, List.append_assoc]
    obtain ⟨ctx1, frame, hrun, hstack1, hcov1, _, _⟩ :=
      runBody_covered body { ctx with queryDeps := ctx.queryDeps ++ [⟨queryName, [], []⟩] }
        base (lower ++ [top]) ⟨queryName, [], []⟩ hpush
        (errorsCovered_push ctx.results _ queryName hcov)
    have hstack1a : ctx1.queryDeps = (base ++ (lower ++ [top])) ++ [frame] := by
      rw [hstack1]
      simp only [List.append_assoc]
    refine ⟨{ ctx1 with
        results := Function.update ctx1.results child
          { ctx1.results child with
            dependencies := frame.dependencies, errors := frame.errors }
        queryDeps := (base ++ lower) ++ [{ top with
          dependencies := top.dependencies ++ [child]
          errors := top.errors ++ frame.errors }] },
      { top with
        dependencies := top.dependencies ++ [child]
        errors := top.errors ++ frame.errors }, ?_, ?_, ?_, ?_,
      frame.errors, rfl, List.nil_sublist _⟩
    · simp only [runBodyOp, hrun]
      rw [endQueryHandleDependency_snoc ctx1 child _ frame hstack1a,
        saveDependenciesAndErrorsInParent_snoc _ child (base ++ lower) top
          (by simp [List.append_assoc])]
      simp
    · simp
    · exact errorsCovered_pop ctx1.results lower top frame child hcov1
    · rfl
theorem runBody_covered : ∀ (ops : List BodyOp) (ctx : Context QM)
    (base lower : List QueryDepsEntry) (top : QueryDepsEntry),
    ctx.queryDeps = base ++ (lower ++ [top]) →
    ErrorsCovered ctx.results (lower ++ [top]) →
    ∃ ctx1 top1, runBody ops ctx = some ctx1
      ∧ ctx1.queryDeps = base ++ (lower ++ [top1])
      ∧ ErrorsCovered ctx1.results (lower ++ [top1])
      ∧ top1.dependencies = top.dependencies ++ consultedBy ops
      ∧ ∃ added, top1.errors = top.errors ++ added
          ∧ List.Sublist (directErrorsOf ops) added
  | [], ctx, base, lower, top, hstack, hcov =>
    ⟨ctx, top, rfl, hstack, hcov, by simp [consultedBy], [], by simp,
      by simp [directErrorsOf]⟩
  | op :: rest, ctx, base, lower, top, hstack, hcov => by
    obtain ⟨ctx1, top1, hrun1, hstack1, hcov1, hdeps1, added1, herr1, hsub1⟩ :=
      runBodyOp_covered op ctx base lower top hstack hcov
    obtain ⟨ctx2, top2, hrun2, hstack2, hcov2, hdeps2, added2, herr2, hsub2⟩ :=
      runBody_covered rest ctx1 base lower top1 hstack1 hcov1
    refine ⟨ctx2, top2, ?_, hstack2, hcov2, ?_, added1 ++ added2, ?_, ?_⟩
    · simp only [runBody, hrun1, hrun2]
    · rw [hdeps2, hdeps1, List.append_assoc]
      rfl
    · rw [herr2, herr1, List.append_assoc]
    · exact List.Sublist.append hsub1 hsub2
end

/-- C24. For a query whose frame was pushed on any stack and whose body then does any
sequence of steps (errors noted, children reused, children computed with bodies of their
own), the body runs to its end and `endQueryHandleDependency(result)` returns; the
dependency list then stored on the result cell is the list of the children consulted, in
their order; the stored error list contains the errors noted directly in the body, in
their order; and for every cell in the stored dependency list the errors of that cell
are a contiguous part of the stored error list, in their order. -/
theorem errors_accumulate (ctx : Context QM) (queryName : Nat) (result : Ptr)
    (body : List BodyOp) :
    ∃ ctx1 ctx2,
      runBody body { ctx with queryDeps := ctx.queryDeps ++ [⟨queryName, [], []⟩] }
        = some ctx1
      ∧ endQueryHandleDependency ctx1 result = some ctx2
      ∧ (ctx2.results result).dependencies = consultedBy body
      ∧ List.Sublist (directErrorsOf body) (ctx2.results result).errors
      ∧ ∀ c ∈ (ctx2.results result).dependencies,
          (ctx2.results c).errors <:+: (ctx2.results result).errors := by
  obtain ⟨ctx1, top1, hrun, hstack, hcov, hdeps, added, herr, hsub⟩ :=
    runBody_covered body { ctx with queryDeps := ctx.queryDeps ++ [⟨queryName, [], []⟩] }
      ctx.queryDeps [] ⟨queryName, [], []⟩ rfl
      (errorsCovered_push ctx.results [] queryName
        (fun F hF => absurd hF (List.not_mem_nil F)))
  have hstack1 : ctx1.queryDeps = ctx.queryDeps ++ [top1] := by simpa using hstack
  have hres : ∀ c, ((saveDependenciesAndErrorsInParent
      { ctx1 with
        results := Function.update ctx1.results result
          { ctx1.results result with
            dependencies := top1.dependencies, errors := top1.errors }
        queryDeps := ctx.queryDeps } result).results c)
      = Function.update ctx1.results result
          { ctx1.results result with
            dependencies := top1.dependencies, errors := top1.errors } c := by
    intro c
    rw [(saveDependenciesAndErrorsInParent_results _ _).1]
  refine ⟨ctx1, saveDependenciesAndErrorsInParent
      { ctx1 with
        results := Function.update ctx1.results result
          { ctx1.results result with
            dependencies := top1.dependencies, errors := top1.errors }
        queryDeps := ctx.queryDeps } result, hrun,
    endQueryHandleDependency_snoc ctx1 result _ top1 hstack1, ?_, ?_, ?_⟩
  · rw [hres, Function.update_same]
    simpa using hdeps
  · rw [hres, Function.update_same]
    show List.Sublist (directErrorsOf body) top1.errors
    rw [herr]
    simpa using hsub
  · intro c hc
    rw [hres result, Function.update_same] at hc ⊢
    by_cases hcr : c = result
    · rw [hcr, hres, Function.update_same]
    · rw [hres c, Function.update_noteq hcr]
      obtain ⟨G, hG, hinf⟩ := hcov top1 (by simp) c hc
      have hGe : G = top1 := by simpa using hG
      rw [hGe] at hinf
      exact hinf

/-- C24 on a body that notes `a`, reuses cell 1 with its error `r`, computes cell 2
(whose body notes `c` and reuses cell 1) and notes `b`, for the query of cell 0. -/
theorem errors_accumulate_witness :
    ∃ ctx1 ctx2,
      runBody exampleBody
        { exampleContext 2 [blankResult, ⟨1, 1, 1, [], ["r"]⟩, blankResult] [] with
          queryDeps := (exampleContext 2 [blankResult, ⟨1, 1, 1, [], ["r"]⟩, blankResult]
            []).queryDeps ++ [⟨7, [], []⟩] }
        = some ctx1
      ∧ endQueryHandleDependency ctx1 0 = some ctx2
      ∧ (ctx2.results 0).dependencies = consultedBy exampleBody
      ∧ List.Sublist (directErrorsOf exampleBody) (ctx2.results 0).errors
      ∧ ∀ c ∈ (ctx2.results 0).dependencies,
          (ctx2.results c).errors <:+: (ctx2.results 0).errors :=
  errors_accumulate (exampleContext 2 [blankResult, ⟨1, 1, 1, [], ["r"]⟩, blankResult] [])
    7 0 exampleBody

/-- C31. On every acyclic dependency graph of result cells (`rank` decreases along every
dependency edge; enough fuel for the rank of `c`) `queryCanUseSavedResult(c)` returns.
Afterwards every member of the context other than the result cells is unchanged, and of
every cell the dependency list, the error list, `lastComputed` and `lastChanged` are
unchanged (the memoized values are not reached by `Context.cpp`); `lastCheckedAndReused`
is unchanged or is the current revision, the latter only on a cell on which the call
returns `true`. -/
theorem queryCanUseSavedResult_writes (ctx : Context QM) (rank : Ptr → Nat) (fuel : Nat)
    (c : Option Ptr) (hacyclic : Acyclic ctx rank)
    (hfuel : ∀ p, c = some p → rank p < fuel) :
    ∃ b ctx1, queryCanUseSavedResult fuel ctx c = some (b, ctx1)
      ∧ SameOutsideResults ctx ctx1
      ∧ ∀ p, (ctx1.results p).dependencies = (ctx.results p).dependencies
          ∧ (ctx1.results p).errors = (ctx.results p).errors
          ∧ (ctx1.results p).lastComputed = (ctx.results p).lastComputed
          ∧ (ctx1.results p).lastChanged = (ctx.results p).lastChanged
          ∧ ((ctx1.results p).lastCheckedAndReused = (ctx.results p).lastCheckedAndReused
            ∨ ((ctx1.results p).lastCheckedAndReused = ctx.currentRevisionNumber
              ∧ ∀ fuel1, rank p < fuel1 →
                  ∃ ctx2, queryCanUseSavedResult fuel1 ctx (some p) = some (true, ctx2))) := by
  obtain ⟨b, ctx1, hrun, hm⟩ := queryCanUseSavedResult_marked rank fuel ctx c hacyclic hfuel
  refine ⟨b, ctx1, hrun, hm.1, fun p => ⟨hm.dependencies p, hm.errors p, hm.lastComputed p,
    hm.lastChanged p, ?_⟩⟩
  rcases hm.2 p with e | ⟨e, hr⟩
  · left
    rw [e]
  · right
    refine ⟨by rw [e], ?_⟩
    intro fuel1 hfuel1
    obtain ⟨b2, ctx2, hrun2, _, hb2, _⟩ :=
      queryCanUseSavedResult_spec rank fuel1 ctx p hacyclic hfuel1
    have hb : b2 = true := hb2.2 hr
    rw [hb] at hrun2
    exact ⟨ctx2, hrun2⟩

/-- C31 on the example graph `graphReusable`, where the call on cell 0 stamps the cells 1
and 0. -/
theorem queryCanUseSavedResult_writes_witness :
    ∃ b ctx1, queryCanUseSavedResult 4 graphReusable (some 0) = some (b, ctx1)
      ∧ SameOutsideResults graphReusable ctx1
      ∧ ∀ p, (ctx1.results p).dependencies = (graphReusable.results p).dependencies
          ∧ (ctx1.results p).errors = (graphReusable.results p).errors
          ∧ (ctx1.results p).lastComputed = (graphReusable.results p).lastComputed
          ∧ (ctx1.results p).lastChanged = (graphReusable.results p).lastChanged
          ∧ ((ctx1.results p).lastCheckedAndReused
              = (graphReusable.results p).lastCheckedAndReused
            ∨ ((ctx1.results p).lastCheckedAndReused = graphReusable.currentRevisionNumber
              ∧ ∀ fuel1, exampleRank 3 p < fuel1 →
                  ∃ ctx2, queryCanUseSavedResult fuel1 graphReusable (some p)
                    = some (true, ctx2))) :=
  queryCanUseSavedResult_writes graphReusable (exampleRank 3) 4 (some 0)
    (acyclic_exampleContext _ _ _ (by decide))
    (by intro p hp; cases hp; decide)

theorem isModuleDecl_doAssignIDs (ast : ASTBase) (symbolPath : UniqueString) (i : Nat)
    (pathVec : List (UniqueString × Nat)) (duplicates : UniqueString → Option Nat) :
    (doAssignIDs ast symbolPath i pathVec duplicates).1.isModuleDecl = ast.isModuleDecl := by
  cases ast with
  | comment id => simp only [doAssignIDs]
  | exp tag id children => simp only [doAssignIDs, ASTBase.isModuleDecl]
  | decl tag id sym => cases tag <;> simp only [doAssignIDs, ASTBase.isModuleDecl]

theorem assignIDsLoop_isModuleDecl (exps : List ASTBase) (i : Nat)
    (duplicates : UniqueString → Option Nat) (out : List ASTBase)
    (h : assignIDsLoop exps i duplicates = some out) :
    ∀ e ∈ out, e.isModuleDecl = true := by
  induction exps generalizing i duplicates out with
  | nil =>
    simp only [assignIDsLoop, Option.some.injEq] at h
    subst h
    exact fun e he => absurd he (List.not_mem_nil e)
  | cons x rest ih =>
    simp only [assignIDsLoop] at h
    by_cases hx : x.isModuleDecl = true
    · rw [if_pos hx] at h
      cases hrest : assignIDsLoop rest (doAssignIDs x [] i [] duplicates).2.1
          (doAssignIDs x [] i [] duplicates).2.2 with
      | none => rw [hrest] at h; exact absurd h (by simp)
      | some l =>
        rw [hrest] at h
        simp only [Option.map_some', Option.some.injEq] at h
        subst h
        intro e he
        rcases List.mem_cons.1 he with he | he
        · rw [he, isModuleDecl_doAssignIDs]
          exact hx
        · exact ih _ _ _ hrest e he
    · rw [if_neg hx] at h
      exact absurd h (by simp)

/-- C33. For every builder, whatever top-level expressions were added to it, after
`createImplicitModuleIfNeeded` every top-level expression is a module declaration, and
`Builder::result` returns without reaching the assertion of `assignIDs`: the result has
the errors of the builder and as many top-level expressions as the list after the
wrapping step, each a module declaration, and the lists of the builder are empty
afterwards. -/
theorem result_returns (b : Builder) :
    (∀ e ∈ b.createImplicitModuleIfNeeded.2.topLevelExps_, e.isModuleDecl = true)
    ∧ ∃ r b1, b.result = some (r, b1)
        ∧ r.errors = b.errors_
        ∧ r.topLevelExps.length = b.createImplicitModuleIfNeeded.2.topLevelExps_.length
        ∧ (∀ e ∈ r.topLevelExps, e.isModuleDecl = true)
        ∧ b1.topLevelExps_ = [] ∧ b1.errors_ = [] ∧ b1.locations_ = [] := by
  have hmods : ∀ e ∈ b.createImplicitModuleIfNeeded.2.topLevelExps_,
      e.isModuleDecl = true := by
    by_cases h : NeedsImplicitModule b.topLevelExps_
    · rw [createImplicitModuleIfNeeded_wraps b h]
      intro e he
      have hee : e = implicitModuleOf b b.topLevelExps_ := by simpa using he
      rw [hee]
      rfl
    · rw [createImplicitModuleIfNeeded_keeps b h]
      intro e he
      by_contra hne
      exact h (Or.inr ⟨e, he, by simpa using hne⟩)
  have herrors : b.createImplicitModuleIfNeeded.2.errors_ = b.errors_ := by
    by_cases h : NeedsImplicitModule b.topLevelExps_
    · rw [createImplicitModuleIfNeeded_wraps b h]
    · rw [createImplicitModuleIfNeeded_keeps b h]
  refine ⟨hmods, ?_⟩
  obtain ⟨out, hout⟩ := assignIDsLoop_isSome b.createImplicitModuleIfNeeded.2.topLevelExps_ 0
    (fun _ => none) hmods
  have hlen : out.length = b.createImplicitModuleIfNeeded.2.topLevelExps_.length := by
    have h := congrArg List.length (assignIDsLoop_ids _ _ _ _ hout)
    simpa using h
  have hout_mods : ∀ e ∈ out, e.isModuleDecl = true :=
    assignIDsLoop_isModuleDecl _ _ _ _ hout
  refine ⟨⟨out, b.createImplicitModuleIfNeeded.2.errors_,
      b.createImplicitModuleIfNeeded.2.locations_⟩,
    { b.createImplicitModuleIfNeeded.2 with
      topLevelExps_ := [], errors_ := [], locations_ := [] }, ?_, herrors, hlen, hout_mods,
    rfl, rfl, rfl⟩
  unfold Builder.result Builder.assignIDs
  simp only [hout, Option.map_some']

/-! ## Lemmas on the text of a path -/

theorem digitChar_ne_dot (d : Nat) (hd : d < 10) : Nat.digitChar d ≠ '.' := by
  interval_cases d <;> decide

theorem toDigitsCore_ne_dot (fuel : Nat) : ∀ (n : Nat) (ds : List Char),
    (∀ c ∈ ds, c ≠ '.') → ∀ c ∈ Nat.toDigitsCore 10 fuel n ds, c ≠ '.' := by
  induction fuel with
  | zero => intro n ds hds; simpa [Nat.toDigitsCore] using hds
  | succ fuel ih =>
    intro n ds hds
    have hcons : ∀ c ∈ Nat.digitChar (n % 10) :: ds, c ≠ '.' := by
      intro c hc
      rcases List.mem_cons.1 hc with h | h
      · rw [h]; exact digitChar_ne_dot _ (Nat.mod_lt _ (by decide))
      · exact hds c h
    unfold Nat.toDigitsCore
    by_cases h0 : n / 10 = 0
    · simp only [h0, if_true]
      exact hcons
    · simp only [h0, if_false]
      exact ih _ _ hcons

theorem not_mem_repeatSuffix_dot (k : Nat) : '.' ∉ repeatSuffix k := by
  unfold repeatSuffix
  by_cases hk : k = 0
  · simp [hk]
  · rw [if_neg hk]
    intro h
    rcases List.mem_cons.1 h with h | h
    · exact absurd h (by decide)
    · exact toDigitsCore_ne_dot _ _ [] (fun c hc => absurd hc (List.not_mem_nil c)) _ h rfl

theorem digitChar_value (d : Nat) (hd : d < 10) : (Nat.digitChar d).toNat - 48 = d := by
  interval_cases d <;> rfl

theorem digitsValue_append (l : List Char) (c : Char) :
    digitsValue (l ++ [c]) = digitsValue l * 10 + (c.toNat - 48) := by
  unfold digitsValue
  rw [List.foldl_append]
  rfl

theorem toDigitsCore_value (fuel : Nat) : ∀ (n : Nat) (ds : List Char), n < fuel →
    ∃ l, Nat.toDigitsCore 10 fuel n ds = l ++ ds ∧ digitsValue l = n := by
  induction fuel with
  | zero => intro n ds h; exact absurd h (Nat.not_lt_zero _)
  | succ fuel ih =>
    intro n ds hn
    unfold Nat.toDigitsCore
    by_cases h0 : n / 10 = 0
    · simp only [h0, if_true]
      refine ⟨[Nat.digitChar (n % 10)], rfl, ?_⟩
      have hlt : n < 10 := by
        by_contra hge
        have : 1 ≤ n / 10 := by
          rw [Nat.le_div_iff_mul_le (by decide)]
          omega
        omega
      have := digitsValue_append [] (Nat.digitChar (n % 10))
      simp only [List.nil_append] at this
      rw [this, digitChar_value _ (Nat.mod_lt _ (by decide))]
      simp only [digitsValue, List.foldl_nil]
      omega
    · simp only [h0, if_false]
      have hlt : n / 10 < fuel := by
        have : n / 10 < n := Nat.div_lt_self (by omega) (by decide)
        omega
      obtain ⟨l, hl, hv⟩ := ih (n / 10) (Nat.digitChar (n % 10) :: ds) hlt
      refine ⟨l ++ [Nat.digitChar (n % 10)], by rw [hl]; simp, ?_⟩
      rw [digitsValue_append, hv, digitChar_value _ (Nat.mod_lt _ (by decide))]
      omega

theorem toDigits_injective (k1 k2 : Nat) (h : Nat.toDigits 10 k1 = Nat.toDigits 10 k2) :
    k1 = k2 := by
  obtain ⟨l1, h1, v1⟩ := toDigitsCore_value (k1 + 1) k1 [] (Nat.lt_succ_self _)
  obtain ⟨l2, h2, v2⟩ := toDigitsCore_value (k2 + 1) k2 [] (Nat.lt_succ_self _)
  unfold Nat.toDigits at h
  rw [h1, h2] at h
  simp only [List.append_nil] at h
  rw [← v1, ← v2, h]

theorem repeatSuffix_injective (k1 k2 : Nat) (h : repeatSuffix k1 = repeatSuffix k2) :
    k1 = k2 := by
  unfold repeatSuffix at h
  by_cases h1 : k1 = 0
  · by_cases h2 : k2 = 0
    · rw [h1, h2]
    · rw [if_pos h1, if_neg h2] at h
      exact absurd h (by simp)
  · by_cases h2 : k2 = 0
    · rw [if_neg h1, if_pos h2] at h
      exact absurd h (by simp)
    · rw [if_neg h1, if_neg h2] at h
      exact toDigits_injective _ _ (List.cons.inj h).2

theorem repeatSuffix_head (k : Nat) :
    repeatSuffix k = [] ∨ (repeatSuffix k).head? = some '#' := by
  unfold repeatSuffix
  by_cases hk : k = 0
  · left; rw [if_pos hk]
  · right; rw [if_neg hk]; rfl

theorem takeWhile_append_of_stop (d : Char) (a t : List Char) (ha : d ∉ a)
    (ht : t = [] ∨ t.head? = some d) :
    (a ++ t).takeWhile (fun c => c != d) = a := by
  induction a with
  | nil =>
    rcases ht with h | h
    · rw [h]; rfl
    · cases t with
      | nil => rfl
      | cons x rest =>
        have hx : x = d := by simpa using h
        simp [hx]
  | cons x rest ih =>
    have hx : x ≠ d := fun e => ha (by simp [e])
    have hrest : d ∉ rest := fun e => ha (List.mem_cons_of_mem _ e)
    have : (x != d) = true := by simpa using hx
    rw [List.cons_append, List.takeWhile_cons, if_pos this, ih hrest]

theorem append_stop_injective (d : Char) (a1 a2 t1 t2 : List Char)
    (h1 : d ∉ a1) (h2 : d ∉ a2)
    (ht1 : t1 = [] ∨ t1.head? = some d) (ht2 : t2 = [] ∨ t2.head? = some d)
    (h : a1 ++ t1 = a2 ++ t2) : a1 = a2 ∧ t1 = t2 := by
  have ha : a1 = a2 := by
    rw [← takeWhile_append_of_stop d a1 t1 h1 ht1, ← takeWhile_append_of_stop d a2 t2 h2 ht2, h]
  subst ha
  exact ⟨rfl, List.append_cancel_left h⟩

theorem renderComponent_injective (c1 c2 : UniqueString × Nat)
    (h1 : PlainName c1.1) (h2 : PlainName c2.1)
    (h : renderComponent c1 = renderComponent c2) : c1 = c2 := by
  unfold renderComponent at h
  obtain ⟨hn, hs⟩ := append_stop_injective '#' _ _ _ _ h1.2.2 h2.2.2
    (repeatSuffix_head _) (repeatSuffix_head _) h
  exact Prod.ext hn (repeatSuffix_injective _ _ hs)

theorem not_mem_renderComponent_dot (c : UniqueString × Nat) (h : PlainName c.1) :
    '.' ∉ renderComponent c := by
  unfold renderComponent
  intro hm
  rcases List.mem_append.1 hm with e | e
  · exact h.2.1 e
  · exact not_mem_repeatSuffix_dot _ e

theorem appendPathComponents_acc (pathVec : List (UniqueString × Nat)) (first : Bool)
    (acc : List Char) (hfirst : first = false ∨ acc = []) :
    appendPathComponents pathVec first acc
      = acc ++ appendPathComponents pathVec first [] := by
  induction pathVec generalizing first acc with
  | nil => simp [appendPathComponents]
  | cons p rest ih =>
    obtain ⟨name, k⟩ := p
    rcases hfirst with hf | ha
    · subst hf
      have hl : appendPathComponents ((name, k) :: rest) false acc
          = appendPathComponents rest false
              (acc ++ ['.'] ++ renderComponent (name, k)) := by
        show appendPathComponents rest false _ = _
        congr 1
        unfold renderComponent repeatSuffix
        by_cases hk : k = 0 <;> simp [hk]
      have hr : appendPathComponents ((name, k) :: rest) false []
          = appendPathComponents rest false (['.'] ++ renderComponent (name, k)) := by
        show appendPathComponents rest false _ = _
        congr 1
        unfold renderComponent repeatSuffix
        by_cases hk : k = 0 <;> simp [hk]
      rw [hl, hr, ih false _ (Or.inl rfl), ih false (['.'] ++ _) (Or.inl rfl)]
      simp
    · subst ha
      simp

theorem pathStrOf_cons (c : UniqueString × Nat) (rest : List (UniqueString × Nat)) :
    pathStrOf (c :: rest)
      = renderComponent c ++ (if rest = [] then [] else '.' :: pathStrOf rest) := by
  obtain ⟨name, k⟩ := c
  have h1 : pathStrOf ((name, k) :: rest)
      = appendPathComponents rest false (renderComponent (name, k)) := by
    show appendPathComponents rest false _ = _
    congr 1
    unfold renderComponent repeatSuffix
    by_cases hk : k = 0 <;> simp [hk]
  rw [h1, appendPathComponents_acc _ _ _ (Or.inl rfl)]
  congr 1
  cases rest with
  | nil => rfl
  | cons c2 rest2 =>
    obtain ⟨name2, k2⟩ := c2
    have h2 : appendPathComponents ((name2, k2) :: rest2) false []
        = appendPathComponents rest2 false (['.'] ++ renderComponent (name2, k2)) := by
      show appendPathComponents rest2 false _ = _
      congr 1
      unfold renderComponent repeatSuffix
      by_cases hk : k2 = 0 <;> simp [hk]
    have h3 : pathStrOf ((name2, k2) :: rest2)
        = appendPathComponents rest2 false (renderComponent (name2, k2)) := by
      show appendPathComponents rest2 false _ = _
      congr 1
      unfold renderComponent repeatSuffix
      by_cases hk : k2 = 0 <;> simp [hk]
    rw [if_neg (List.cons_ne_nil _ _), h2, h3, appendPathComponents_acc _ _ _ (Or.inl rfl),
      appendPathComponents_acc _ _ (renderComponent (name2, k2)) (Or.inl rfl)]
    simp

theorem pathStrOf_injective : ∀ (l1 l2 : List (UniqueString × Nat)),
    PlainPath l1 → PlainPath l2 → pathStrOf l1 = pathStrOf l2 → l1 = l2
  | [], [], _, _, _ => rfl
  | [], c :: rest, _, h2, h => by
    rw [pathStrOf_cons] at h
    have hne : (c.1 : List Char) ≠ [] := (h2 c (List.mem_cons_self _ _)).1
    have hnil : pathStrOf [] = [] := rfl
    rw [hnil] at h
    have := congrArg List.length h
    unfold renderComponent at this
    simp only [List.length_nil, List.length_append] at this
    have hpos : 0 < (c.1 : List Char).length := List.length_pos.2 hne
    omega
  | c :: rest, [], h1, _, h => by
    rw [pathStrOf_cons] at h
    have hne : (c.1 : List Char) ≠ [] := (h1 c (List.mem_cons_self _ _)).1
    have hnil : pathStrOf [] = [] := rfl
    rw [hnil] at h
    have := congrArg List.length h
    unfold renderComponent at this
    simp only [List.length_nil, List.length_append] at this
    have hpos : 0 < (c.1 : List Char).length := List.length_pos.2 hne
    omega
  | c1 :: rest1, c2 :: rest2, h1, h2, h => by
    rw [pathStrOf_cons, pathStrOf_cons] at h
    have hp1 := h1 c1 (List.mem_cons_self _ _)
    have hp2 := h2 c2 (List.mem_cons_self _ _)
    have hstop : ∀ (rest : List (UniqueString × Nat)),
        (if rest = [] then [] else '.' :: pathStrOf rest) = []
          ∨ (if rest = [] then [] else '.' :: pathStrOf rest).head? = some '.' := by
      intro rest
      by_cases hr : rest = []
      · left; rw [if_pos hr]
      · right; rw [if_neg hr]; rfl
    obtain ⟨hc, ht⟩ := append_stop_injective '.' _ _ _ _
      (not_mem_renderComponent_dot c1 hp1) (not_mem_renderComponent_dot c2 hp2)
      (hstop rest1) (hstop rest2) h
    have hc12 : c1 = c2 := renderComponent_injective c1 c2 hp1 hp2 hc
    have hrest : rest1 = rest2 := by
      by_cases hr1 : rest1 = []
      · by_cases hr2 : rest2 = []
        · rw [hr1, hr2]
        · rw [if_pos hr1, if_neg hr2] at ht
          exact absurd ht (by simp)
      · by_cases hr2 : rest2 = []
        · rw [if_neg hr1, if_pos hr2] at ht
          exact absurd ht (by simp)
        · rw [if_neg hr1, if_neg hr2] at ht
          exact pathStrOf_injective rest1 rest2
            (fun x hx => h1 x (List.mem_cons_of_mem _ hx))
            (fun x hx => h2 x (List.mem_cons_of_mem _ hx)) (List.cons.inj ht).2
    rw [hc12, hrest]

/-! ## Lemmas on distinct IDs -/

theorem pathStrOf_extend_ne (pv : List (UniqueString × Nat)) (c : UniqueString × Nat)
    (ext : List (UniqueString × Nat)) (hpv : PlainPath pv) (hext : PlainPath (c :: ext)) :
    pathStrOf (pv ++ c :: ext) ≠ pathStrOf pv := by
  intro h
  have hall : PlainPath (pv ++ c :: ext) := by
    intro x hx
    rcases List.mem_append.1 hx with e | e
    · exact hpv x e
    · exact hext x e
  have := pathStrOf_injective _ _ hall hpv h
  have hlen := congrArg List.length this
  simp at hlen

theorem pathStrOf_extend_inj (pv : List (UniqueString × Nat)) (c1 c2 : UniqueString × Nat)
    (e1 e2 : List (UniqueString × Nat)) (hpv : PlainPath pv)
    (h1 : PlainPath (c1 :: e1)) (h2 : PlainPath (c2 :: e2))
    (h : pathStrOf (pv ++ c1 :: e1) = pathStrOf (pv ++ c2 :: e2)) : c1 = c2 := by
  have hall : ∀ (c : UniqueString × Nat) (e : List (UniqueString × Nat)),
      PlainPath (c :: e) → PlainPath (pv ++ c :: e) := by
    intro c e hce x hx
    rcases List.mem_append.1 hx with e | e
    · exact hpv x e
    · exact hce x e
  have := pathStrOf_injective _ _ (hall c1 e1 h1) (hall c2 e2 h2) h
  exact (List.cons.inj (List.append_cancel_left this)).1

theorem numberFrom_count_le (seen names : List UniqueString) :
    ∀ c ∈ numberFrom seen names, seen.count c.1 ≤ c.2 := by
  induction names generalizing seen with
  | nil => intro c hc; exact absurd hc (List.not_mem_nil c)
  | cons n rest ih =>
    intro c hc
    have hc2 : c ∈ (n, seen.count n) :: numberFrom (seen ++ [n]) rest := hc
    rcases List.mem_cons.1 hc2 with h | h
    · rw [h]
    · have := ih (seen ++ [n]) c h
      rw [List.count_append] at this
      omega

theorem numberFrom_nodup (seen names : List UniqueString) :
    (numberFrom seen names).Nodup := by
  induction names generalizing seen with
  | nil => exact List.nodup_nil
  | cons n rest ih =>
    show ((n, seen.count n) :: numberFrom (seen ++ [n]) rest).Nodup
    refine List.nodup_cons.2 ⟨?_, ih _⟩
    intro h
    have := numberFrom_count_le (seen ++ [n]) rest _ h
    simp [List.count_append] at this

theorem numberFrom_disjoint (seen a b : List UniqueString) :
    ∀ c ∈ numberFrom seen a, c ∉ numberFrom (seen ++ a) b := by
  have h := numberFrom_nodup seen (a ++ b)
  rw [numberFrom_append] at h
  intro c hc1 hc2
  exact (List.nodup_append.1 h).2.2 hc1 hc2

theorem numberFrom_plain (seen names : List UniqueString) (h : ∀ n ∈ names, PlainName n) :
    ∀ c ∈ numberFrom seen names, PlainName c.1 := by
  intro c hc
  have hmem : c.1 ∈ (numberFrom seen names).map Prod.fst := List.mem_map_of_mem _ hc
  rw [numberFrom_map_fst] at hmem
  exact h _ hmem

theorem keysWithin_own (P : UniqueString) (i count : Nat)
    (pv comps : List (UniqueString × Nat)) (keys : List (Option (UniqueString × Nat)))
    (hP : P = pathStrOf pv) (hpv : PlainPath pv)
    (h : KeysWithin P i count pv comps keys) (hnd : keys.Nodup) :
    KeysWithin P i (count + 1) pv comps (some (P, i + count) :: keys)
      ∧ (some (P, i + count) :: keys).Nodup := by
  constructor
  · intro k hk
    rcases List.mem_cons.1 hk with e | e
    · exact ⟨P, i + count, e, Or.inl ⟨rfl, by omega, by omega⟩⟩
    · obtain ⟨Q, j, hkq, hcase⟩ := h k e
      refine ⟨Q, j, hkq, ?_⟩
      rcases hcase with ⟨hq, h1, h2⟩ | hsym
      · exact Or.inl ⟨hq, h1, by omega⟩
      · exact Or.inr hsym
  · refine List.nodup_cons.2 ⟨?_, hnd⟩
    intro hmem
    obtain ⟨Q, j, hkq, hcase⟩ := h _ hmem
    have hQ : P = Q := (Prod.mk.inj (Option.some.inj hkq)).1
    have hj : i + count = j := (Prod.mk.inj (Option.some.inj hkq)).2
    rcases hcase with ⟨_, _, h2⟩ | ⟨c, _, ext, hext, hq⟩
    · omega
    · rw [← hQ, hP] at hq
      exact pathStrOf_extend_ne pv c ext hpv hext hq.symm

theorem keysWithin_append (P : UniqueString) (i count1 count2 : Nat)
    (pv comps1 comps2 : List (UniqueString × Nat))
    (keys1 keys2 : List (Option (UniqueString × Nat)))
    (hP : P = pathStrOf pv) (hpv : PlainPath pv)
    (h1 : KeysWithin P i count1 pv comps1 keys1)
    (h2 : KeysWithin P (i + count1) count2 pv comps2 keys2)
    (hnd1 : keys1.Nodup) (hnd2 : keys2.Nodup)
    (hdis : ∀ c ∈ comps1, c ∉ comps2) :
    KeysWithin P i (count1 + count2) pv (comps1 ++ comps2) (keys1 ++ keys2)
      ∧ (keys1 ++ keys2).Nodup := by
  constructor
  · intro k hk
    rcases List.mem_append.1 hk with e | e
    · obtain ⟨Q, j, hkq, hcase⟩ := h1 k e
      refine ⟨Q, j, hkq, ?_⟩
      rcases hcase with ⟨hq, ha, hb⟩ | ⟨c, hc, ext, hext, hq⟩
      · exact Or.inl ⟨hq, ha, by omega⟩
      · exact Or.inr ⟨c, List.mem_append_left _ hc, ext, hext, hq⟩
    · obtain ⟨Q, j, hkq, hcase⟩ := h2 k e
      refine ⟨Q, j, hkq, ?_⟩
      rcases hcase with ⟨hq, ha, hb⟩ | ⟨c, hc, ext, hext, hq⟩
      · exact Or.inl ⟨hq, by omega, by omega⟩
      · exact Or.inr ⟨c, List.mem_append_right _ hc, ext, hext, hq⟩
  · refine List.nodup_append.2 ⟨hnd1, hnd2, ?_⟩
    intro k hk1 hk2
    obtain ⟨Q1, j1, hkq1, hcase1⟩ := h1 k hk1
    obtain ⟨Q2, j2, hkq2, hcase2⟩ := h2 k hk2
    have hsame : (Q1, j1) = (Q2, j2) := Option.some.inj (hkq1.symm.trans hkq2)
    have hQ : Q1 = Q2 := (Prod.mk.inj hsame).1
    have hj : j1 = j2 := (Prod.mk.inj hsame).2
    rcases hcase1 with ⟨hq1, _, hb1⟩ | ⟨c1, hc1, e1, hext1, hq1⟩
    · rcases hcase2 with ⟨_, ha2, _⟩ | ⟨c2, _, e2, hext2, hq2⟩
      · omega
      · rw [← hQ, hq1, hP] at hq2
        exact pathStrOf_extend_ne pv c2 e2 hpv hext2 hq2.symm
    · rcases hcase2 with ⟨hq2, _, _⟩ | ⟨c2, hc2, e2, hext2, hq2⟩
      · rw [hQ, hq2, hP] at hq1
        exact pathStrOf_extend_ne pv c1 e1 hpv hext1 hq1.symm
      · rw [hQ, hq2] at hq1
        have := pathStrOf_extend_inj pv c2 c1 e2 e1 hpv hext2 hext1 hq1
        exact hdis c1 hc1 (this ▸ hc2)

theorem keysWithin_decl (P : UniqueString) (i count : Nat)
    (pv comps : List (UniqueString × Nat)) (nk : UniqueString × Nat)
    (keys : List (Option (UniqueString × Nat)))
    (hP : P = pathStrOf pv) (hpv : PlainPath pv) (hnk : PlainName nk.1)
    (h : KeysWithin (pathStrOf (pv ++ [nk])) 0 count (pv ++ [nk]) comps keys)
    (hnd : keys.Nodup) :
    KeysWithin P i 1 pv [nk] (some (P, i) :: keys) ∧ (some (P, i) :: keys).Nodup := by
  have hinner : ∀ k ∈ keys, ∃ Q j, k = some (Q, j) ∧
      ∃ ext, PlainPath (nk :: ext) ∧ Q = pathStrOf (pv ++ nk :: ext) := by
    intro k hk
    obtain ⟨Q, j, hkq, hcase⟩ := h k hk
    refine ⟨Q, j, hkq, ?_⟩
    rcases hcase with ⟨hq, _, _⟩ | ⟨c, hc, ext, hext, hq⟩
    · refine ⟨[], ?_, ?_⟩
      · intro x hx
        have hxe : x = nk := by simpa using hx
        rw [hxe]
        exact hnk
      · rw [hq]
    · refine ⟨c :: ext, ?_, ?_⟩
      · intro x hx
        rcases List.mem_cons.1 hx with e | e
        · rw [e]; exact hnk
        · exact hext x e
      · rw [hq, List.append_assoc]
        rfl
  constructor
  · intro k hk
    rcases List.mem_cons.1 hk with e | e
    · exact ⟨P, i, e, Or.inl ⟨rfl, Nat.le_refl _, by omega⟩⟩
    · obtain ⟨Q, j, hkq, ext, hext, hq⟩ := hinner k e
      exact ⟨Q, j, hkq, Or.inr ⟨nk, List.mem_singleton.2 rfl, ext, hext, hq⟩⟩
  · refine List.nodup_cons.2 ⟨?_, hnd⟩
    intro hmem
    obtain ⟨Q, j, hkq, ext, hext, hq⟩ := hinner _ hmem
    have hQ : P = Q := (Prod.mk.inj (Option.some.inj hkq)).1
    rw [← hQ, hP] at hq
    exact pathStrOf_extend_ne pv nk ext hpv hext hq.symm

theorem keysWithin_nil (P : UniqueString) (i count : Nat)
    (pv comps : List (UniqueString × Nat)) : KeysWithin P i count pv comps [] :=
  fun k hk => absurd hk (List.not_mem_nil k)

theorem plainPath_snoc (pv : List (UniqueString × Nat)) (nk : UniqueString × Nat)
    (hpv : PlainPath pv) (hnk : PlainName nk.1) : PlainPath (pv ++ [nk]) := by
  intro x hx
  rcases List.mem_append.1 hx with e | e
  · exact hpv x e
  · have hxe : x = nk := by simpa using e
    rw [hxe]
    exact hnk

mutual
theorem doAssignIDs_distinct : ∀ (ast : ASTBase) (i : Nat)
    (pv : List (UniqueString × Nat)) (seen : List UniqueString),
    PlainPath pv → (∀ s ∈ symsOf ast, PlainName s.name) →
    KeysWithin (pathStrOf pv) i (numberedCount ast) pv
        (numberFrom seen ((declsOf ast).map Sym.name))
        ((allIDs (doAssignIDs ast (pathStrOf pv) i pv (duplicatesAfter seen)).1).map idKey)
      ∧ ((allIDs (doAssignIDs ast (pathStrOf pv) i pv
          (duplicatesAfter seen)).1).map idKey).Nodup
  | .comment _, i, pv, seen, _, _ => by
    simp only [doAssignIDs, allIDs, List.map_nil]
    exact ⟨keysWithin_nil _ _ _ _ _, List.nodup_nil⟩
  | .exp _ _ children, i, pv, seen, hpv, hn => by
    have ih := doAssignIDsChildren_distinct children i pv seen hpv
      (fun s hs => hn s (by simpa only [symsOf] using hs))
    simp only [doAssignIDs, allIDs, List.map_cons, numberedCount, declsOf]
    rw [doAssignIDsChildren_counter]
    exact keysWithin_own _ _ _ _ _ _ rfl hpv ih.1 ih.2
  | .decl _ _ sym, i, pv, seen, hpv, hn => by
    have hname : PlainName sym.name := hn sym (by simp only [symsOf, List.mem_cons, true_or])
    have hpv1 : PlainPath (pv ++ [(sym.name, seen.count sym.name)]) :=
      plainPath_snoc pv _ hpv hname
    have ih := doAssignIDsSym_distinct sym 0 (pv ++ [(sym.name, seen.count sym.name)]) []
      hpv1 (fun s hs => hn s (by simp only [symsOf, List.mem_cons, hs, or_true]))
    rw [duplicatesAfter_nil] at ih
    simp only [doAssignIDs, allIDs, List.map_cons, numberedCount, declsOf, List.map_nil,
      nextRepeat_duplicatesAfter]
    exact keysWithin_decl (pathStrOf pv) i _ pv _ (sym.name, seen.count sym.name) _ rfl hpv
      hname ih.1 ih.2
theorem doAssignIDsSym_distinct : ∀ (sym : Sym) (i : Nat)
    (pv : List (UniqueString × Nat)) (seen : List UniqueString),
    PlainPath pv → (∀ s ∈ symsInside sym, PlainName s.name) →
    KeysWithin (pathStrOf pv) i (numberedCountList sym.children + 1) pv
        (numberFrom seen ((declsOfList sym.children).map Sym.name))
        ((allIDsSym (doAssignIDsSym sym (pathStrOf pv) i pv
          (duplicatesAfter seen)).1).map idKey)
      ∧ ((allIDsSym (doAssignIDsSym sym (pathStrOf pv) i pv
          (duplicatesAfter seen)).1).map idKey).Nodup
  | .mk _ _ _ _ children, i, pv, seen, hpv, hn => by
    have ih := doAssignIDsChildren_distinct children i pv seen hpv
      (fun s hs => hn s (by simpa only [symsInside] using hs))
    simp only [doAssignIDsSym, allIDsSym, List.map_cons, Sym.children]
    rw [doAssignIDsChildren_counter]
    exact keysWithin_own _ _ _ _ _ _ rfl hpv ih.1 ih.2
theorem doAssignIDsChildren_distinct : ∀ (children : List ASTBase) (i : Nat)
    (pv : List (UniqueString × Nat)) (seen : List UniqueString),
    PlainPath pv → (∀ s ∈ symsOfList children, PlainName s.name) →
    KeysWithin (pathStrOf pv) i (numberedCountList children) pv
        (numberFrom seen ((declsOfList children).map Sym.name))
        ((allIDsList (doAssignIDsChildren children (pathStrOf pv) i pv
          (duplicatesAfter seen)).1).map idKey)
      ∧ ((allIDsList (doAssignIDsChildren children (pathStrOf pv) i pv
          (duplicatesAfter seen)).1).map idKey).Nodup
  | [], i, pv, seen, _, _ => by
    simp only [doAssignIDsChildren, allIDsList, List.map_nil]
    exact ⟨keysWithin_nil _ _ _ _ _, List.nodup_nil⟩
  | child :: rest, i, pv, seen, hpv, hn => by
    have ih1 := doAssignIDs_distinct child i pv seen hpv
      (fun s hs => hn s (by simp only [symsOfList, List.mem_append, hs, true_or]))
    have ih2 := doAssignIDsChildren_distinct rest (i + numberedCount child) pv
      (seen ++ (declsOf child).map Sym.name) hpv
      (fun s hs => hn s (by simp only [symsOfList, List.mem_append, hs, or_true]))
    simp only [doAssignIDsChildren, allIDsList, List.map_append, numberedCountList,
      declsOfList, numberFrom_append]
    rw [doAssignIDs_counter, (doAssignIDs_declared child (pathStrOf pv) i pv seen).1]
    exact keysWithin_append _ _ _ _ _ _ _ _ _ rfl hpv ih1.1 ih2.1 ih1.2 ih2.2
      (numberFrom_disjoint seen _ _)
end

theorem assignIDsLoop_eq_children (exps : List ASTBase) (i : Nat)
    (duplicates : UniqueString → Option Nat) (h : ∀ e ∈ exps, e.isModuleDecl = true) :
    assignIDsLoop exps i duplicates
      = some (doAssignIDsChildren exps [] i [] duplicates).1 := by
  have h2 := assignIDsLoop_append exps [] i duplicates h
  rw [List.append_nil] at h2
  rw [h2]
  simp [assignIDsLoop]

/-- C32. For every list of top-level module declarations whose symbol names, at every
depth, are non-empty and contain neither `.` nor `#`, `assignIDs` returns, every
non-comment node of the result (declaration nodes, symbol nodes and all other nodes) has
an ID, and the pairs of symbol path and postorder index of these IDs are pairwise
distinct. -/
theorem assigned_ids_distinct (b : Builder) (inferredModule : UniqueString)
    (hmods : ∀ e ∈ b.topLevelExps_, e.isModuleDecl = true)
    (hnames : ∀ s ∈ symsOfList b.topLevelExps_, PlainName s.name) :
    ∃ b1, b.assignIDs inferredModule = some b1
      ∧ (∀ x ∈ allIDsList b1.topLevelExps_, x.isSome = true)
      ∧ ((allIDsList b1.topLevelExps_).map idKey).Nodup := by
  have hpv : PlainPath [] := fun x hx => absurd hx (List.not_mem_nil x)
  have hmain := doAssignIDsChildren_distinct b.topLevelExps_ 0 [] [] hpv hnames
  rw [duplicatesAfter_nil] at hmain
  have hpath : pathStrOf [] = [] := rfl
  rw [hpath] at hmain
  refine ⟨{ b with
    topLevelExps_ := (doAssignIDsChildren b.topLevelExps_ [] 0 [] (fun _ => none)).1 },
    ?_, ?_, hmain.2⟩
  · unfold Builder.assignIDs
    rw [assignIDsLoop_eq_children _ _ _ hmods]
    rfl
  · intro x hx
    obtain ⟨Q, j, hk, _⟩ := hmain.1 (idKey x) (List.mem_map_of_mem _ hx)
    cases x with
    | none => simp [idKey] at hk
    | some v => rfl

/-- C32 on the module `M` with two functions `f`, the second with statements and comments
in its body. -/
theorem assigned_ids_distinct_witness :
    ∃ b1, (exampleBuilder ['M', '.', 'c'] ['M'] [twoFunctions]).assignIDs [] = some b1
      ∧ (∀ x ∈ allIDsList b1.topLevelExps_, x.isSome = true)
      ∧ ((allIDsList b1.topLevelExps_).map idKey).Nodup :=
  assigned_ids_distinct (exampleBuilder ['M', '.', 'c'] ['M'] [twoFunctions]) []
    (fun e he => by
      rcases List.mem_cons.1 he with h | h
      · rw [h]; rfl
      · exact absurd h (List.not_mem_nil e))
    (fun s hs => by
      have hs2 : s ∈ [Sym.mk ['M'] Visibility.VISIBILITY_DEFAULT
          (some ModuleKind.DEFAULT_MODULE_KIND) none
            [exampleFunction ['f'] [],
             exampleFunction ['f']
              [.comment none, .exp 7 none [.exp 8 none [], .comment none]]],
          Sym.mk ['f'] Visibility.VISIBILITY_DEFAULT none none [],
          Sym.mk ['f'] Visibility.VISIBILITY_DEFAULT none none
            [.comment none, .exp 7 none [.exp 8 none [], .comment none]]] := hs
      rcases List.mem_cons.1 hs2 with h | h
      · rw [h]; exact ⟨by decide, by decide, by decide⟩
      · rcases List.mem_cons.1 h with h | h
        · rw [h]; exact ⟨by decide, by decide, by decide⟩
        · rcases List.mem_cons.1 h with h | h
          · rw [h]; exact ⟨by decide, by decide, by decide⟩
          · exact absurd h (List.not_mem_nil s))

end chpl
